import Mathlib

/-!
Verification of the B+tree bucket engine of an embedded key-value store.

The development shallowly embeds `src/bucket.rs` (the only source file of the
repository core).  The collaborating modules (`cursor.rs`, `node.rs`,
`data.rs`, `page.rs`, `transaction.rs`) are not part of the source tree; the
pieces of them that the bucket needs are modelled from the specification, and
each such definition carries a doc comment saying so.

Byte strings are `List Nat`, machine integers are `Nat` (the auto-increment
counter asserts on overflow in the source, so no wrap-around is modelled),
page reads are a collaborator function `Nat → Option NodeData`, and all
recursion through the page graph is fuel-indexed: a result `none` means the
computation was not modelled to completion (insufficient fuel or a failing
collaborator page read), never a logical error of the engine.  Logical errors
are `Except DbError` values.
-/

set_option autoImplicit false

/-- Keys and values are byte strings. -/
abbrev Bytes := List Nat

/-- Strict lexicographic byte-string order (the sort order of all entries). -/
def bytesLt : Bytes → Bytes → Bool
  | [], [] => false
  | [], _ :: _ => true
  | _ :: _, [] => false
  | a :: as, b :: bs => if a < b then true else if a == b then bytesLt as bs else false

/-- Non-strict lexicographic byte-string order. -/
def bytesLe (a b : Bytes) : Bool := bytesLt a b || a == b

/-- Errors surfaced by the core (`errors.rs` is a collaborator; the variants
are those named by `bucket.rs`). -/
inductive DbError where
  | ReadOnlyTx
  | BucketMissing
  | BucketExists
  | IncompatibleValue
  | KeyValueMissing
deriving Repr, DecidableEq

/-- Persisted header of a bucket: `BucketMeta { root_page, next_int }` from
`bucket.rs`. -/
structure BucketMeta where
  root_page : Nat
  next_int : Nat
deriving Repr, DecidableEq

/-- Modelled from the spec: `Data` (`data.rs` is not under `src/`): a tagged
union of a key/value pair and a nested-bucket entry carrying the child's
`BucketMeta`.  Both variants carry a key. -/
inductive Data where
  | keyValue (key value : Bytes)
  | bucket (name : Bytes) (meta : BucketMeta)
deriving Repr, DecidableEq

/-- The key of an entry (both variants carry one). -/
def Data.key : Data → Bytes
  | .keyValue k _ => k
  | .bucket n _ => n

/-- Modelled from the spec: `Data::is_kv` — whether the entry is key/value
data rather than a nested bucket. -/
def Data.is_kv : Data → Bool
  | .keyValue _ _ => true
  | .bucket _ _ => false

/-- Modelled from the spec: `Branch` (`node.rs` is not under `src/`): a child
pointer `{key, page}` of a branch node.  The child is addressed by its page
id; resolution to an already-materialized node goes through the bucket's
`page_node_ids` memo table, mirroring `Bucket::page_node`. -/
structure Branch where
  key : Bytes
  page : Nat
deriving Repr, DecidableEq

/-- Modelled from the spec: `NodeData` (`node.rs` is not under `src/`): a node
holds either leaf entries or branch pointers, each kept sorted by key. -/
inductive NodeData where
  | leaves (l : List Data)
  | branches (l : List Branch)
deriving Repr, DecidableEq

/-- Modelled from the spec: `Node` (`node.rs` is not under `src/`): the
mutable staging form of one page: arena id, originating page id, data, and
the deleted flag set when a node is merged away. -/
structure Node where
  id : Nat
  page_id : Nat
  data : NodeData
  deleted : Bool
deriving Repr, DecidableEq

/-- Whether this node holds leaf data (`Node::leaf`). -/
def Node.leaf (n : Node) : Bool :=
  match n.data with
  | .leaves _ => true
  | .branches _ => false

/-- Modelled from the spec: `NodeData::key_parts` — the first key of the
node's data, used to key the child pointer inserted into a parent when a page
is materialized. -/
def NodeData.key_parts : NodeData → Bytes
  | .leaves l => ((l.head?).map Data.key).getD []
  | .branches br => ((br.head?).map Branch.key).getD []

/-- Number of entries in a node; the spec's page-capacity checks are
abstracted to entry counts. -/
def NodeData.size : NodeData → Nat
  | .leaves l => l.length
  | .branches br => br.length

/-- `PageNodeID` (`cursor.rs` declares it; modelled from the spec): either an
on-disk page id or an arena node id. -/
inductive PageNodeID where
  | page (p : Nat)
  | node (n : Nat)
deriving Repr, DecidableEq

/-- Modelled from the spec: the slice of `TransactionInner` the bucket uses:
whether the transaction is writable, and the collaborator page-read service
(`tx.page(id)`), returning the decoded entries of the page.  `copy_data` is
the identity on our pure byte strings and is not modelled separately. -/
structure TransactionInner where
  writable : Bool
  page : Nat → Option NodeData

/-- The non-recursive fields of `Bucket` (see `Bucket`). -/
structure BucketCore where
  meta : BucketMeta
  root : PageNodeID
  dirty : Bool
  nodes : List Node
  page_node_ids : List (Nat × Nat)
  page_parents : List (Nat × Nat)
deriving Repr

/-- `Bucket` from `bucket.rs`: meta, root pointer, dirty flag, node arena,
the PageID→NodeID memo map, the PageID→parent-PageID map, and the name→child
map of materialized nested buckets.  The maps are association lists whose
insert conses a pair (newest entry wins), matching `HashMap::insert`
overwrite semantics for the access patterns of the source. -/
inductive Bucket where
  | mk (core : BucketCore) (buckets : List (Bytes × Bucket))

/-- The non-recursive fields of a bucket. -/
def Bucket.core : Bucket → BucketCore
  | .mk c _ => c

/-- The nested-bucket cache of a bucket. -/
def Bucket.buckets : Bucket → List (Bytes × Bucket)
  | .mk _ bs => bs

def Bucket.meta (b : Bucket) : BucketMeta := b.core.meta
def Bucket.root (b : Bucket) : PageNodeID := b.core.root
def Bucket.dirty (b : Bucket) : Bool := b.core.dirty
def Bucket.nodes (b : Bucket) : List Node := b.core.nodes
def Bucket.page_node_ids (b : Bucket) : List (Nat × Nat) := b.core.page_node_ids
def Bucket.page_parents (b : Bucket) : List (Nat × Nat) := b.core.page_parents

def Bucket.withCore (b : Bucket) (c : BucketCore) : Bucket := .mk c b.buckets
def Bucket.withBuckets (b : Bucket) (bs : List (Bytes × Bucket)) : Bucket := .mk b.core bs
def Bucket.withMeta (b : Bucket) (m : BucketMeta) : Bucket := b.withCore { b.core with meta := m }
def Bucket.withRoot (b : Bucket) (r : PageNodeID) : Bucket := b.withCore { b.core with root := r }
def Bucket.withDirty (b : Bucket) (d : Bool) : Bucket := b.withCore { b.core with dirty := d }
def Bucket.withNodes (b : Bucket) (ns : List Node) : Bucket := b.withCore { b.core with nodes := ns }
def Bucket.withMemo (b : Bucket) (m : List (Nat × Nat)) : Bucket := b.withCore { b.core with page_node_ids := m }
def Bucket.withParents (b : Bucket) (ps : List (Nat × Nat)) : Bucket := b.withCore { b.core with page_parents := ps }

/-- `next_int` accessor (`Bucket::next_int`). -/
def Bucket.next_int (b : Bucket) : Nat := b.meta.next_int

/-- First-match association-list lookup over `Nat` keys. -/
def lookupA : List (Nat × Nat) → Nat → Option Nat
  | [], _ => none
  | (a, v) :: rest, k => if a == k then some v else lookupA rest k

/-- First-match association-list lookup over byte-string keys. -/
def lookupB : List (Bytes × Bucket) → Bytes → Option Bucket
  | [], _ => none
  | (a, v) :: rest, k => if a == k then some v else lookupB rest k

/-- `Bucket::page_node`, as a content view: resolve a page id to the data of
its already-materialized node if the memo table has it, else to the raw page
read through the transaction. -/
def Bucket.page_node (tx : TransactionInner) (b : Bucket) (p : Nat) : Option NodeData :=
  match lookupA b.page_node_ids p with
  | some nid => (b.nodes[nid]?).map Node.data
  | none => tx.page p

/-- The page id the bucket's root pointer stands for: the page itself, or the
originating page of the root node. -/
def Bucket.rootPageId (b : Bucket) : Nat :=
  match b.root with
  | .page p => p
  | .node n => ((b.nodes[n]?).map Node.page_id).getD 0

/-- `Bucket::add_page_parent`: record the parent page of a page visited
during a descent. -/
def Bucket.add_page_parent (b : Bucket) (page parent : Nat) : Bucket :=
  b.withParents ((page, parent) :: b.page_parents)

/-- Position of the first leaf entry whose key is not below `key` (the
lower-bound position a B+tree seek leaves the cursor at). -/
def leafIdx (key : Bytes) : List Data → Nat
  | [] => 0
  | d :: rest => if bytesLt d.key key then leafIdx key rest + 1 else 0

/-- Whether the leaf holds an entry with exactly `key` at the seek position. -/
def leafFound (key : Bytes) (l : List Data) : Bool :=
  match l[leafIdx key l]? with
  | some d => d.key == key
  | none => false

/-- Number of leading branch entries whose key is at most `key`. -/
def countLe (key : Bytes) : List Branch → Nat
  | [] => 0
  | c :: rest => if bytesLe c.key key then countLe key rest + 1 else 0

/-- Index of the child a B+tree descent follows: the last child whose key is
at most the sought key, or the first child when every key is above it. -/
def selectIdx (key : Bytes) (br : List Branch) : Nat := countLe key br - 1

/-- Outcome of a cursor seek: whether the exact key was found, the page id of
the leaf reached, the entry index within it, the entry at that position, and
the page-id path of the descent from the root to the leaf. -/
structure SeekRes where
  found : Bool
  leafPage : Nat
  index : Nat
  current : Option Data
  path : List Nat
deriving Repr, DecidableEq

/-- Modelled from the spec: the pure descent of `Cursor::seek` (`cursor.rs`
is not under `src/`), over an arbitrary content view `V` of page ids: at each
branch node follow the last child whose key is at most the sought key, until
a leaf is reached. -/
def seekPure (V : Nat → Option NodeData) (key : Bytes) : Nat → Nat → Option SeekRes
  | 0, _ => none
  | fuel + 1, p =>
    match V p with
    | none => none
    | some (.leaves l) => some ⟨leafFound key l, p, leafIdx key l, l[leafIdx key l]?, [p]⟩
    | some (.branches br) =>
      match br[selectIdx key br]? with
      | none => none
      | some c => (seekPure V key fuel c.page).map (fun r => { r with path := p :: r.path })

/-- Record the parent of every page entered during a descent along `path`
(the successive `Bucket::add_page_parent` calls of `Cursor::seek`). -/
def recordPath : Bucket → List Nat → Bucket
  | b, a :: c :: rest => recordPath (b.add_page_parent c a) (c :: rest)
  | b, _ => b

/-- Modelled from the spec: `Cursor::seek` — descend from the bucket's root,
recording page parents along the way (`cursor.rs` is not under `src/`). -/
def Bucket.seek (tx : TransactionInner) (key : Bytes) (fuel : Nat) (b : Bucket) :
    Option (Bucket × SeekRes) :=
  (seekPure (Bucket.page_node tx b) key fuel (b.rootPageId)).map
    (fun r => (recordPath b r.path, r))

/-- Replace the data of arena node `nid` by `f` applied to it (the in-place
node mutations done through the cursor's node reference). -/
def Bucket.modifyNodeData (b : Bucket) (nid : Nat) (f : NodeData → NodeData) : Bucket :=
  match b.nodes[nid]? with
  | some n => b.withNodes (b.nodes.set nid { n with data := f n.data })
  | none => b

/-- Mark arena node `nid` deleted (`node.deleted = true`). -/
def Bucket.markDeleted (b : Bucket) (nid : Nat) : Bucket :=
  match b.nodes[nid]? with
  | some n => b.withNodes (b.nodes.set nid { n with deleted := true })
  | none => b

/-- Position of the first branch entry whose key is not below `key`. -/
def branchIdx (key : Bytes) : List Branch → Nat
  | [] => 0
  | c :: rest => if bytesLt c.key key then branchIdx key rest + 1 else 0

/-- Modelled from the spec: `Node::insert_child` — add or update, keyed by
`key`, the child pointer for the page `childPage` that was just materialized
(binary search by key; exact hit updates the pointer, miss inserts). -/
def insert_child (childPage : Nat) (key : Bytes) (br : List Branch) : List Branch :=
  match br[branchIdx key br]? with
  | some c =>
    if c.key == key then br.set (branchIdx key br) ⟨key, childPage⟩
    else br.insertIdx (branchIdx key br) ⟨key, childPage⟩
  | none => br.insertIdx (branchIdx key br) ⟨key, childPage⟩

/-- Modelled from the spec: the leaf part of `Node::insert_data` — insert or
overwrite, by key, an entry of a sorted leaf. -/
def upsertData (d : Data) (l : List Data) : List Data :=
  if leafFound d.key l then l.set (leafIdx d.key l) d else l.insertIdx (leafIdx d.key l) d

/-- Modelled from the spec: `Node::insert_data` on the node's data. -/
def Node.insert_data (nd : NodeData) (d : Data) : NodeData :=
  match nd with
  | .leaves l => .leaves (upsertData d l)
  | .branches br => .branches br

/-- Modelled from the spec: `Node::delete` on the node's data — remove the
entry at the given position. -/
def Node.delete_at (nd : NodeData) (i : Nat) : NodeData :=
  match nd with
  | .leaves l => .leaves (l.eraseIdx i)
  | .branches br => .branches br

/-- `Bucket::node`, the materialization entry point: a node id is returned
from the arena; a page id is looked up in the memo table, and on a miss the
page is decoded into a fresh arena node, the memo entry recorded, and —
unless the page is the root — the parent page resolved recursively to a node
that receives a child pointer keyed by the new node's first key. -/
def Bucket.node (tx : TransactionInner) : Nat → Bucket → PageNodeID → Option (Nat × Bucket)
  | _, b, .node nid => if nid < b.nodes.length then some (nid, b) else none
  | 0, _, .page _ => none
  | fuel + 1, b, .page p =>
    match lookupA b.page_node_ids p with
    | some nid => some (nid, b)
    | none =>
      match tx.page p with
      | none => none
      | some d =>
        let nid := b.nodes.length
        let b1 := (b.withMemo ((p, nid) :: b.page_node_ids)).withNodes
          (b.nodes ++ [⟨nid, p, d, false⟩])
        if p == b1.meta.root_page then some (nid, b1)
        else
          let node_key := d.key_parts
          match lookupA b1.page_parents p with
          | none => none
          | some pp =>
            match Bucket.node tx fuel b1 (.page pp) with
            | none => none
            | some (pid, b2) =>
              match b2.nodes[pid]? with
              | none => none
              | some pn =>
                match pn.data with
                | .branches br =>
                  some (nid, b2.modifyNodeData pid (fun _ => .branches (insert_child p node_key br)))
                | .leaves _ => none

/-- `Bucket::get`: seek the key and return the entry when found, paired with
the bucket (whose `page_parents` the descent recorded). -/
def Bucket.get (tx : TransactionInner) (fuel : Nat) (b : Bucket) (key : Bytes) :
    Option (Option Data × Bucket) :=
  match Bucket.seek tx key fuel b with
  | none => none
  | some (b1, r) => if r.found then some (r.current, b1) else some (none, b1)

/-- `Bucket::put_data`: seek the key; on an exact hit of the other entry kind
fail with `IncompatibleValue`; on a miss increment `next_int`; then
materialize the leaf, insert the entry, and mark the bucket dirty. -/
def Bucket.put_data (tx : TransactionInner) (fuel : Nat) (b : Bucket) (data : Data) :
    Option (Except DbError Unit × Bucket) :=
  match Bucket.seek tx data.key fuel b with
  | none => none
  | some (b1, r) =>
    let step := fun (b1 : Bucket) =>
      match Bucket.node tx fuel b1 (.page r.leafPage) with
      | none => none
      | some (nid, b2) =>
        some (Except.ok (), (b2.modifyNodeData nid (fun nd => Node.insert_data nd data)).withDirty true)
    if r.found then
      match r.current with
      | none => none
      | some cur =>
        if cur.is_kv != data.is_kv then some (.error .IncompatibleValue, b1)
        else step b1
    else
      step (b1.withMeta { b1.meta with next_int := b1.meta.next_int + 1 })

/-- `Bucket::put`: reject on a read-only transaction, then upsert the
key/value entry through `put_data`. -/
def Bucket.put (tx : TransactionInner) (fuel : Nat) (b : Bucket) (key value : Bytes) :
    Option (Except DbError Unit × Bucket) :=
  if !tx.writable then some (.error .ReadOnlyTx, b)
  else Bucket.put_data tx fuel b (.keyValue key value)

/-- `Bucket::delete`: seek the key; fail with `KeyValueMissing` when absent
and `IncompatibleValue` when the entry is a nested bucket; otherwise mark the
bucket dirty, materialize the leaf and remove the entry, returning it. -/
def Bucket.delete (tx : TransactionInner) (fuel : Nat) (b : Bucket) (key : Bytes) :
    Option (Except DbError Data × Bucket) :=
  match Bucket.seek tx key fuel b with
  | none => none
  | some (b1, r) =>
    if r.found then
      match r.current with
      | none => none
      | some d =>
        if d.is_kv then
          let b1 := b1.withDirty true
          match Bucket.node tx fuel b1 (.page r.leafPage) with
          | none => none
          | some (nid, b2) =>
            match b2.nodes[nid]? with
            | none => none
            | some n =>
              match n.data with
              | .leaves l =>
                match l[r.index]? with
                | none => none
                | some removed =>
                  some (.ok removed, b2.modifyNodeData nid (fun nd => Node.delete_at nd r.index))
              | .branches _ => none
        else some (.error .IncompatibleValue, b1)
    else some (.error .KeyValueMissing, b1)

/-- `Bucket::new_child`: allocate a fresh empty nested bucket: default meta,
root pointing at arena node 0, dirty, a single empty leaf node, and the memo
entry `0 ↦ 0` that `new_child` records. -/
def Bucket.new_child (b : Bucket) (name : Bytes) : Bucket :=
  let child : Bucket := .mk
    { meta := ⟨0, 0⟩, root := .node 0, dirty := true,
      nodes := [⟨0, 0, .leaves [], false⟩],
      page_node_ids := [(0, 0)], page_parents := [] } []
  b.withBuckets ((name, child) :: b.buckets)

/-- `Bucket::new_node`: push a fresh node built from `data` onto the arena
(`Node::with_data`; a node not originating from a page has page id 0). -/
def Bucket.new_node (b : Bucket) (data : NodeData) : Nat × Bucket :=
  let nid := b.nodes.length
  (nid, b.withNodes (b.nodes ++ [⟨nid, 0, data, false⟩]))

/-- `Bucket::create_bucket`: reject on a read-only transaction; mark the
bucket dirty; seek the name; fail with `IncompatibleValue` when a key/value
entry holds it and `BucketExists` when a bucket does; otherwise increment
`next_int`, allocate the child, and insert a bucket entry carrying the
child's meta into the leaf.  The returned name stands for the `&mut Bucket`
handle the source returns. -/
def Bucket.create_bucket (tx : TransactionInner) (fuel : Nat) (b : Bucket) (name : Bytes) :
    Option (Except DbError Bytes × Bucket) :=
  if !tx.writable then some (.error .ReadOnlyTx, b)
  else
    let b := b.withDirty true
    match Bucket.seek tx name fuel b with
    | none => none
    | some (b1, r) =>
      if r.found then
        match r.current with
        | none => none
        | some cur =>
          if cur.is_kv then some (.error .IncompatibleValue, b1)
          else some (.error .BucketExists, b1)
      else
        let b1 := b1.withMeta { b1.meta with next_int := b1.meta.next_int + 1 }
        let b1 := b1.new_child name
        match lookupB b1.buckets name with
        | none => none
        | some child =>
          let data : Data := .bucket name child.meta
          match Bucket.node tx fuel b1 (.page r.leafPage) with
          | none => none
          | some (nid, b2) =>
            some (.ok name, b2.modifyNodeData nid (fun nd => Node.insert_data nd data))

/-- `Bucket::from_meta`: the in-memory handle of a nested bucket read from
its persisted meta. -/
def Bucket.from_meta (m : BucketMeta) : Bucket :=
  .mk { meta := m, root := .page m.root_page, dirty := false,
        nodes := [], page_node_ids := [], page_parents := [] } []

/-- `Bucket::get_bucket`: return the cached child when present; otherwise
seek the name, failing with `BucketMissing` when absent and
`IncompatibleValue` when the entry is key/value data, else cache a bucket
built from the found meta. -/
def Bucket.get_bucket (tx : TransactionInner) (fuel : Nat) (b : Bucket) (name : Bytes) :
    Option (Except DbError Unit × Bucket) :=
  match lookupB b.buckets name with
  | some _ => some (.ok (), b)
  | none =>
    match Bucket.seek tx name fuel b with
    | none => none
    | some (b1, r) =>
      if r.found then
        match r.current with
        | some (.bucket _ m) =>
          some (.ok (), b1.withBuckets ((name, Bucket.from_meta m) :: b1.buckets))
        | some (.keyValue _ _) => some (.error .IncompatibleValue, b1)
        | none => some (.error .BucketMissing, b1)
      else some (.error .BucketMissing, b1)

/-- Fill thresholds; the spec's configurable fill threshold and page capacity
are abstracted to entry counts. -/
def minFill : Nat := 2

/-- Maximum entries a node holds before it must split. -/
def maxFill : Nat := 4

/-- Modelled from the spec: `Node::merge` (`node.rs` is not under `src/`) —
the bottom-up pass over a node: merge materialized children first, drop (and
mark deleted) children that have become completely empty, and report whether
the node is below the fill threshold so the caller may consider collapsing.
The folding of underflowed children into adjacent siblings is abstracted to
the removal of emptied children; unmaterialized children are pages and are
left untouched. -/
def Bucket.mergeNode (tx : TransactionInner) : Nat → Bucket → Nat → Bool × Bucket
  | 0, b, _ => (false, b)
  | fuel + 1, b, nid =>
    match b.nodes[nid]? with
    | none => (false, b)
    | some n =>
      match n.data with
      | .leaves l => (decide (l.length < minFill), b)
      | .branches br =>
        let b := br.foldl (fun acc c =>
          match lookupA acc.page_node_ids c.page with
          | some cid => (Bucket.mergeNode tx fuel acc cid).2
          | none => acc) b
        let step := fun (acc : List Branch × Bucket) (c : Branch) =>
          match lookupA acc.2.page_node_ids c.page with
          | some cid =>
            match acc.2.nodes[cid]? with
            | some cn =>
              if cn.data.size == 0 then (acc.1, acc.2.markDeleted cid)
              else (acc.1 ++ [c], acc.2)
            | none => (acc.1 ++ [c], acc.2)
          | none => (acc.1 ++ [c], acc.2)
        let fin := br.foldl step ([], b)
        let b := fin.2.modifyNodeData nid (fun _ => .branches fin.1)
        (decide (fin.1.length < minFill), b)

/-- Split a list into pieces of at most `k` entries (fuel-indexed). -/
def chunksOf {α : Type} (k : Nat) : Nat → List α → List (List α)
  | 0, _ => []
  | fuel + 1, l => if l.isEmpty then [] else l.take k :: chunksOf k fuel (l.drop k)

/-- `Branch::from_node`: the branch descriptor pointing at a node. -/
def Branch.from_node (n : Node) : Branch := ⟨n.data.key_parts, n.page_id⟩

/-- Modelled from the spec: `Node::split` (`node.rs` is not under `src/`) —
when the node exceeds the page capacity, keep the first piece in place,
push each further piece as a fresh sibling node, and return the sibling
branch descriptors; `none` when no split is needed. -/
def Bucket.splitNode (b : Bucket) (nid : Nat) : Bucket × Option (List Branch) :=
  match b.nodes[nid]? with
  | none => (b, none)
  | some n =>
    if n.data.size ≤ maxFill then (b, none)
    else
      match n.data with
      | .leaves l =>
        let b := b.modifyNodeData nid (fun _ => .leaves (l.take maxFill))
        let pieces := chunksOf maxFill l.length (l.drop maxFill)
        let fin := pieces.foldl (fun (acc : Bucket × List Branch) chunk =>
          let st := acc.1.new_node (.leaves chunk)
          let nb := match st.2.nodes[st.1]? with
                    | some cn => Branch.from_node cn
                    | none => ⟨NodeData.key_parts (.leaves chunk), 0⟩
          (st.2, acc.2 ++ [nb])) (b, [])
        (fin.1, some fin.2)
      | .branches brl =>
        let b := b.modifyNodeData nid (fun _ => .branches (brl.take maxFill))
        let pieces := chunksOf maxFill brl.length (brl.drop maxFill)
        let fin := pieces.foldl (fun (acc : Bucket × List Branch) chunk =>
          let st := acc.1.new_node (.branches chunk)
          let nb := match st.2.nodes[st.1]? with
                    | some cn => Branch.from_node cn
                    | none => ⟨NodeData.key_parts (.branches chunk), 0⟩
          (st.2, acc.2 ++ [nb])) (b, [])
        (fin.1, some fin.2)

/-- The split loop of `Bucket::rebalance`: while the root reports overflow,
wrap it and its new siblings into a fresh branch root. -/
def Bucket.splitLoop : Nat → Bucket → Nat → Option (Bucket × Nat)
  | 0, _, _ => none
  | fuel + 1, b, rid =>
    match b.splitNode rid with
    | (b1, none) => some (b1, rid)
    | (b1, some brs) =>
      match b1.nodes[rid]? with
      | none => none
      | some rootn =>
        let brs := Branch.from_node rootn :: brs
        let st := b1.new_node (.branches brs)
        Bucket.splitLoop fuel st.2 st.1

/-- The per-child pass of `Bucket::rebalance`: rebalance every dirty nested
bucket through `f`, collecting the updated children, their new metas, and
whether any child was dirty. -/
def rebalanceChildrenWith (f : Bucket → Option (BucketMeta × Bucket)) :
    List (Bytes × Bucket) → Option (List (Bytes × Bucket) × List (Bytes × BucketMeta) × Bool)
  | [] => some ([], [], false)
  | (k, cb) :: rest =>
    match rebalanceChildrenWith f rest with
    | none => none
    | some (rest', metas, d) =>
      if cb.dirty then
        match f cb with
        | none => none
        | some (m, cb') => some ((k, cb') :: rest', (k, m) :: metas, true)
      else some ((k, cb) :: rest', metas, d)

/-- Re-insert the updated metas of rebalanced children as bucket entries of
this bucket's tree (the `put_data` loop of `Bucket::rebalance`). -/
def Bucket.putMetas (tx : TransactionInner) (fuel : Nat) :
    Bucket → List (Bytes × BucketMeta) → Option Bucket
  | b, [] => some b
  | b, (k, m) :: rest =>
    match Bucket.put_data tx fuel b (.bucket k m) with
    | some (.ok _, b1) => Bucket.putMetas tx fuel b1 rest
    | _ => none

/-- `Bucket::rebalance`: rebalance dirty nested buckets and re-insert their
metas; then, if this bucket is dirty, merge from the root — collapsing a
branch root left with a single child onto that child, and skipping all
further work (clearing the dirty flag) when the surviving child was never
materialized this transaction — and finally split overflowing roots, update
`meta.root_page`, and return the updated meta. -/
def Bucket.rebalance (tx : TransactionInner) : Nat → Bucket → Option (BucketMeta × Bucket)
  | 0, _ => none
  | fuel + 1, b =>
    match rebalanceChildrenWith (Bucket.rebalance tx fuel) b.buckets with
    | none => none
    | some (buckets', metas, anyDirty) =>
      let b := b.withBuckets buckets'
      let b := if anyDirty then b.withDirty true else b
      match Bucket.putMetas tx fuel b metas with
      | none => none
      | some b =>
        if b.dirty then
          let doSplit := fun (b : Bucket) =>
            match Bucket.node tx fuel b b.root with
            | none => none
            | some (rid, b) =>
              match Bucket.splitLoop fuel b rid with
              | none => none
              | some (b, rid) =>
                match b.nodes[rid]? with
                | none => none
                | some rn =>
                  let b := (b.withRoot (.node rn.page_id)).withMeta
                    { b.meta with root_page := rn.page_id }
                  some (b.meta, b)
          match Bucket.node tx fuel b b.root with
          | none => none
          | some (rid, b) =>
            let res := Bucket.mergeNode tx fuel b rid
            let b := res.2
            match b.nodes[rid]? with
            | none => none
            | some rootn =>
              if res.1 && !rootn.leaf && rootn.data.size == 1 then
                let b := b.markDeleted rid
                match rootn.data with
                | .branches brl =>
                  match brl[0]? with
                  | none => none
                  | some c =>
                    let b := (b.withMeta { b.meta with root_page := c.page }).withRoot (.page c.page)
                    if lookupA b.page_node_ids c.page == none then
                      some (b.meta, b.withDirty false)
                    else doSplit b
                | .leaves _ => none
              else doSplit b
        else some (b.meta, b)

/-- The per-child pass of `Bucket::write`. -/
def writeChildrenWith (f : Bucket → Option (List (Nat × NodeData) × Bucket)) :
    List (Bytes × Bucket) → Option (List (Nat × NodeData) × List (Bytes × Bucket))
  | [] => some ([], [])
  | (k, cb) :: rest =>
    match f cb with
    | none => none
    | some (o, cb') =>
      match writeChildrenWith f rest with
      | none => none
      | some (os, rest') => some (o ++ os, (k, cb') :: rest')

/-- `Bucket::write`: recursively write every nested bucket, then — when this
bucket is dirty — serialize every live (non-deleted) arena node.  The file
is modelled as the returned list of written `(page, data)` pairs
(`Node::write` is collaborator I/O per the spec and mutates no bucket
state). -/
def Bucket.write : Nat → Bucket → Option (List (Nat × NodeData) × Bucket)
  | 0, _ => none
  | fuel + 1, b =>
    match writeChildrenWith (Bucket.write fuel) b.buckets with
    | none => none
    | some (outs, buckets') =>
      let b := b.withBuckets buckets'
      if b.dirty then
        some (outs ++ ((b.nodes.filter (fun n => !n.deleted)).map (fun n => (n.page_id, n.data))), b)
      else some (outs, b)

/-- Little-endian byte rendering of a natural number on `k` bytes. -/
def u64ToLe : Nat → Nat → List Nat
  | 0, _ => []
  | k + 1, n => n % 256 :: u64ToLe k (n / 256)

/-- Value of a little-endian byte list. -/
def leToU64 : List Nat → Nat
  | [] => 0
  | byte :: rest => byte + 256 * leToU64 rest

/-- Modelled from the spec: the 16-byte serialized form of `BucketMeta` —
`root_page: u64` followed by `next_int: u64`, little-endian.  The source's
`AsRef<[u8]>` impl reinterprets the `repr(C)` struct memory, which on a
little-endian target is exactly this layout; the spec mandates the explicit
little-endian encoding. -/
def BucketMeta.serialize (m : BucketMeta) : List Nat :=
  u64ToLe 8 m.root_page ++ u64ToLe 8 m.next_int

/-- Modelled from the spec: decoding the 16-byte `BucketMeta` blob
(`BucketData::meta`; `data.rs` is not under `src/`). -/
def BucketMeta.deserialize (bytes : List Nat) : Option BucketMeta :=
  if bytes.length == 16 then some ⟨leToU64 (bytes.take 8), leToU64 (bytes.drop 8)⟩
  else none

/-- Strictly ascending byte-string list. -/
def strictSorted : List Bytes → Bool
  | [] => true
  | [_] => true
  | a :: bk :: rest => bytesLt a bk && strictSorted (bk :: rest)

/-- No duplicate entries (boolean). -/
def nodupB : List Nat → Bool
  | [] => true
  | a :: rest => !rest.contains a && nodupB rest

/-- Well-formedness of the memo table: distinct page keys, distinct node-id
values, every value inside the arena. -/
def Bucket.memoOk (b : Bucket) : Bool :=
  nodupB (b.page_node_ids.map Prod.fst) &&
  nodupB (b.page_node_ids.map Prod.snd) &&
  b.page_node_ids.all (fun pr => pr.2 < b.nodes.length)

/-- Consistency of the root pointer with `meta.root_page`: a root node must
originate from the root page and be memoized for it. -/
def Bucket.rootOk (b : Bucket) : Bool :=
  match b.root with
  | .page p => p == b.meta.root_page
  | .node n =>
    match b.nodes[n]? with
    | some nd =>
      nd.page_id == b.meta.root_page && (lookupA b.page_node_ids b.meta.root_page == some n)
    | none => false

/-- Well-formedness of the tree reachable from page `p` under content view
`V` within `fuel` levels: leaves strictly sorted; branches non-empty,
strictly sorted, each child well-formed and keyed in its parent by its own
first key (spec invariant 1 and the branch-key discipline `Bucket::node`'s
parent fix-up relies on). -/
def wfView (V : Nat → Option NodeData) : Nat → Nat → Bool
  | 0, _ => false
  | fuel + 1, p =>
    match V p with
    | none => false
    | some (.leaves l) => strictSorted (l.map Data.key)
    | some (.branches br) =>
      !br.isEmpty && strictSorted (br.map Branch.key) &&
      br.all (fun c => wfView V fuel c.page && ((V c.page).map NodeData.key_parts == some c.key))

/-- Well-formed bucket state: memo table, root pointer, and reachable tree. -/
def Bucket.wf (tx : TransactionInner) (fuel : Nat) (b : Bucket) : Bool :=
  b.memoOk && b.rootOk && wfView (Bucket.page_node tx b) fuel (b.rootPageId)

/-! ## Order lemmas for the byte-string comparison -/

theorem bytesLt_irrefl (a : Bytes) : bytesLt a a = false := by
  induction a with
  | nil => rfl
  | cons x xs ih => simp [bytesLt, ih]

theorem bytesLt_trans {a c d : Bytes} (h1 : bytesLt a c = true) (h2 : bytesLt c d = true) :
    bytesLt a d = true := by
  induction a generalizing c d with
  | nil =>
    cases c with
    | nil => simp [bytesLt] at h1
    | cons y ys =>
      cases d with
      | nil => simp [bytesLt] at h2
      | cons z zs => simp [bytesLt]
  | cons x xs ih =>
    cases c with
    | nil => simp [bytesLt] at h1
    | cons y ys =>
      cases d with
      | nil => simp [bytesLt] at h2
      | cons z zs =>
        simp only [bytesLt] at h1 h2 ⊢
        by_cases hxy : x < y
        · by_cases hyz : y < z
          · have hv : x < z := Nat.lt_trans hxy hyz
            simp [hv]
          · simp [hyz] at h2
            rcases h2 with ⟨h2e, _⟩
            subst h2e
            simp [hxy]
        · simp [hxy] at h1
          rcases h1 with ⟨h1e, h1r⟩
          subst h1e
          by_cases hyz : x < z
          · simp [hyz]
          · simp [hyz] at h2 ⊢
            rcases h2 with ⟨h2e, h2r⟩
            exact ⟨h2e, ih h1r h2r⟩

theorem bytesLt_ne {a c : Bytes} (h : bytesLt a c = true) : a ≠ c := by
  intro he
  subst he
  rw [bytesLt_irrefl] at h
  exact absurd h (by simp)

theorem bytesLt_asymm {a c : Bytes} (h : bytesLt a c = true) : bytesLt c a = false := by
  by_contra hc
  have h2 : bytesLt c a = true := by
    cases hv : bytesLt c a
    · exact absurd hv hc
    · rfl
  exact absurd rfl (bytesLt_ne (bytesLt_trans h h2))

/-! ## Small list helpers -/

theorem list_set_self {α : Type} (l : List α) (i : Nat) (a : α) (h : l[i]? = some a) :
    l.set i a = l := by
  induction l generalizing i with
  | nil => simp at h
  | cons x xs ih =>
    cases i with
    | zero =>
      simp at h
      simp [List.set, h]
    | succ j =>
      simp at h
      simp [List.set, ih j h]

theorem getElem?_mem {α : Type} {l : List α} {i : Nat} {a : α} (h : l[i]? = some a) : a ∈ l := by
  induction l generalizing i with
  | nil => simp at h
  | cons x xs ih =>
    cases i with
    | zero => simp at h; simp [h]
    | succ j => simp at h; exact List.mem_cons_of_mem x (ih h)

/-! ## Lemmas about leaf search, upsert and erase -/

theorem leafIdx_cons_lt {x : Data} {xs : List Data} {key : Bytes}
    (h : bytesLt x.key key = true) : leafIdx key (x :: xs) = leafIdx key xs + 1 := by
  simp [leafIdx, h]

theorem leafIdx_cons_ge {x : Data} {xs : List Data} {key : Bytes}
    (h : bytesLt x.key key = false) : leafIdx key (x :: xs) = 0 := by
  simp [leafIdx, h]

theorem leafFound_cons_lt {x : Data} {xs : List Data} {key : Bytes}
    (h : bytesLt x.key key = true) : leafFound key (x :: xs) = leafFound key xs := by
  simp [leafFound, leafIdx_cons_lt h]

theorem upsert_found (d : Data) (l : List Data) :
    leafFound d.key (upsertData d l) = true ∧
    (upsertData d l)[leafIdx d.key (upsertData d l)]? = some d := by
  induction l with
  | nil =>
    refine ⟨?_, ?_⟩ <;>
      simp [upsertData, leafFound, leafIdx, List.insertIdx, bytesLt_irrefl]
  | cons x xs ih =>
    by_cases hlt : bytesLt x.key d.key = true
    · have hidx := @leafIdx_cons_lt x xs d.key hlt
      have hfound := @leafFound_cons_lt x xs d.key hlt
      have hset : upsertData d (x :: xs) = x :: upsertData d xs := by
        by_cases hf : leafFound d.key xs = true
        · simp [upsertData, hfound, hf, hidx, List.set]
        · simp only [Bool.not_eq_true] at hf
          simp [upsertData, hfound, hf, hidx, List.insertIdx]
      rcases ih with ⟨ih1, ih2⟩
      rw [hset]
      have hidx2 := @leafIdx_cons_lt x (upsertData d xs) d.key hlt
      refine ⟨?_, ?_⟩
      · rw [leafFound_cons_lt hlt]
        exact ih1
      · rw [hidx2]
        simpa using ih2
    · simp only [Bool.not_eq_true] at hlt
      have hidx := @leafIdx_cons_ge x xs d.key hlt
      by_cases heq : x.key == d.key
      · have hfound : leafFound d.key (x :: xs) = true := by
          simp [leafFound, hidx, heq]
        have hset : upsertData d (x :: xs) = d :: xs := by
          simp [upsertData, hfound, hidx, List.set]
        rw [hset]
        refine ⟨?_, ?_⟩ <;> simp [leafFound, leafIdx, bytesLt_irrefl]
      · have hfound : leafFound d.key (x :: xs) = false := by
          simp only [leafFound, hidx]
          simp only [List.getElem?_cons_zero]
          simpa using heq
        have hset : upsertData d (x :: xs) = d :: x :: xs := by
          simp [upsertData, hfound, hidx, List.insertIdx]
        rw [hset]
        refine ⟨?_, ?_⟩ <;> simp [leafFound, leafIdx, bytesLt_irrefl]

theorem strictSorted_tail {a : Bytes} {l : List Bytes} (h : strictSorted (a :: l) = true) :
    strictSorted l = true := by
  cases l with
  | nil => rfl
  | cons bk rest =>
    simp only [strictSorted, Bool.and_eq_true] at h
    exact h.2

theorem strictSorted_head_lt {a bk : Bytes} {l : List Bytes}
    (h : strictSorted (a :: l) = true) (hm : bk ∈ l) : bytesLt a bk = true := by
  induction l generalizing a with
  | nil => simp at hm
  | cons c rest ih =>
    simp only [strictSorted, Bool.and_eq_true] at h
    rcases List.mem_cons.mp hm with he | hm2
    · subst he; exact h.1
    · exact bytesLt_trans h.1 (ih h.2 hm2)

/-- Erasing the found entry of a strictly sorted leaf makes the key absent. -/
theorem erase_not_found (key : Bytes) (l : List Data)
    (hs : strictSorted (l.map Data.key) = true) (hf : leafFound key l = true) :
    leafFound key (l.eraseIdx (leafIdx key l)) = false := by
  induction l with
  | nil => simp [leafFound] at hf
  | cons x xs ih =>
    by_cases hlt : bytesLt x.key key = true
    · have hidx := @leafIdx_cons_lt x xs key hlt
      rw [leafFound_cons_lt hlt] at hf
      have hse : (x :: xs).eraseIdx (leafIdx key (x :: xs)) = x :: xs.eraseIdx (leafIdx key xs) := by
        simp [hidx, List.eraseIdx]
      rw [hse, leafFound_cons_lt hlt]
      exact ih (by simpa [strictSorted_tail] using strictSorted_tail hs) hf
    · simp only [Bool.not_eq_true] at hlt
      have hidx := @leafIdx_cons_ge x xs key hlt
      have hxk : x.key = key := by
        simp only [leafFound, hidx, List.getElem?_cons_zero] at hf
        simpa using hf
      have hse : (x :: xs).eraseIdx (leafIdx key (x :: xs)) = xs := by
        simp [hidx, List.eraseIdx]
      rw [hse]
      cases xs with
      | nil => simp [leafFound, leafIdx]
      | cons y ys =>
        have hlty : bytesLt x.key y.key = true := by
          simp only [List.map_cons, strictSorted, Bool.and_eq_true] at hs
          exact hs.1
        rw [hxk] at hlty
        have h1 : bytesLt y.key key = false := bytesLt_asymm hlty
        have h2 : y.key ≠ key := fun he => bytesLt_ne hlty he.symm
        simp only [leafFound, leafIdx_cons_ge h1, List.getElem?_cons_zero]
        simpa using h2

theorem insert_child_cons_lt {c : Branch} {rest : List Branch} {childPage : Nat} {key : Bytes}
    (h : bytesLt c.key key = true) :
    insert_child childPage key (c :: rest) = c :: insert_child childPage key rest := by
  simp only [insert_child, branchIdx, h, if_true, List.getElem?_cons_succ]
  cases hv : rest[branchIdx key rest]? with
  | none => simp [List.insertIdx_succ_cons]
  | some cc =>
    by_cases hck : cc.key == key
    · simp [hck, List.set]
    · simp [hck, List.insertIdx_succ_cons]

/-- A child pointer already present with its exact key is re-inserted
identically (`Node::insert_child` hitting the recorded branch). -/
theorem insert_child_mem_eq (childPage : Nat) (key : Bytes) (br : List Branch)
    (hs : strictSorted (br.map Branch.key) = true)
    (hm : (⟨key, childPage⟩ : Branch) ∈ br) :
    insert_child childPage key br = br := by
  induction br with
  | nil => simp at hm
  | cons c rest ih =>
    rcases List.mem_cons.mp hm with he | hm2
    · subst he
      simp [insert_child, branchIdx, bytesLt_irrefl, List.set]
    · have hkm : key ∈ rest.map Branch.key :=
        List.mem_map.mpr ⟨⟨key, childPage⟩, hm2, rfl⟩
      have hlt : bytesLt c.key key = true := strictSorted_head_lt hs hkm
      rw [insert_child_cons_lt hlt, ih (strictSorted_tail hs) hm2]

/-! ## Field laws of the bucket updaters -/

@[simp] theorem Bucket.meta_withMeta (b : Bucket) (m : BucketMeta) :
    (b.withMeta m).meta = m := rfl

@[simp] theorem Bucket.root_withMeta (b : Bucket) (m : BucketMeta) :
    (b.withMeta m).root = b.root := rfl

@[simp] theorem Bucket.dirty_withMeta (b : Bucket) (m : BucketMeta) :
    (b.withMeta m).dirty = b.dirty := rfl

@[simp] theorem Bucket.nodes_withMeta (b : Bucket) (m : BucketMeta) :
    (b.withMeta m).nodes = b.nodes := rfl

@[simp] theorem Bucket.page_node_ids_withMeta (b : Bucket) (m : BucketMeta) :
    (b.withMeta m).page_node_ids = b.page_node_ids := rfl

@[simp] theorem Bucket.page_parents_withMeta (b : Bucket) (m : BucketMeta) :
    (b.withMeta m).page_parents = b.page_parents := rfl

@[simp] theorem Bucket.buckets_withMeta (b : Bucket) (m : BucketMeta) :
    (b.withMeta m).buckets = b.buckets := rfl

@[simp] theorem Bucket.meta_withRoot (b : Bucket) (r : PageNodeID) :
    (b.withRoot r).meta = b.meta := rfl

@[simp] theorem Bucket.root_withRoot (b : Bucket) (r : PageNodeID) :
    (b.withRoot r).root = r := rfl

@[simp] theorem Bucket.dirty_withRoot (b : Bucket) (r : PageNodeID) :
    (b.withRoot r).dirty = b.dirty := rfl

@[simp] theorem Bucket.nodes_withRoot (b : Bucket) (r : PageNodeID) :
    (b.withRoot r).nodes = b.nodes := rfl

@[simp] theorem Bucket.page_node_ids_withRoot (b : Bucket) (r : PageNodeID) :
    (b.withRoot r).page_node_ids = b.page_node_ids := rfl

@[simp] theorem Bucket.page_parents_withRoot (b : Bucket) (r : PageNodeID) :
    (b.withRoot r).page_parents = b.page_parents := rfl

@[simp] theorem Bucket.buckets_withRoot (b : Bucket) (r : PageNodeID) :
    (b.withRoot r).buckets = b.buckets := rfl

@[simp] theorem Bucket.meta_withDirty (b : Bucket) (d : Bool) :
    (b.withDirty d).meta = b.meta := rfl

@[simp] theorem Bucket.root_withDirty (b : Bucket) (d : Bool) :
    (b.withDirty d).root = b.root := rfl

@[simp] theorem Bucket.dirty_withDirty (b : Bucket) (d : Bool) :
    (b.withDirty d).dirty = d := rfl

@[simp] theorem Bucket.nodes_withDirty (b : Bucket) (d : Bool) :
    (b.withDirty d).nodes = b.nodes := rfl

@[simp] theorem Bucket.page_node_ids_withDirty (b : Bucket) (d : Bool) :
    (b.withDirty d).page_node_ids = b.page_node_ids := rfl

@[simp] theorem Bucket.page_parents_withDirty (b : Bucket) (d : Bool) :
    (b.withDirty d).page_parents = b.page_parents := rfl

@[simp] theorem Bucket.buckets_withDirty (b : Bucket) (d : Bool) :
    (b.withDirty d).buckets = b.buckets := rfl

@[simp] theorem Bucket.meta_withNodes (b : Bucket) (ns : List Node) :
    (b.withNodes ns).meta = b.meta := rfl

@[simp] theorem Bucket.root_withNodes (b : Bucket) (ns : List Node) :
    (b.withNodes ns).root = b.root := rfl

@[simp] theorem Bucket.dirty_withNodes (b : Bucket) (ns : List Node) :
    (b.withNodes ns).dirty = b.dirty := rfl

@[simp] theorem Bucket.nodes_withNodes (b : Bucket) (ns : List Node) :
    (b.withNodes ns).nodes = ns := rfl

@[simp] theorem Bucket.page_node_ids_withNodes (b : Bucket) (ns : List Node) :
    (b.withNodes ns).page_node_ids = b.page_node_ids := rfl

@[simp] theorem Bucket.page_parents_withNodes (b : Bucket) (ns : List Node) :
    (b.withNodes ns).page_parents = b.page_parents := rfl

@[simp] theorem Bucket.buckets_withNodes (b : Bucket) (ns : List Node) :
    (b.withNodes ns).buckets = b.buckets := rfl

@[simp] theorem Bucket.meta_withMemo (b : Bucket) (mm : List (Nat × Nat)) :
    (b.withMemo mm).meta = b.meta := rfl

@[simp] theorem Bucket.root_withMemo (b : Bucket) (mm : List (Nat × Nat)) :
    (b.withMemo mm).root = b.root := rfl

@[simp] theorem Bucket.dirty_withMemo (b : Bucket) (mm : List (Nat × Nat)) :
    (b.withMemo mm).dirty = b.dirty := rfl

@[simp] theorem Bucket.nodes_withMemo (b : Bucket) (mm : List (Nat × Nat)) :
    (b.withMemo mm).nodes = b.nodes := rfl

@[simp] theorem Bucket.page_node_ids_withMemo (b : Bucket) (mm : List (Nat × Nat)) :
    (b.withMemo mm).page_node_ids = mm := rfl

@[simp] theorem Bucket.page_parents_withMemo (b : Bucket) (mm : List (Nat × Nat)) :
    (b.withMemo mm).page_parents = b.page_parents := rfl

@[simp] theorem Bucket.buckets_withMemo (b : Bucket) (mm : List (Nat × Nat)) :
    (b.withMemo mm).buckets = b.buckets := rfl

@[simp] theorem Bucket.meta_withParents (b : Bucket) (ps : List (Nat × Nat)) :
    (b.withParents ps).meta = b.meta := rfl

@[simp] theorem Bucket.root_withParents (b : Bucket) (ps : List (Nat × Nat)) :
    (b.withParents ps).root = b.root := rfl

@[simp] theorem Bucket.dirty_withParents (b : Bucket) (ps : List (Nat × Nat)) :
    (b.withParents ps).dirty = b.dirty := rfl

@[simp] theorem Bucket.nodes_withParents (b : Bucket) (ps : List (Nat × Nat)) :
    (b.withParents ps).nodes = b.nodes := rfl

@[simp] theorem Bucket.page_node_ids_withParents (b : Bucket) (ps : List (Nat × Nat)) :
    (b.withParents ps).page_node_ids = b.page_node_ids := rfl

@[simp] theorem Bucket.page_parents_withParents (b : Bucket) (ps : List (Nat × Nat)) :
    (b.withParents ps).page_parents = ps := rfl

@[simp] theorem Bucket.buckets_withParents (b : Bucket) (ps : List (Nat × Nat)) :
    (b.withParents ps).buckets = b.buckets := rfl

@[simp] theorem Bucket.meta_withBuckets (b : Bucket) (bs : List (Bytes × Bucket)) :
    (b.withBuckets bs).meta = b.meta := rfl

@[simp] theorem Bucket.root_withBuckets (b : Bucket) (bs : List (Bytes × Bucket)) :
    (b.withBuckets bs).root = b.root := rfl

@[simp] theorem Bucket.dirty_withBuckets (b : Bucket) (bs : List (Bytes × Bucket)) :
    (b.withBuckets bs).dirty = b.dirty := rfl

@[simp] theorem Bucket.nodes_withBuckets (b : Bucket) (bs : List (Bytes × Bucket)) :
    (b.withBuckets bs).nodes = b.nodes := rfl

@[simp] theorem Bucket.page_node_ids_withBuckets (b : Bucket) (bs : List (Bytes × Bucket)) :
    (b.withBuckets bs).page_node_ids = b.page_node_ids := rfl

@[simp] theorem Bucket.page_parents_withBuckets (b : Bucket) (bs : List (Bytes × Bucket)) :
    (b.withBuckets bs).page_parents = b.page_parents := rfl

@[simp] theorem Bucket.buckets_withBuckets (b : Bucket) (bs : List (Bytes × Bucket)) :
    (b.withBuckets bs).buckets = bs := rfl

theorem withParents_self (b : Bucket) : b.withParents b.page_parents = b := by
  cases b with
  | mk c bs => rfl

theorem withParents_withParents (b : Bucket) (x y : List (Nat × Nat)) :
    (b.withParents x).withParents y = b.withParents y := rfl

@[simp] theorem page_node_withParents (tx : TransactionInner) (b : Bucket) (ps : List (Nat × Nat)) :
    Bucket.page_node tx (b.withParents ps) = Bucket.page_node tx b := rfl

@[simp] theorem page_node_withDirty (tx : TransactionInner) (b : Bucket) (d : Bool) :
    Bucket.page_node tx (b.withDirty d) = Bucket.page_node tx b := rfl

@[simp] theorem page_node_withMeta (tx : TransactionInner) (b : Bucket) (m : BucketMeta) :
    Bucket.page_node tx (b.withMeta m) = Bucket.page_node tx b := rfl

@[simp] theorem page_node_withRoot (tx : TransactionInner) (b : Bucket) (r : PageNodeID) :
    Bucket.page_node tx (b.withRoot r) = Bucket.page_node tx b := rfl

@[simp] theorem page_node_withBuckets (tx : TransactionInner) (b : Bucket) (bs : List (Bytes × Bucket)) :
    Bucket.page_node tx (b.withBuckets bs) = Bucket.page_node tx b := rfl

@[simp] theorem rootPageId_withParents (b : Bucket) (ps : List (Nat × Nat)) :
    (b.withParents ps).rootPageId = b.rootPageId := rfl

@[simp] theorem rootPageId_withDirty (b : Bucket) (d : Bool) :
    (b.withDirty d).rootPageId = b.rootPageId := rfl

@[simp] theorem rootPageId_withMeta (b : Bucket) (m : BucketMeta) :
    (b.withMeta m).rootPageId = b.rootPageId := rfl

@[simp] theorem rootPageId_withMemo (b : Bucket) (mm : List (Nat × Nat)) :
    (b.withMemo mm).rootPageId = b.rootPageId := rfl

@[simp] theorem rootPageId_withBuckets (b : Bucket) (bs : List (Bytes × Bucket)) :
    (b.withBuckets bs).rootPageId = b.rootPageId := rfl

@[simp] theorem memoOk_withParents (b : Bucket) (ps : List (Nat × Nat)) :
    (b.withParents ps).memoOk = b.memoOk := rfl

@[simp] theorem memoOk_withDirty (b : Bucket) (d : Bool) :
    (b.withDirty d).memoOk = b.memoOk := rfl

@[simp] theorem memoOk_withMeta (b : Bucket) (m : BucketMeta) :
    (b.withMeta m).memoOk = b.memoOk := rfl

@[simp] theorem memoOk_withBuckets (b : Bucket) (bs : List (Bytes × Bucket)) :
    (b.withBuckets bs).memoOk = b.memoOk := rfl

/-! ## The parent recording of a descent -/

theorem recordPath_shape : ∀ (path : List Nat) (b : Bucket),
    ∃ ps, recordPath b path = b.withParents ps := by
  intro path
  induction path with
  | nil => exact fun b => ⟨b.page_parents, (withParents_self b).symm⟩
  | cons a rest ih =>
    intro b
    cases rest with
    | nil => exact ⟨b.page_parents, (withParents_self b).symm⟩
    | cons c rest2 =>
      rcases ih (b.add_page_parent c a) with ⟨ps, hps⟩
      refine ⟨ps, ?_⟩
      show recordPath (b.add_page_parent c a) (c :: rest2) = b.withParents ps
      rw [hps]
      rfl

@[simp] theorem recordPath_meta (b : Bucket) (path : List Nat) :
    (recordPath b path).meta = b.meta := by
  rcases recordPath_shape path b with ⟨ps, h⟩; rw [h]; rfl

@[simp] theorem recordPath_root (b : Bucket) (path : List Nat) :
    (recordPath b path).root = b.root := by
  rcases recordPath_shape path b with ⟨ps, h⟩; rw [h]; rfl

@[simp] theorem recordPath_dirty (b : Bucket) (path : List Nat) :
    (recordPath b path).dirty = b.dirty := by
  rcases recordPath_shape path b with ⟨ps, h⟩; rw [h]; rfl

@[simp] theorem recordPath_nodes (b : Bucket) (path : List Nat) :
    (recordPath b path).nodes = b.nodes := by
  rcases recordPath_shape path b with ⟨ps, h⟩; rw [h]; rfl

@[simp] theorem recordPath_memo (b : Bucket) (path : List Nat) :
    (recordPath b path).page_node_ids = b.page_node_ids := by
  rcases recordPath_shape path b with ⟨ps, h⟩; rw [h]; rfl

@[simp] theorem recordPath_buckets (b : Bucket) (path : List Nat) :
    (recordPath b path).buckets = b.buckets := by
  rcases recordPath_shape path b with ⟨ps, h⟩; rw [h]; rfl

@[simp] theorem page_node_recordPath (tx : TransactionInner) (b : Bucket) (path : List Nat) :
    Bucket.page_node tx (recordPath b path) = Bucket.page_node tx b := by
  rcases recordPath_shape path b with ⟨ps, h⟩; rw [h]; rfl

@[simp] theorem rootPageId_recordPath (b : Bucket) (path : List Nat) :
    (recordPath b path).rootPageId = b.rootPageId := by
  rcases recordPath_shape path b with ⟨ps, h⟩; rw [h]; rfl

@[simp] theorem memoOk_recordPath (b : Bucket) (path : List Nat) :
    (recordPath b path).memoOk = b.memoOk := by
  rcases recordPath_shape path b with ⟨ps, h⟩; rw [h]; rfl

/-- Index-injectivity of a page path: no page id occurs twice. -/
def PathInj (path : List Nat) : Prop :=
  ∀ (i j q : Nat), path[i]? = some q → path[j]? = some q → i = j

/-- The (child, parent) pairs recorded by a descent along `path`, newest
first. -/
def pathPairs (path : List Nat) : List (Nat × Nat) :=
  ((path.zip path.tail).map (fun pr => (pr.2, pr.1))).reverse

theorem recordPath_parents : ∀ (path : List Nat) (b : Bucket),
    (recordPath b path).page_parents = pathPairs path ++ b.page_parents := by
  intro path
  induction path with
  | nil => intro b; rfl
  | cons a rest ih =>
    intro b
    cases rest with
    | nil => rfl
    | cons c rest2 =>
      show (recordPath (b.add_page_parent c a) (c :: rest2)).page_parents = _
      rw [ih (b.add_page_parent c a)]
      show pathPairs (c :: rest2) ++ (c, a) :: b.page_parents = _
      have hp : pathPairs (a :: c :: rest2) = pathPairs (c :: rest2) ++ [(c, a)] := by
        simp [pathPairs]
      rw [hp, List.append_assoc]
      rfl

theorem lookupA_append_left {l1 l2 : List (Nat × Nat)} {k v : Nat}
    (h : lookupA l1 k = some v) : lookupA (l1 ++ l2) k = some v := by
  induction l1 with
  | nil => simp [lookupA] at h
  | cons x rest ih =>
    rcases x with ⟨a, w⟩
    by_cases ha : a == k
    · simp only [lookupA, ha, if_true] at h
      simp [lookupA, ha, h]
    · simp only [Bool.not_eq_true] at ha
      simp only [lookupA, ha, Bool.false_eq_true, if_false] at h
      simpa [lookupA, ha] using ih h

theorem lookupA_of_mem_unique {l : List (Nat × Nat)} {k v : Nat}
    (hm : (k, v) ∈ l) (hu : ∀ x, (k, x) ∈ l → x = v) : lookupA l k = some v := by
  induction l with
  | nil => simp at hm
  | cons x rest ih =>
    rcases x with ⟨a, w⟩
    by_cases ha : a = k
    · subst ha
      have : w = v := hu w (List.mem_cons_self _ _)
      subst this
      simp [lookupA]
    · have ham : ¬ ((a : Nat) == k) = true := by simpa using ha
      have hm2 : (k, v) ∈ rest := by
        rcases List.mem_cons.mp hm with he | h2
        · exact absurd (congrArg Prod.fst he).symm ha
        · exact h2
      have hu2 : ∀ x, (k, x) ∈ rest → x = v := fun x hx =>
        hu x (List.mem_cons_of_mem _ hx)
      simp only [lookupA]
      rw [if_neg ham]
      exact ih hm2 hu2

theorem zip_tail_mem_get : ∀ {path : List Nat} {u v : Nat},
    (u, v) ∈ path.zip path.tail → ∃ i, path[i]? = some u ∧ path[i + 1]? = some v := by
  intro path
  induction path with
  | nil => intro u v h; simp at h
  | cons a rest ih =>
    intro u v h
    cases rest with
    | nil => simp at h
    | cons c rest2 =>
      simp only [List.tail_cons, List.zip_cons_cons] at h
      rcases List.mem_cons.mp h with he | h2
      · rcases Prod.mk.injEq .. ▸ he with ⟨h1, h2⟩
        exact ⟨0, by simp [← h1], by simp [← h2]⟩
      · rcases ih h2 with ⟨i, hi1, hi2⟩
        exact ⟨i + 1, by simpa using hi1, by simpa using hi2⟩

theorem pathPairs_mem {path : List Nat} {c a : Nat} :
    (c, a) ∈ pathPairs path ↔ (a, c) ∈ path.zip path.tail := by
  simp only [pathPairs, List.mem_reverse, List.mem_map]
  constructor
  · rintro ⟨⟨x, y⟩, hm, he⟩
    rcases Prod.mk.injEq .. ▸ he with ⟨h1, h2⟩
    simpa [← h1, ← h2] using hm
  · intro hm
    exact ⟨(a, c), hm, rfl⟩

/-- After a descent along an injective path, the recorded parent of each
visited page is the page it was entered from. -/
theorem recordPath_lookup {path : List Nat} {b : Bucket} {a c : Nat}
    (hinj : PathInj path) (hm : (a, c) ∈ path.zip path.tail) :
    lookupA (recordPath b path).page_parents c = some a := by
  rw [recordPath_parents]
  apply lookupA_append_left
  apply lookupA_of_mem_unique (pathPairs_mem.mpr hm)
  intro x hx
  have hm2 : (x, c) ∈ path.zip path.tail := pathPairs_mem.mp hx
  rcases zip_tail_mem_get hm with ⟨i, hi1, hi2⟩
  rcases zip_tail_mem_get hm2 with ⟨j, hj1, hj2⟩
  have : j + 1 = i + 1 := hinj _ _ _ hj2 hi2
  have hj : j = i := by omega
  subst hj
  rw [hj1] at hi1
  exact (Option.some.injEq .. ▸ hi1)

/-! ## Structure of a pure seek -/

theorem seekPure_succ_inv {V : Nat → Option NodeData} {key : Bytes} {fuel p : Nat} {r : SeekRes}
    (h : seekPure V key (fuel + 1) p = some r) :
    (∃ l, V p = some (.leaves l) ∧
      r = ⟨leafFound key l, p, leafIdx key l, l[leafIdx key l]?, [p]⟩) ∨
    (∃ br c r', V p = some (.branches br) ∧ br[selectIdx key br]? = some c ∧
      seekPure V key fuel c.page = some r' ∧ r = { r' with path := p :: r'.path }) := by
  rcases hv : V p with _ | nd
  · rw [seekPure, hv] at h
    exact absurd h (by simp)
  · cases nd with
    | leaves l =>
      left
      refine ⟨l, rfl, ?_⟩
      rw [seekPure, hv] at h
      simpa using h.symm
    | branches br =>
      right
      rw [seekPure, hv] at h
      dsimp only at h
      rcases hc : br[selectIdx key br]? with _ | c
      · rw [hc] at h
        exact absurd h (by simp)
      · rw [hc] at h
        dsimp only at h
        rcases hr : seekPure V key fuel c.page with _ | r'
        · rw [hr] at h
          exact absurd h (by simp)
        · rw [hr] at h
          exact ⟨br, c, r', rfl, hc, hr, by simpa using h.symm⟩

theorem seekPure_spec {V : Nat → Option NodeData} {key : Bytes} :
    ∀ {fuel p : Nat} {r : SeekRes}, seekPure V key fuel p = some r →
    r.path.head? = some p ∧ r.path.getLast? = some r.leafPage ∧ r.path.length ≤ fuel ∧
    ∃ L, V r.leafPage = some (.leaves L) ∧ r.found = leafFound key L ∧
      r.index = leafIdx key L ∧ r.current = L[leafIdx key L]? := by
  intro fuel
  induction fuel with
  | zero => intro p r h; simp [seekPure] at h
  | succ g ih =>
    intro p r h
    rcases seekPure_succ_inv h with ⟨l, hv, hr⟩ | ⟨br, c, r', hv, hc, hrec, hr⟩
    · subst hr
      exact ⟨rfl, rfl, by simp, l, hv, rfl, rfl, rfl⟩
    · subst hr
      rcases ih hrec with ⟨hhead, hlast, hlen, L, hL, hf, hi, hcur⟩
      refine ⟨rfl, ?_, ?_, L, hL, hf, hi, hcur⟩
      · rcases hp : r'.path with _ | ⟨q, rest⟩
        · rw [hp] at hhead; simp at hhead
        · show (p :: q :: rest).getLast? = _
          rw [List.getLast?_cons_cons]
          rw [hp] at hlast
          exact hlast
      · show (p :: r'.path).length ≤ g + 1
        simpa using hlen

theorem seekPure_det {V : Nat → Option NodeData} {key : Bytes} :
    ∀ {f1 : Nat} {f2 p : Nat} {r1 r2 : SeekRes}, seekPure V key f1 p = some r1 →
      seekPure V key f2 p = some r2 → r1 = r2 := by
  intro f1
  induction f1 with
  | zero => intro f2 p r1 r2 h1; simp [seekPure] at h1
  | succ g ih =>
    intro f2 p r1 r2 h1 h2
    cases f2 with
    | zero => simp [seekPure] at h2
    | succ g2 =>
      rcases seekPure_succ_inv h1 with ⟨l, hv, hr⟩ | ⟨br, c, r', hv, hc, hrec, hr⟩
      · rcases seekPure_succ_inv h2 with ⟨l2, hv2, hr2⟩ | ⟨br2, c2, r2', hv2, hc2, hrec2, hr2⟩
        · rw [hv] at hv2
          have : l = l2 := by
            have := Option.some.injEq .. ▸ hv2
            cases this
            rfl
          subst this
          rw [hr, hr2]
        · rw [hv] at hv2
          simp at hv2
      · rcases seekPure_succ_inv h2 with ⟨l2, hv2, hr2⟩ | ⟨br2, c2, r2', hv2, hc2, hrec2, hr2⟩
        · rw [hv] at hv2
          simp at hv2
        · rw [hv] at hv2
          have hbr : br = br2 := by
            have := Option.some.injEq .. ▸ hv2
            cases this
            rfl
          subst hbr
          rw [hc] at hc2
          have hcc : c = c2 := by
            have := Option.some.injEq .. ▸ hc2
            exact this.symm ▸ rfl
          subst hcc
          have : r' = r2' := ih hrec hrec2
          subst this
          rw [hr, hr2]

theorem seekPure_suffix {V : Nat → Option NodeData} {key : Bytes} :
    ∀ {fuel p : Nat} {r : SeekRes}, seekPure V key fuel p = some r →
    ∀ {i q : Nat}, r.path[i]? = some q →
    ∃ f', f' ≤ fuel ∧ seekPure V key f' q = some { r with path := r.path.drop i } := by
  intro fuel
  induction fuel with
  | zero => intro p r h; simp [seekPure] at h
  | succ g ih =>
    intro p r h i q hq
    rcases seekPure_succ_inv h with ⟨l, hv, hr⟩ | ⟨br, c, r', hv, hc, hrec, hr⟩
    · subst hr
      cases i with
      | zero =>
        simp only [List.getElem?_cons_zero, Option.some.injEq] at hq
        subst hq
        exact ⟨g + 1, Nat.le_refl _, by simpa using h⟩
      | succ j => simp at hq
    · subst hr
      cases i with
      | zero =>
        simp only [List.getElem?_cons_zero, Option.some.injEq] at hq
        subst hq
        exact ⟨g + 1, Nat.le_refl _, by simpa using h⟩
      | succ j =>
        simp only [List.getElem?_cons_succ] at hq
        rcases ih hrec hq with ⟨f', hf', hres⟩
        refine ⟨f', Nat.le_succ_of_le hf', ?_⟩
        cases r' with
        | mk fnd lp idx cur pth => simpa using hres

theorem seekPure_pathInj {V : Nat → Option NodeData} {key : Bytes} {fuel p : Nat} {r : SeekRes}
    (h : seekPure V key fuel p = some r) : PathInj r.path := by
  intro i j q hi hj
  by_contra hne
  rcases seekPure_suffix h hi with ⟨fi, _, hri⟩
  rcases seekPure_suffix h hj with ⟨fj, _, hrj⟩
  have heq := seekPure_det hri hrj
  have hpath : r.path.drop i = r.path.drop j := by
    have h2 := congrArg SeekRes.path heq
    simpa using h2
  have hlen := congrArg List.length hpath
  rw [List.length_drop, List.length_drop] at hlen
  have hilt : i < r.path.length := by
    rcases List.getElem?_eq_some.mp hi with ⟨hw, _⟩
    exact hw
  have hjlt : j < r.path.length := by
    rcases List.getElem?_eq_some.mp hj with ⟨hw, _⟩
    exact hw
  omega

theorem seekPure_wf_pairs {V : Nat → Option NodeData} {key : Bytes} :
    ∀ {fuel p : Nat} {r : SeekRes}, wfView V fuel p = true → seekPure V key fuel p = some r →
    ∀ {a c : Nat}, (a, c) ∈ r.path.zip r.path.tail →
    ∃ br, V a = some (.branches br) ∧ strictSorted (br.map Branch.key) = true ∧
      ∃ d, V c = some d ∧ (⟨d.key_parts, c⟩ : Branch) ∈ br := by
  intro fuel
  induction fuel with
  | zero => intro p r hwf h; simp [seekPure] at h
  | succ g ih =>
    intro p r hwf h a c hm
    rcases seekPure_succ_inv h with ⟨l, hv, hr⟩ | ⟨br, cc, r', hv, hc, hrec, hr⟩
    · subst hr
      simp at hm
    · subst hr
      rw [wfView, hv] at hwf
      dsimp only at hwf
      simp only [Bool.and_eq_true, List.all_eq_true] at hwf
      rcases hwf with ⟨⟨_, hsorted⟩, hall⟩
      have hccmem : cc ∈ br := getElem?_mem hc
      rcases hall cc hccmem with ⟨hwfcc, hkeycc⟩
      have hhead : r'.path.head? = some cc.page := (seekPure_spec hrec).1
      rcases hp : r'.path with _ | ⟨q, rest⟩
      · rw [hp] at hhead; simp at hhead
      · rw [hp] at hhead
        simp only [List.head?_cons, Option.some.injEq] at hhead
        subst hhead
        rw [hp] at hm
        simp only [List.tail_cons, List.zip_cons_cons] at hm
        rcases List.mem_cons.mp hm with he | hm2
        · have ha : a = p := congrArg Prod.fst he
          have hcp : c = cc.page := congrArg Prod.snd he
          subst ha; subst hcp
          refine ⟨br, hv, hsorted, ?_⟩
          rcases hvc : V cc.page with _ | dcc
          · rw [hvc] at hkeycc; simp at hkeycc
          · refine ⟨dcc, rfl, ?_⟩
            have hkp : dcc.key_parts = cc.key := by
              rw [hvc] at hkeycc
              simpa using hkeycc
            have hbr : (⟨dcc.key_parts, cc.page⟩ : Branch) = cc := by
              cases cc with
              | mk k pg => simp [hkp]
            rw [hbr]
            exact hccmem
        · exact ih hwfcc hrec (by rw [hp]; simpa using hm2)

/-! ## Lookup and memo-table helpers -/

theorem lookupA_mem {l : List (Nat × Nat)} {k v : Nat} (h : lookupA l k = some v) :
    (k, v) ∈ l := by
  induction l with
  | nil => simp [lookupA] at h
  | cons x rest ih =>
    rcases x with ⟨a, w⟩
    by_cases ha : a == k
    · simp only [lookupA, ha, if_true, Option.some.injEq] at h
      have hak : a = k := by simpa using ha
      subst hak; subst h
      exact List.mem_cons_self _ _
    · simp only [Bool.not_eq_true] at ha
      simp only [lookupA, ha, Bool.false_eq_true, if_false] at h
      exact List.mem_cons_of_mem _ (ih h)

theorem lookupA_none_not_key {l : List (Nat × Nat)} {k : Nat} (h : lookupA l k = none) :
    ∀ v, (k, v) ∉ l := by
  induction l with
  | nil => simp
  | cons x rest ih =>
    rcases x with ⟨a, w⟩
    by_cases ha : a == k
    · simp [lookupA, ha] at h
    · simp only [Bool.not_eq_true] at ha
      simp only [lookupA, ha, Bool.false_eq_true, if_false] at h
      intro v hv
      rcases List.mem_cons.mp hv with he | hm
      · have : a = k := (congrArg Prod.fst he).symm
        simp [this] at ha
      · exact ih h v hm

theorem lookupA_cons_of_ne {l : List (Nat × Nat)} {p x k : Nat} (h : (p == k) = false) :
    lookupA ((p, x) :: l) k = lookupA l k := by
  simp [lookupA, h]

theorem nodupB_values_inj {l : List (Nat × Nat)} {q p m : Nat}
    (hn : nodupB (l.map Prod.snd) = true) (h1 : (q, m) ∈ l) (h2 : (p, m) ∈ l) : q = p := by
  induction l with
  | nil => simp at h1
  | cons x rest ih =>
    rcases x with ⟨a, w⟩
    simp only [List.map_cons, nodupB, Bool.and_eq_true] at hn
    rcases hn with ⟨hw, hrest⟩
    rcases List.mem_cons.mp h1 with he1 | hm1
    · rcases List.mem_cons.mp h2 with he2 | hm2
      · rw [← he2] at he1
        exact congrArg Prod.fst he1
      · have hqm : w = m := congrArg Prod.snd he1.symm
        subst hqm
        have : w ∈ rest.map Prod.snd := List.mem_map.mpr ⟨(p, w), hm2, rfl⟩
        simp [this] at hw
    · rcases List.mem_cons.mp h2 with he2 | hm2
      · have hpm : w = m := congrArg Prod.snd he2.symm
        subst hpm
        have : w ∈ rest.map Prod.snd := List.mem_map.mpr ⟨(q, w), hm1, rfl⟩
        simp [this] at hw
      · exact ih hrest hm1 hm2

theorem memoOk_parts {b : Bucket} (h : b.memoOk = true) :
    nodupB (b.page_node_ids.map Prod.fst) = true ∧
    nodupB (b.page_node_ids.map Prod.snd) = true ∧
    (∀ pr, pr ∈ b.page_node_ids → pr.2 < b.nodes.length) := by
  simp only [Bucket.memoOk, Bool.and_eq_true, List.all_eq_true] at h
  exact ⟨h.1.1, h.1.2, fun pr hm => by simpa using h.2 pr hm⟩

theorem memoOk_lookup_bound {b : Bucket} {p nid : Nat} (h : b.memoOk = true)
    (hl : lookupA b.page_node_ids p = some nid) : nid < b.nodes.length :=
  (memoOk_parts h).2.2 _ (lookupA_mem hl)

@[simp] theorem modifyNodeData_meta (b : Bucket) (nid : Nat) (f : NodeData → NodeData) :
    (b.modifyNodeData nid f).meta = b.meta := by
  unfold Bucket.modifyNodeData
  rcases b.nodes[nid]? with _ | n <;> rfl

@[simp] theorem modifyNodeData_root (b : Bucket) (nid : Nat) (f : NodeData → NodeData) :
    (b.modifyNodeData nid f).root = b.root := by
  unfold Bucket.modifyNodeData
  rcases b.nodes[nid]? with _ | n <;> rfl

@[simp] theorem modifyNodeData_dirty (b : Bucket) (nid : Nat) (f : NodeData → NodeData) :
    (b.modifyNodeData nid f).dirty = b.dirty := by
  unfold Bucket.modifyNodeData
  rcases b.nodes[nid]? with _ | n <;> rfl

@[simp] theorem modifyNodeData_parents (b : Bucket) (nid : Nat) (f : NodeData → NodeData) :
    (b.modifyNodeData nid f).page_parents = b.page_parents := by
  unfold Bucket.modifyNodeData
  rcases b.nodes[nid]? with _ | n <;> rfl

@[simp] theorem modifyNodeData_memo (b : Bucket) (nid : Nat) (f : NodeData → NodeData) :
    (b.modifyNodeData nid f).page_node_ids = b.page_node_ids := by
  unfold Bucket.modifyNodeData
  rcases b.nodes[nid]? with _ | n <;> rfl

@[simp] theorem modifyNodeData_buckets (b : Bucket) (nid : Nat) (f : NodeData → NodeData) :
    (b.modifyNodeData nid f).buckets = b.buckets := by
  unfold Bucket.modifyNodeData
  rcases b.nodes[nid]? with _ | n <;> rfl

@[simp] theorem modifyNodeData_nodes_length (b : Bucket) (nid : Nat) (f : NodeData → NodeData) :
    (b.modifyNodeData nid f).nodes.length = b.nodes.length := by
  unfold Bucket.modifyNodeData
  rcases b.nodes[nid]? with _ | n
  · rfl
  · simp

theorem memoOk_modifyNodeData (b : Bucket) (nid : Nat) (f : NodeData → NodeData)
    (h : b.memoOk = true) : (b.modifyNodeData nid f).memoOk = true := by
  unfold Bucket.memoOk at h ⊢
  rw [modifyNodeData_memo, modifyNodeData_nodes_length]
  exact h

theorem withNodes_self (b : Bucket) : b.withNodes b.nodes = b := by
  cases b with
  | mk c bs => rfl

theorem get_zip_tail_mem : ∀ {path : List Nat} {i a q : Nat},
    path[i]? = some a → path[i + 1]? = some q → (a, q) ∈ path.zip path.tail := by
  intro path
  induction path with
  | nil => intro i a q h; simp at h
  | cons x rest ih =>
    intro i a q h1 h2
    cases rest with
    | nil =>
      cases i with
      | zero => simp at h2
      | succ j => simp at h1
    | cons y rest2 =>
      simp only [List.tail_cons, List.zip_cons_cons]
      cases i with
      | zero =>
        simp only [List.getElem?_cons_zero, Option.some.injEq] at h1
        simp only [List.getElem?_cons_succ, List.getElem?_cons_zero, Option.some.injEq] at h2
        subst h1; subst h2
        exact List.mem_cons_self _ _
      | succ j =>
        rw [List.getElem?_cons_succ] at h1
        rw [List.getElem?_cons_succ] at h2
        exact List.mem_cons_of_mem _ (ih h1 h2)

/-- The first element of a successful seek path is the start page. -/
theorem seekPure_path_zero {V : Nat → Option NodeData} {key : Bytes} {fuel p0 : Nat}
    {r : SeekRes} (hseek : seekPure V key fuel p0 = some r) : r.path[0]? = some p0 := by
  have hhead : r.path.head? = some p0 := (seekPure_spec hseek).1
  rcases hp : r.path with _ | ⟨x, rest⟩
  · rw [hp] at hhead; simp at hhead
  · rw [hp] at hhead
    simpa using hhead

/-- A walkable parent chain of length `n` from page `p` up to the root page,
with the branch facts `Bucket::node` needs at every step. -/
inductive WalkOkN (V : Nat → Option NodeData) (parents : List (Nat × Nat)) (rootp : Nat) :
    Nat → Nat → Prop where
  | root (d : NodeData) : V rootp = some d → WalkOkN V parents rootp 0 rootp
  | step (n : Nat) (p pp : Nat) (br : List Branch) (d : NodeData) :
      p ≠ rootp →
      lookupA parents p = some pp →
      V pp = some (.branches br) →
      strictSorted (br.map Branch.key) = true →
      V p = some d →
      (⟨d.key_parts, p⟩ : Branch) ∈ br →
      WalkOkN V parents rootp n pp →
      WalkOkN V parents rootp (n + 1) p

/-- The descent path produced by a well-formed seek yields a walkable parent
chain for each of its elements once the parents are recorded. -/
theorem walk_of_seek {V : Nat → Option NodeData} {key : Bytes} {fuel p0 : Nat} {r : SeekRes}
    {b : Bucket} (hwf : wfView V fuel p0 = true) (hseek : seekPure V key fuel p0 = some r) :
    ∀ (i q : Nat), r.path[i]? = some q →
      WalkOkN V (recordPath b r.path).page_parents p0 i q := by
  intro i
  induction i with
  | zero =>
    intro q hq
    rw [seekPure_path_zero hseek] at hq
    have hq2 : p0 = q := by simpa using hq
    subst hq2
    cases fuel with
    | zero => simp [seekPure] at hseek
    | succ g =>
      rw [wfView] at hwf
      rcases hv : V p0 with _ | d
      · rw [hv] at hwf; simp at hwf
      · exact WalkOkN.root d hv
  | succ j ih =>
    intro q hq
    have hjlt : j < r.path.length := by
      rcases List.getElem?_eq_some.mp hq with ⟨hw, _⟩
      omega
    have ha : r.path[j]? = some r.path[j] := List.getElem?_eq_getElem hjlt
    have hwalk := ih r.path[j] ha
    have hmem : (r.path[j], q) ∈ r.path.zip r.path.tail := get_zip_tail_mem ha hq
    rcases seekPure_wf_pairs hwf hseek hmem with ⟨br, hva, hsorted, d, hvq, hdm⟩
    have hinj : PathInj r.path := seekPure_pathInj hseek
    have hlk : lookupA (recordPath b r.path).page_parents q = some r.path[j] :=
      recordPath_lookup hinj hmem
    have hne : q ≠ p0 := by
      intro he
      subst he
      have h0 : r.path[0]? = some q := seekPure_path_zero hseek
      have hcon : j + 1 = 0 := hinj _ _ _ hq h0
      omega
    exact WalkOkN.step j q r.path[j] br d hne hlk hva hsorted hvq hdm hwalk

theorem lookupA_none_not_fst {l : List (Nat × Nat)} {k : Nat} (h : lookupA l k = none) :
    k ∉ l.map Prod.fst := by
  intro hm
  rcases List.mem_map.mp hm with ⟨⟨a, v⟩, hmem, he⟩
  subst he
  exact lookupA_none_not_key h v hmem

/-- Pushing a freshly decoded node and its memo entry leaves the content view
unchanged. -/
theorem page_node_push {tx : TransactionInner} {b : Bucket} {p : Nat} {d : NodeData}
    (hl : lookupA b.page_node_ids p = none)
    (hm : b.memoOk = true)
    (hpage : tx.page p = some d) :
    ∀ q, Bucket.page_node tx
      ((b.withMemo ((p, b.nodes.length) :: b.page_node_ids)).withNodes
        (b.nodes ++ [⟨b.nodes.length, p, d, false⟩])) q = Bucket.page_node tx b q := by
  intro q
  unfold Bucket.page_node
  simp only [Bucket.page_node_ids_withNodes, Bucket.page_node_ids_withMemo,
    Bucket.nodes_withNodes]
  by_cases hq : p = q
  · subst hq
    simp only [lookupA, beq_self_eq_true, if_true, hl, hpage]
    rw [List.getElem?_concat_length]
    rfl
  · have hne : (p == q) = false := by simpa using hq
    rw [lookupA_cons_of_ne hne]
    rcases hv : lookupA b.page_node_ids q with _ | m
    · rfl
    · have hb : m < b.nodes.length := memoOk_lookup_bound hm hv
      dsimp only
      rw [List.getElem?_append_left hb]

/-- Pushing a fresh node and memo entry preserves memo well-formedness. -/
theorem memoOk_push {b : Bucket} {p : Nat} {d : NodeData}
    (hl : lookupA b.page_node_ids p = none) (hm : b.memoOk = true) :
    ((b.withMemo ((p, b.nodes.length) :: b.page_node_ids)).withNodes
      (b.nodes ++ [⟨b.nodes.length, p, d, false⟩])).memoOk = true := by
  rcases memoOk_parts hm with ⟨hk, hv, hb⟩
  unfold Bucket.memoOk
  simp only [Bucket.page_node_ids_withNodes, Bucket.page_node_ids_withMemo,
    Bucket.nodes_withNodes, List.map_cons, Bool.and_eq_true, List.all_eq_true]
  refine ⟨⟨?_, ?_⟩, ?_⟩
  · simp only [nodupB, Bool.and_eq_true]
    constructor
    · have : p ∉ b.page_node_ids.map Prod.fst := lookupA_none_not_fst hl
      simpa [List.elem_iff] using this
    · exact hk
  · simp only [nodupB, Bool.and_eq_true]
    constructor
    · have : b.nodes.length ∉ b.page_node_ids.map Prod.snd := by
        intro hmem
        rcases List.mem_map.mp hmem with ⟨pr, hpr, he⟩
        have := hb pr hpr
        omega
      simpa [List.elem_iff] using this
    · exact hv
  · intro pr hpr
    rcases List.mem_cons.mp hpr with he | hmem
    · subst he
      simp
    · have := hb pr hmem
      simp only [List.length_append, List.length_cons, List.length_nil, decide_eq_true_eq]
      omega

/-- Everything `Bucket::node` guarantees when it succeeds under a well-formed
walk: the content view is unchanged, the memo table only grew (and now maps
the page to the returned node), the bucket's other fields are untouched, and
the returned arena slot holds the page's content. -/
def NodeOutcome (tx : TransactionInner) (V : Nat → Option NodeData)
    (b b' : Bucket) (p nid : Nat) : Prop :=
  (∀ q, Bucket.page_node tx b' q = V q) ∧
  b'.memoOk = true ∧
  lookupA b'.page_node_ids p = some nid ∧
  (∀ k v, lookupA b.page_node_ids k = some v → lookupA b'.page_node_ids k = some v) ∧
  b'.page_parents = b.page_parents ∧
  b'.meta = b.meta ∧ b'.root = b.root ∧ b'.dirty = b.dirty ∧ b'.buckets = b.buckets ∧
  b.nodes.length ≤ b'.nodes.length ∧
  (∀ i, i < b.nodes.length → b'.nodes[i]? = b.nodes[i]?) ∧
  (∃ nd, b'.nodes[nid]? = some nd ∧ V p = some nd.data)

theorem node_memo_hit {tx : TransactionInner} {V : Nat → Option NodeData} {b : Bucket}
    {p nid fuel : Nat} (hl : lookupA b.page_node_ids p = some nid)
    (hview : ∀ q, Bucket.page_node tx b q = V q) (hmemo : b.memoOk = true) :
    Bucket.node tx (fuel + 1) b (.page p) = some (nid, b) ∧ NodeOutcome tx V b b p nid := by
  constructor
  · rw [Bucket.node, hl]
  · have hb : nid < b.nodes.length := memoOk_lookup_bound hmemo hl
    have hnd : b.nodes[nid]? = some b.nodes[nid] := List.getElem?_eq_getElem hb
    refine ⟨hview, hmemo, hl, fun k v h => h, rfl, rfl, rfl, rfl, rfl, Nat.le_refl _,
      fun i hi => rfl, b.nodes[nid], hnd, ?_⟩
    have := hview p
    unfold Bucket.page_node at this
    rw [hl] at this
    dsimp only at this
    rw [hnd] at this
    simpa using this.symm

theorem node_walk {tx : TransactionInner} {V : Nat → Option NodeData}
    {parents : List (Nat × Nat)} {rootp : Nat} :
    ∀ {n : Nat} {p : Nat}, WalkOkN V parents rootp n p →
    ∀ {fuel : Nat} {b : Bucket},
    b.page_parents = parents →
    b.meta.root_page = rootp →
    (∀ q, Bucket.page_node tx b q = V q) →
    b.memoOk = true →
    n < fuel →
    ∃ nid b', Bucket.node tx fuel b (.page p) = some (nid, b') ∧
      NodeOutcome tx V b b' p nid := by
  intro n p hwalk
  induction hwalk with
  | root d hv =>
    intro fuel b hpar hroot hview hmemo hfuel
    cases fuel with
    | zero => omega
    | succ f =>
      rcases hl : lookupA b.page_node_ids rootp with _ | nid
      · -- memo miss: decode the page, record the memo entry, stop at the root
        have hpage : tx.page rootp = some d := by
          have hq := hview rootp
          unfold Bucket.page_node at hq
          rw [hl] at hq
          dsimp only at hq
          rw [hq, hv]
        refine ⟨b.nodes.length,
          (b.withMemo ((rootp, b.nodes.length) :: b.page_node_ids)).withNodes
            (b.nodes ++ [⟨b.nodes.length, rootp, d, false⟩]), ?_, ?_⟩
        · rw [Bucket.node, hl, hpage]
          dsimp only
          simp only [Bucket.meta_withNodes, Bucket.meta_withMemo, hroot, beq_self_eq_true,
            if_true]
        · refine ⟨fun q => (page_node_push hl hmemo hpage q).trans (hview q),
            memoOk_push hl hmemo, ?_, ?_, rfl, rfl, rfl, rfl, rfl, by simp, ?_,
            ⟨b.nodes.length, rootp, d, false⟩, ?_, ?_⟩
          · simp [lookupA]
          · intro k v h
            have hk : (rootp == k) = false := by
              rw [beq_eq_false_iff_ne]
              intro he
              subst he
              rw [hl] at h
              exact absurd h (by simp)
            simpa [Bucket.page_node_ids_withNodes, Bucket.page_node_ids_withMemo,
              lookupA_cons_of_ne hk] using h
          · intro i hi
            simp only [Bucket.nodes_withNodes]
            exact List.getElem?_append_left hi
          · simp only [Bucket.nodes_withNodes]
            exact List.getElem?_concat_length _ _
          · exact hv
      · exact ⟨nid, b, node_memo_hit hl hview hmemo⟩
  | step n p pp br d hne hlk hvpp hsorted hvp hdm hwpp ih =>
    intro fuel b hpar hroot hview hmemo hfuel
    cases fuel with
    | zero => omega
    | succ f =>
      rcases hl : lookupA b.page_node_ids p with _ | nid0
      · -- memo miss: decode, record, then materialize the parent and fix it up
        have hpage : tx.page p = some d := by
          have hq := hview p
          unfold Bucket.page_node at hq
          rw [hl] at hq
          dsimp only at hq
          rw [hq, hvp]
        set b1 := (b.withMemo ((p, b.nodes.length) :: b.page_node_ids)).withNodes
          (b.nodes ++ [⟨b.nodes.length, p, d, false⟩]) with hb1
        have hview1 : ∀ q, Bucket.page_node tx b1 q = V q := fun q =>
          (page_node_push hl hmemo hpage q).trans (hview q)
        have hmemo1 : b1.memoOk = true := memoOk_push hl hmemo
        have hpar1 : b1.page_parents = parents := by
          rw [hb1]; simpa using hpar
        have hroot1 : b1.meta.root_page = rootp := by
          rw [hb1]; simpa using hroot
        have hflt : n < f := by omega
        rcases @ih f b1 hpar1 hroot1 hview1 hmemo1 hflt with ⟨pid, b2, hrec, outc⟩
        rcases outc with ⟨hview2, hmemo2, hlk2, hpres2, hpar2, hmeta2, hroot2, hdirty2,
          hbuckets2, hlen2, hnodes2, pn, hpn, hpnd⟩
        have hpnbr : pn.data = NodeData.branches br := by
          rw [hvpp] at hpnd
          simpa using hpnd.symm
        have hic : insert_child p d.key_parts br = br :=
          insert_child_mem_eq p d.key_parts br hsorted hdm
        have hmod : b2.modifyNodeData pid
            (fun _ => NodeData.branches (insert_child p d.key_parts br)) = b2 := by
          unfold Bucket.modifyNodeData
          rw [hpn]
          dsimp only
          rw [hic, ← hpnbr]
          have hset : b2.nodes.set pid { pn with data := pn.data } = b2.nodes :=
            list_set_self _ _ _ hpn
          rw [hset]
          exact withNodes_self b2
        refine ⟨b.nodes.length, b2, ?_, ?_⟩
        · rw [Bucket.node, hl, hpage]
          dsimp only
          have hcheck : (p == b1.meta.root_page) = false := by
            rw [hroot1, beq_eq_false_iff_ne]
            exact hne
          rw [← hb1]
          rw [if_neg (by simp [hcheck])]
          have hlkp : lookupA b1.page_parents p = some pp := by
            rw [hpar1]; exact hlk
          rw [hlkp]
          dsimp only
          have hb1len : b1.nodes.length = b.nodes.length + 1 := by
            rw [hb1]; simp
          rw [hrec]
          dsimp only
          rw [hpn]
          dsimp only
          rw [hpnbr]
          dsimp only
          rw [hmod]
        · have hlkb2 : lookupA b2.page_node_ids p = some b.nodes.length := by
            apply hpres2
            rw [hb1]
            simp [lookupA]
          refine ⟨hview2, hmemo2, hlkb2, ?_, ?_, ?_, ?_, ?_, ?_, ?_, ?_, ?_⟩
          · intro k v h
            apply hpres2
            have hk : (p == k) = false := by
              rw [beq_eq_false_iff_ne]
              intro he
              subst he
              rw [hl] at h
              exact absurd h (by simp)
            rw [hb1]
            simpa [Bucket.page_node_ids_withNodes, Bucket.page_node_ids_withMemo,
              lookupA_cons_of_ne hk] using h
          · rw [hpar2, hpar1, hpar]
          · rw [hmeta2, hb1]; rfl
          · rw [hroot2, hb1]; rfl
          · rw [hdirty2, hb1]; rfl
          · rw [hbuckets2, hb1]; rfl
          · have hb1len : b1.nodes.length = b.nodes.length + 1 := by
              rw [hb1]; simp
            omega
          · intro i hi
            have h1 : b2.nodes[i]? = b1.nodes[i]? := by
              apply hnodes2
              rw [hb1]
              simp only [Bucket.nodes_withNodes, List.length_append, List.length_cons,
                List.length_nil]
              omega
            rw [h1, hb1]
            simp only [Bucket.nodes_withNodes]
            exact List.getElem?_append_left hi
          · refine ⟨⟨b.nodes.length, p, d, false⟩, ?_, hvp⟩
            have h1 : b2.nodes[b.nodes.length]? = b1.nodes[b.nodes.length]? := by
              apply hnodes2
              rw [hb1]
              simp
            rw [h1, hb1]
            simp only [Bucket.nodes_withNodes]
            exact List.getElem?_concat_length _ _
      · exact ⟨nid0, b, node_memo_hit hl hview hmemo⟩

/-- Modifying a memoized node's data changes the content view at exactly its
page. -/
theorem page_node_modify {tx : TransactionInner} {V : Nat → Option NodeData} {b : Bucket}
    {p nid : Nat} {nd : Node} {f : NodeData → NodeData}
    (hview : ∀ q, Bucket.page_node tx b q = V q)
    (hmemo : b.memoOk = true)
    (hlk : lookupA b.page_node_ids p = some nid)
    (hnd : b.nodes[nid]? = some nd) :
    ∀ q, Bucket.page_node tx (b.modifyNodeData nid f) q =
      if q = p then some (f nd.data) else V q := by
  intro q
  unfold Bucket.modifyNodeData
  rw [hnd]
  dsimp only
  unfold Bucket.page_node
  simp only [Bucket.page_node_ids_withNodes, Bucket.nodes_withNodes]
  have hb : nid < b.nodes.length := memoOk_lookup_bound hmemo hlk
  by_cases hq : q = p
  · subst hq
    rw [hlk]
    dsimp only
    rw [if_pos rfl, List.getElem?_set_self hb]
    rfl
  · rw [if_neg hq]
    rcases hv : lookupA b.page_node_ids q with _ | m
    · have hvq := hview q
      unfold Bucket.page_node at hvq
      rw [hv] at hvq
      exact hvq
    · have hmn : nid ≠ m := by
        intro he
        subst he
        exact hq (nodupB_values_inj (memoOk_parts hmemo).2.1 (lookupA_mem hv) (lookupA_mem hlk))
      dsimp only
      rw [List.getElem?_set_ne hmn]
      have hvq := hview q
      unfold Bucket.page_node at hvq
      rw [hv] at hvq
      dsimp only at hvq
      exact hvq

theorem modify_page_id (b : Bucket) (nid : Nat) (f : NodeData → NodeData) (i : Nat) :
    ((b.modifyNodeData nid f).nodes[i]?).map Node.page_id = (b.nodes[i]?).map Node.page_id := by
  unfold Bucket.modifyNodeData
  rcases hnd : b.nodes[nid]? with _ | nd
  · rfl
  · simp only [Bucket.nodes_withNodes]
    by_cases hi : nid = i
    · subst hi
      have hb : nid < b.nodes.length := by
        rcases List.getElem?_eq_some.mp hnd with ⟨hw, _⟩
        exact hw
      rw [List.getElem?_set_self hb, hnd]
      rfl
    · rw [List.getElem?_set_ne hi]

theorem rootPageId_modify (b : Bucket) (nid : Nat) (f : NodeData → NodeData) :
    (b.modifyNodeData nid f).rootPageId = b.rootPageId := by
  unfold Bucket.rootPageId
  rw [modifyNodeData_root]
  rcases b.root with p | n
  · rfl
  · dsimp only
    rw [modify_page_id]

theorem rootOk_rootPageId {b : Bucket} (h : b.rootOk = true) :
    b.rootPageId = b.meta.root_page := by
  unfold Bucket.rootOk at h
  unfold Bucket.rootPageId
  rcases hr : b.root with p | n
  · rw [hr] at h
    dsimp only at h
    simpa using h
  · rw [hr] at h
    dsimp only at h ⊢
    rcases hnd : b.nodes[n]? with _ | nd
    · rw [hnd] at h
      simp at h
    · rw [hnd] at h
      dsimp only at h
      simp only [Bool.and_eq_true, beq_iff_eq] at h
      simp [hnd, h.1]

/-- A seek re-run after the reached leaf's content is replaced follows the
identical path and reports the new leaf content. -/
theorem seekPure_update {V : Nat → Option NodeData} {key : Bytes} :
    ∀ {fuel p0 : Nat} {r : SeekRes}, seekPure V key fuel p0 = some r →
    ∀ {V' : Nat → Option NodeData} {L' : List Data},
    (∀ q, q ≠ r.leafPage → V' q = V q) →
    V' r.leafPage = some (.leaves L') →
    seekPure V' key fuel p0 =
      some ⟨leafFound key L', r.leafPage, leafIdx key L', L'[leafIdx key L']?, r.path⟩ := by
  intro fuel
  induction fuel with
  | zero => intro p0 r h; simp [seekPure] at h
  | succ g ih =>
    intro p0 r h V' L' hsame hleaf
    rcases seekPure_succ_inv h with ⟨l, hv, hr⟩ | ⟨br, c, r', hv, hc, hrec, hr⟩
    · subst hr
      rw [seekPure, hleaf]
    · subst hr
      have hne : p0 ≠ r'.leafPage := by
        intro he
        have hinj : PathInj (p0 :: r'.path) :=
          seekPure_pathInj (r := ⟨r'.found, r'.leafPage, r'.index, r'.current, p0 :: r'.path⟩) h
        have h0 : (p0 :: r'.path)[0]? = some r'.leafPage := by simpa using he.symm ▸ rfl
        have hlast : (p0 :: r'.path).getLast? = some r'.leafPage :=
          (seekPure_spec (r := ⟨r'.found, r'.leafPage, r'.index, r'.current, p0 :: r'.path⟩) h).2.1
        rw [List.getLast?_eq_getElem?] at hlast
        have hlen1 : (p0 :: r'.path).length = r'.path.length + 1 := by simp
        have hinner : r'.path.length ≥ 1 := by
          have hh : r'.path.head? = some c.page := (seekPure_spec hrec).1
          rcases hp : r'.path with _ | ⟨x, rest⟩
          · rw [hp] at hh; simp at hh
          · simp [hp]
        have h0' : (p0 :: r'.path)[0]? = some p0 := by simp
        have hcon : (0 : Nat) = (p0 :: r'.path).length - 1 := by
          apply hinj _ _ r'.leafPage
          · rw [← he]; exact h0'
          · exact hlast
        omega
      have hvp : V' p0 = V p0 := hsame p0 hne
      rw [seekPure, hvp, hv]
      dsimp only
      rw [hc]
      dsimp only
      have hres := ih hrec hsame hleaf
      rw [hres]
      rfl

theorem wf_parts {tx : TransactionInner} {b : Bucket} {fuel : Nat}
    (h : Bucket.wf tx fuel b = true) :
    b.memoOk = true ∧ b.rootOk = true ∧
    wfView (Bucket.page_node tx b) fuel (b.rootPageId) = true := by
  simp only [Bucket.wf, Bool.and_eq_true] at h
  exact ⟨h.1.1, h.1.2, h.2⟩

theorem seek_inv {tx : TransactionInner} {key : Bytes} {fuel : Nat} {b b1 : Bucket} {r : SeekRes}
    (h : Bucket.seek tx key fuel b = some (b1, r)) :
    seekPure (Bucket.page_node tx b) key fuel (b.rootPageId) = some r ∧
    b1 = recordPath b r.path := by
  unfold Bucket.seek at h
  rcases hp : seekPure (Bucket.page_node tx b) key fuel (b.rootPageId) with _ | r0
  · rw [hp] at h
    exact absurd h (by simp)
  · rw [hp] at h
    simp only [Option.map, Option.some.injEq, Prod.mk.injEq] at h
    rcases h with ⟨hb, hr⟩
    subst hr
    exact ⟨rfl, hb.symm⟩

theorem leafFound_current {key : Bytes} {L : List Data} (h : leafFound key L = true) :
    ∃ d0, L[leafIdx key L]? = some d0 ∧ d0.key = key := by
  unfold leafFound at h
  rcases hv : L[leafIdx key L]? with _ | d0
  · rw [hv] at h; simp at h
  · rw [hv] at h
    exact ⟨d0, rfl, by simpa using h⟩

theorem outcome_rootPageId {tx : TransactionInner} {V : Nat → Option NodeData}
    {b b2 b3 : Bucket} {p nid : Nat} (outc : NodeOutcome tx V b2 b3 p nid)
    (hroot : b2.root = b.root) (hnodes : b2.nodes = b.nodes) (hro : b.rootOk = true) :
    b3.rootPageId = b.rootPageId := by
  rcases outc with ⟨_, _, _, _, _, _, hroot3, _, _, _, hpres, _⟩
  unfold Bucket.rootPageId
  rw [hroot3, hroot]
  rcases hr : b.root with q | n
  · rfl
  · dsimp only
    unfold Bucket.rootOk at hro
    rw [hr] at hro
    dsimp only at hro
    rcases hnd : b.nodes[n]? with _ | nd
    · rw [hnd] at hro; simp at hro
    · have hnb : n < b.nodes.length := by
        rcases List.getElem?_eq_some.mp hnd with ⟨hw, _⟩
        exact hw
      have h3 : b3.nodes[n]? = b2.nodes[n]? := hpres n (by rw [hnodes]; exact hnb)
      rw [h3, hnodes, hnd]

theorem seek_node_master {tx : TransactionInner} {b : Bucket} {fuel : Nat} {key : Bytes}
    {r : SeekRes}
    (hwf : Bucket.wf tx fuel b = true)
    (hpure : seekPure (Bucket.page_node tx b) key fuel (b.rootPageId) = some r)
    (b2 : Bucket)
    (hview : ∀ q, Bucket.page_node tx b2 q = Bucket.page_node tx b q)
    (hpar : b2.page_parents = (recordPath b r.path).page_parents)
    (hroot2 : b2.meta.root_page = b.meta.root_page)
    (hmemo2 : b2.memoOk = true) :
    ∃ nid b3, Bucket.node tx fuel b2 (.page r.leafPage) = some (nid, b3) ∧
      NodeOutcome tx (Bucket.page_node tx b) b2 b3 r.leafPage nid := by
  rcases wf_parts hwf with ⟨hmemo, hrootOk, hwfv⟩
  have hrpid : b.rootPageId = b.meta.root_page := rootOk_rootPageId hrootOk
  rcases seekPure_spec hpure with ⟨hhead, hlast, hlen, L, hL, -, -, -⟩
  have hlen1 : 1 ≤ r.path.length := by
    rcases hp : r.path with _ | ⟨x, rest⟩
    · rw [hp] at hhead; simp at hhead
    · simp [hp]
  have hlastidx : r.path[r.path.length - 1]? = some r.leafPage := by
    rw [← List.getLast?_eq_getElem?]
    exact hlast
  have hwalk := walk_of_seek (b := b) hwfv hpure (r.path.length - 1) r.leafPage hlastidx
  rw [hrpid] at hwalk
  exact node_walk hwalk hpar (by rw [hroot2]) hview hmemo2 (by omega)

/-- Full characterization of a successful `put_data` on a well-formed bucket:
it returns `Ok`, marks the bucket dirty, bumps `next_int` exactly when the
key was absent, and replaces the reached leaf's content by the upserted
entry list, leaving every other page's content untouched. -/
theorem put_data_ok {tx : TransactionInner} {b b1 : Bucket} {fuel : Nat} {data : Data}
    {r : SeekRes}
    (hwf : Bucket.wf tx fuel b = true)
    (hseek : Bucket.seek tx data.key fuel b = some (b1, r))
    (hkind : r.found = true → ∀ cur, r.current = some cur → cur.is_kv = data.is_kv) :
    ∃ b' L, Bucket.put_data tx fuel b data = some (.ok (), b') ∧
      Bucket.page_node tx b r.leafPage = some (.leaves L) ∧
      r.found = leafFound data.key L ∧
      b'.dirty = true ∧
      b'.root = b.root ∧
      b'.buckets = b.buckets ∧
      b'.meta.root_page = b.meta.root_page ∧
      b'.next_int = (if r.found = true then b.next_int else b.next_int + 1) ∧
      b'.rootPageId = b.rootPageId ∧
      (∀ q, Bucket.page_node tx b' q =
        if q = r.leafPage then some (.leaves (upsertData data L))
        else Bucket.page_node tx b q) := by
  rcases seek_inv hseek with ⟨hpure, hb1⟩
  rcases seekPure_spec hpure with ⟨hhead, hlast, hlen, L, hL, hf, hi, hcur⟩
  rcases wf_parts hwf with ⟨hmemo, hrootOk, hwfv⟩
  unfold Bucket.put_data
  rw [hseek]
  dsimp only
  have hmain : ∀ b2 : Bucket,
      (∀ q, Bucket.page_node tx b2 q = Bucket.page_node tx b q) →
      b2.page_parents = (recordPath b r.path).page_parents →
      b2.meta.root_page = b.meta.root_page →
      b2.memoOk = true →
      b2.root = b.root →
      b2.nodes = b.nodes →
      b2.buckets = b.buckets →
      ∃ b', (match Bucket.node tx fuel b2 (.page r.leafPage) with
          | none => none
          | some (nid, b3) =>
            some (Except.ok (),
              (b3.modifyNodeData nid (fun nd => Node.insert_data nd data)).withDirty true))
          = some ((Except.ok () : Except DbError Unit), b') ∧
        b'.dirty = true ∧
        b'.root = b.root ∧
        b'.buckets = b.buckets ∧
        b'.meta.root_page = b.meta.root_page ∧
        b'.meta.next_int = b2.meta.next_int ∧
        b'.rootPageId = b.rootPageId ∧
        (∀ q, Bucket.page_node tx b' q =
          if q = r.leafPage then some (.leaves (upsertData data L))
          else Bucket.page_node tx b q) := by
    intro b2 hview2 hpar2 hroot2 hmemo2 hroot2' hnodes2' hbuckets2'
    rcases seek_node_master hwf hpure b2 hview2 hpar2 hroot2 hmemo2 with ⟨nid, b3, hnode, outc⟩
    have hrpid : b3.rootPageId = b.rootPageId :=
      outcome_rootPageId outc hroot2' hnodes2' hrootOk
    rcases outc with ⟨hview3, hmemo3, hlk3, hpres3, hpar3, hmeta3, hroot3, hdirty3,
      hbuckets3, hlen3, hnodes3, nd, hnd, hnddata⟩
    have hnddl : nd.data = NodeData.leaves L := by
      rw [hL] at hnddata
      simpa using hnddata.symm
    rw [hnode]
    dsimp only
    refine ⟨_, rfl, by simp, ?_, ?_, ?_, ?_, ?_, ?_⟩
    · rw [Bucket.root_withDirty, modifyNodeData_root, hroot3, hroot2']
    · rw [Bucket.buckets_withDirty, modifyNodeData_buckets, hbuckets3, hbuckets2']
    · rw [Bucket.meta_withDirty, modifyNodeData_meta, hmeta3, hroot2]
    · rw [Bucket.meta_withDirty, modifyNodeData_meta, hmeta3]
    · rw [rootPageId_withDirty, rootPageId_modify, hrpid]
    · intro q
      rw [page_node_withDirty]
      have hm := @page_node_modify tx (Bucket.page_node tx b) b3 r.leafPage nid nd
        (fun nd0 => Node.insert_data nd0 data) hview3 hmemo3 hlk3 hnd q
      rw [hm]
      by_cases hq : q = r.leafPage
      · rw [if_pos hq, if_pos hq, hnddl]
        rfl
      · rw [if_neg hq, if_neg hq]
  rcases hfound : r.found with _ | _
  · -- key absent: next_int is bumped before materializing the leaf
    have hview2 : ∀ q, Bucket.page_node tx
        (b1.withMeta { b1.meta with next_int := b1.meta.next_int + 1 }) q =
        Bucket.page_node tx b q := by
      intro q
      rw [page_node_withMeta, hb1, page_node_recordPath]
    have hroot2 : (b1.withMeta { b1.meta with next_int := b1.meta.next_int + 1 }).meta.root_page
        = b.meta.root_page := by
      rw [Bucket.meta_withMeta]
      show b1.meta.root_page = b.meta.root_page
      rw [hb1, recordPath_meta]
    rcases hmain (b1.withMeta { b1.meta with next_int := b1.meta.next_int + 1 })
      hview2
      (by rw [Bucket.page_parents_withMeta, hb1])
      hroot2
      (by rw [memoOk_withMeta, hb1, memoOk_recordPath]; exact hmemo)
      (by rw [Bucket.root_withMeta, hb1, recordPath_root])
      (by rw [Bucket.nodes_withMeta, hb1, recordPath_nodes])
      (by rw [Bucket.buckets_withMeta, hb1, recordPath_buckets])
      with ⟨b', hres, hdirty, hroot', hbuckets', hrp', hnext', hrpid', hviews'⟩
    refine ⟨b', L, ?_, hL, hfound ▸ hf, hdirty, hroot', hbuckets', hrp', ?_, hrpid',
      hviews'⟩
    · exact hres
    · rw [Bucket.next_int, hnext', Bucket.meta_withMeta]
      show b1.meta.next_int + 1 = _
      rw [hb1, recordPath_meta]
      simp [hfound, Bucket.next_int]
  · -- key present as the same entry kind: overwrite without bumping next_int
    have hfoundL : leafFound data.key L = true := by rw [← hf, hfound]
    rcases leafFound_current hfoundL with ⟨d0, hd0, hd0k⟩
    have hcurrent : r.current = some d0 := by rw [hcur, hd0]
    rw [hcurrent]
    dsimp only
    have hkd : d0.is_kv = data.is_kv := hkind hfound d0 hcurrent
    have hcond : ¬((d0.is_kv != data.is_kv) = true) := by simp [hkd]
    rw [if_neg hcond]
    rcases hmain b1
      (by intro q; rw [hb1, page_node_recordPath])
      (by rw [hb1])
      (by rw [hb1, recordPath_meta])
      (by rw [hb1, memoOk_recordPath]; exact hmemo)
      (by rw [hb1, recordPath_root])
      (by rw [hb1, recordPath_nodes])
      (by rw [hb1, recordPath_buckets])
      with ⟨b', hres, hdirty, hroot', hbuckets', hrp', hnext', hrpid', hviews'⟩
    refine ⟨b', L, hres, hL, hfound ▸ hf, hdirty, hroot', hbuckets', hrp', ?_, hrpid',
      hviews'⟩
    rw [Bucket.next_int, hnext', hb1, recordPath_meta]
    simp [hfound, Bucket.next_int]

/-- C1: on a writable transaction, if the key does not currently name a
nested bucket (the seek either misses, or hits a key/value entry), then
`put(k, v)` returns `Ok` and a subsequent `get(k)` returns the key/value
entry with value `v`.  The hypotheses are a well-formed bucket state and a
terminating seek for the key; on a miss the seek's landing entry is
unconstrained, so inserting a brand-new key beside a nested-bucket entry of
another name is covered. -/
theorem spec_c1 {tx : TransactionInner} {b b1 : Bucket} {fuel : Nat} {k v : Bytes} {r : SeekRes}
    (hw : tx.writable = true)
    (hwf : Bucket.wf tx fuel b = true)
    (hseek : Bucket.seek tx k fuel b = some (b1, r))
    (hnb : r.found = true → ∀ n m, r.current ≠ some (Data.bucket n m)) :
    ∃ b', Bucket.put tx fuel b k v = some (.ok (), b') ∧
      ∃ b2, Bucket.get tx fuel b' k = some (some (Data.keyValue k v), b2) := by
  have hkind : r.found = true →
      ∀ cur, r.current = some cur → cur.is_kv = (Data.keyValue k v).is_kv := by
    intro hf cur hc
    cases cur with
    | keyValue a bb => rfl
    | bucket n m => exact absurd hc (hnb hf n m)
  have hseek' : Bucket.seek tx (Data.keyValue k v).key fuel b = some (b1, r) := hseek
  rcases put_data_ok hwf hseek' hkind with
    ⟨b', L, hput, hL, hf, hdirty, hroot', hbuckets', hrp', hnext', hrpid', hviews'⟩
  refine ⟨b', ?_, ?_⟩
  · unfold Bucket.put
    rw [hw]
    exact hput
  · rcases seek_inv hseek' with ⟨hpure, hb1⟩
    have hsame : ∀ q, q ≠ r.leafPage →
        Bucket.page_node tx b' q = Bucket.page_node tx b q := by
      intro q hq
      rw [hviews' q, if_neg hq]
    have hleaf : Bucket.page_node tx b' r.leafPage =
        some (.leaves (upsertData (Data.keyValue k v) L)) := by
      rw [hviews' r.leafPage, if_pos rfl]
    have hupd := seekPure_update hpure hsame hleaf
    rcases upsert_found (Data.keyValue k v) L with ⟨hfnd, hcur2⟩
    have hupd2 : seekPure (Bucket.page_node tx b') k fuel b.rootPageId =
        some ⟨leafFound k (upsertData (Data.keyValue k v) L), r.leafPage,
          leafIdx k (upsertData (Data.keyValue k v) L),
          (upsertData (Data.keyValue k v) L)[leafIdx k (upsertData (Data.keyValue k v) L)]?,
          r.path⟩ := hupd
    have hfnd2 : leafFound k (upsertData (Data.keyValue k v) L) = true := hfnd
    have hcur3 : (upsertData (Data.keyValue k v) L)[leafIdx k
        (upsertData (Data.keyValue k v) L)]? = some (Data.keyValue k v) := hcur2
    have hget : Bucket.get tx fuel b' k =
        some (some (Data.keyValue k v), recordPath b' r.path) := by
      unfold Bucket.get Bucket.seek
      rw [hrpid', hupd2]
      simp only [Option.map]
      rw [if_pos hfnd2, hcur3]
    exact ⟨_, hget⟩

/-- Inversion of one successful step of `Bucket::node` on a page id. -/
theorem node_succ_page_inv {tx : TransactionInner} {fuel : Nat} {b b' : Bucket} {p nid : Nat}
    (h : Bucket.node tx (fuel + 1) b (.page p) = some (nid, b')) :
    (lookupA b.page_node_ids p = some nid ∧ b' = b) ∨
    (lookupA b.page_node_ids p = none ∧ nid = b.nodes.length ∧ ∃ d, tx.page p = some d ∧
      ((p = b.meta.root_page ∧
        b' = (b.withMemo ((p, nid) :: b.page_node_ids)).withNodes
          (b.nodes ++ [⟨nid, p, d, false⟩])) ∨
       (p ≠ b.meta.root_page ∧ ∃ pp pid b2 pn br,
         lookupA b.page_parents p = some pp ∧
         Bucket.node tx fuel ((b.withMemo ((p, b.nodes.length) :: b.page_node_ids)).withNodes
           (b.nodes ++ [⟨b.nodes.length, p, d, false⟩])) (.page pp) = some (pid, b2) ∧
         b2.nodes[pid]? = some pn ∧ pn.data = .branches br ∧
         b' = b2.modifyNodeData pid
           (fun _ => .branches (insert_child p d.key_parts br))))) := by
  rw [Bucket.node] at h
  rcases hl : lookupA b.page_node_ids p with _ | m
  · rw [hl] at h
    dsimp only at h
    rcases hpage : tx.page p with _ | d
    · rw [hpage] at h
      exact absurd h (by simp)
    · rw [hpage] at h
      dsimp only at h
      right
      by_cases hp : p = b.meta.root_page
      · rw [if_pos (by simpa using hp)] at h
        simp only [Option.some.injEq, Prod.mk.injEq] at h
        exact ⟨rfl, h.1.symm, d, rfl, Or.inl ⟨hp, by rw [← h.1]; exact h.2.symm⟩⟩
      · rw [if_neg (by simpa using hp)] at h
        rcases hpp : lookupA b.page_parents p with _ | pp
        · rw [show lookupA ((b.withMemo ((p, b.nodes.length) :: b.page_node_ids)).withNodes
            (b.nodes ++ [⟨b.nodes.length, p, d, false⟩])).page_parents p =
            lookupA b.page_parents p from rfl, hpp] at h
          exact absurd h (by simp)
        · rw [show lookupA ((b.withMemo ((p, b.nodes.length) :: b.page_node_ids)).withNodes
            (b.nodes ++ [⟨b.nodes.length, p, d, false⟩])).page_parents p =
            lookupA b.page_parents p from rfl, hpp] at h
          dsimp only at h
          rcases hrec : Bucket.node tx fuel ((b.withMemo ((p, b.nodes.length) ::
              b.page_node_ids)).withNodes (b.nodes ++ [⟨b.nodes.length, p, d, false⟩]))
              (.page pp) with _ | pr
          · rw [hrec] at h
            exact absurd h (by simp)
          · rw [hrec] at h
            dsimp only at h
            rcases pr with ⟨pid, b2⟩
            rcases hpn : b2.nodes[pid]? with _ | pn
            · rw [hpn] at h
              exact absurd h (by simp)
            · rw [hpn] at h
              dsimp only at h
              rcases hpd : pn.data with l | br
              · rw [hpd] at h
                exact absurd h (by simp)
              · rw [hpd] at h
                dsimp only at h
                simp only [Option.some.injEq, Prod.mk.injEq] at h
                refine ⟨rfl, h.1.symm, d, rfl, Or.inr ⟨hp, pp, pid, b2, pn, br, rfl, hrec,
                  hpn, hpd, h.2.symm⟩⟩
  · rw [hl] at h
    dsimp only at h
    simp only [Option.some.injEq, Prod.mk.injEq] at h
    exact Or.inl ⟨by rw [h.1], h.2.symm⟩

theorem node_memo_mono {tx : TransactionInner} :
    ∀ {fuel : Nat} {b b' : Bucket} {id : PageNodeID} {nid : Nat},
    Bucket.node tx fuel b id = some (nid, b') →
    ∀ k v, lookupA b.page_node_ids k = some v → lookupA b'.page_node_ids k = some v := by
  intro fuel
  induction fuel with
  | zero =>
    intro b b' id nid h
    cases id with
    | page p => simp [Bucket.node] at h
    | node n =>
      rw [Bucket.node] at h
      by_cases hn : n < b.nodes.length
      · rw [if_pos hn] at h
        simp only [Option.some.injEq, Prod.mk.injEq] at h
        rw [← h.2]
        exact fun k v hv => hv
      · rw [if_neg hn] at h
        exact absurd h (by simp)
  | succ f ih =>
    intro b b' id nid h
    cases id with
    | node n =>
      rw [Bucket.node] at h
      by_cases hn : n < b.nodes.length
      · rw [if_pos hn] at h
        simp only [Option.some.injEq, Prod.mk.injEq] at h
        rw [← h.2]
        exact fun k v hv => hv
      · rw [if_neg hn] at h
        exact absurd h (by simp)
    | page p =>
      rcases node_succ_page_inv h with ⟨hl, he⟩ | ⟨hl, hnid, d, hpage, hcase⟩
      · rw [he]
        exact fun k v hv => hv
      · intro k v hv
        have hk : (p == k) = false := by
          rw [beq_eq_false_iff_ne]
          intro hpk
          subst hpk
          rw [hl] at hv
          exact absurd hv (by simp)
        have hv1 : lookupA ((p, b.nodes.length) :: b.page_node_ids) k = some v := by
          rw [lookupA_cons_of_ne hk]
          exact hv
        rcases hcase with ⟨hp, he⟩ | ⟨hp, pp, pid, b2, pn, br, hpp, hrec, hpn, hpd, he⟩
        · rw [he, hnid]
          exact hv1
        · rw [he, modifyNodeData_memo]
          exact ih hrec k v hv1

theorem node_sets_memo {tx : TransactionInner} {fuel : Nat} {b b' : Bucket} {p nid : Nat}
    (h : Bucket.node tx fuel b (.page p) = some (nid, b')) :
    lookupA b'.page_node_ids p = some nid := by
  cases fuel with
  | zero => simp [Bucket.node] at h
  | succ f =>
    rcases node_succ_page_inv h with ⟨hl, he⟩ | ⟨hl, hnid, d, hpage, hcase⟩
    · rw [he]; exact hl
    · have h1 : lookupA ((p, b.nodes.length) :: b.page_node_ids) p = some b.nodes.length := by
        simp [lookupA]
      rcases hcase with ⟨hp, he⟩ | ⟨hp, pp, pid, b2, pn, br, hpp, hrec, hpn, hpd, he⟩
      · rw [he, hnid]
        exact h1
      · rw [he, modifyNodeData_memo, hnid]
        exact node_memo_mono hrec p b.nodes.length h1

/-- C8: materialization is idempotent: a second `node(Page p)` call returns
the node id the first call produced, in the unchanged bucket — no new node is
allocated — so at most one node is ever materialized per page. -/
theorem spec_c8 {tx : TransactionInner} {fuel : Nat} {b b' : Bucket} {p nid : Nat}
    (h : Bucket.node tx fuel b (.page p) = some (nid, b')) :
    Bucket.node tx fuel b' (.page p) = some (nid, b') ∧
    lookupA b'.page_node_ids p = some nid := by
  have hm := node_sets_memo h
  refine ⟨?_, hm⟩
  cases fuel with
  | zero => simp [Bucket.node] at h
  | succ f => rw [Bucket.node, hm]

/-! ## Concrete fixtures used to instantiate the theorems -/

/-- A writable transaction whose store holds one empty leaf page 0. -/
def txOne : TransactionInner := ⟨true, fun p => if p == 0 then some (.leaves []) else none⟩

/-- A fresh root bucket over page 0. -/
def bOne : Bucket := .mk ⟨⟨0, 0⟩, .page 0, false, [], [], []⟩ []

/-- `bOne` after page 0 has been materialized. -/
def bOneM : Bucket := .mk ⟨⟨0, 0⟩, .page 0, false, [⟨0, 0, .leaves [], false⟩], [(0, 0)], []⟩ []

theorem spec_c8_witness :
    Bucket.node txOne 1 bOneM (.page 0) = some (0, bOneM) ∧
    lookupA bOneM.page_node_ids 0 = some 0 :=
  spec_c8 (show Bucket.node txOne 1 bOne (.page 0) = some (0, bOneM) from rfl)

/-- `Bucket::node` never touches the meta, root pointer, dirty flag, child
map or parent map (no well-formedness needed). -/
theorem node_state_eq {tx : TransactionInner} :
    ∀ {fuel : Nat} {b b' : Bucket} {id : PageNodeID} {nid : Nat},
    Bucket.node tx fuel b id = some (nid, b') →
    b'.meta = b.meta ∧ b'.root = b.root ∧ b'.dirty = b.dirty ∧
    b'.buckets = b.buckets ∧ b'.page_parents = b.page_parents := by
  intro fuel
  induction fuel with
  | zero =>
    intro b b' id nid h
    cases id with
    | page p => simp [Bucket.node] at h
    | node n =>
      rw [Bucket.node] at h
      by_cases hn : n < b.nodes.length
      · rw [if_pos hn] at h
        simp only [Option.some.injEq, Prod.mk.injEq] at h
        rw [← h.2]
        exact ⟨rfl, rfl, rfl, rfl, rfl⟩
      · rw [if_neg hn] at h
        exact absurd h (by simp)
  | succ f ih =>
    intro b b' id nid h
    cases id with
    | node n =>
      rw [Bucket.node] at h
      by_cases hn : n < b.nodes.length
      · rw [if_pos hn] at h
        simp only [Option.some.injEq, Prod.mk.injEq] at h
        rw [← h.2]
        exact ⟨rfl, rfl, rfl, rfl, rfl⟩
      · rw [if_neg hn] at h
        exact absurd h (by simp)
    | page p =>
      rcases node_succ_page_inv h with ⟨hl, he⟩ | ⟨hl, hnid, d, hpage, hcase⟩
      · rw [he]
        exact ⟨rfl, rfl, rfl, rfl, rfl⟩
      · rcases hcase with ⟨hp, he⟩ | ⟨hp, pp, pid, b2, pn, br, hpp, hrec, hpn, hpd, he⟩
        · rw [he]
          exact ⟨rfl, rfl, rfl, rfl, rfl⟩
        · rcases ih hrec with ⟨h1, h2, h3, h4, h5⟩
          rw [he]
          refine ⟨?_, ?_, ?_, ?_, ?_⟩
          · rw [modifyNodeData_meta, h1]; rfl
          · rw [modifyNodeData_root, h2]; rfl
          · rw [modifyNodeData_dirty, h3]; rfl
          · rw [modifyNodeData_buckets, h4]; rfl
          · rw [modifyNodeData_parents, h5]; rfl

/-- `Bucket::node` does not read the transaction's writability. -/
theorem node_writable_irrel (pg : Nat → Option NodeData) (w w' : Bool) :
    ∀ (fuel : Nat) (b : Bucket) (id : PageNodeID),
    Bucket.node ⟨w, pg⟩ fuel b id = Bucket.node ⟨w', pg⟩ fuel b id := by
  intro fuel
  induction fuel with
  | zero => intro b id; cases id <;> rfl
  | succ f ih =>
    intro b id
    cases id with
    | node n => rfl
    | page p =>
      rw [Bucket.node, Bucket.node]
      rcases lookupA b.page_node_ids p with _ | nid
      · dsimp only
        rcases pg p with _ | d
        · rfl
        · dsimp only
          simp only [Bucket.meta_withNodes, Bucket.meta_withMemo,
            Bucket.page_parents_withNodes, Bucket.page_parents_withMemo]
          by_cases hp : (p == b.meta.root_page) = true
          · rw [if_pos hp, if_pos hp]
          · rw [if_neg hp, if_neg hp]
            rcases lookupA b.page_parents p with _ | pp
            · rfl
            · dsimp only
              rw [ih]
      · rfl

/-- The only results `delete` produces: the removed entry, or
`IncompatibleValue`, or `KeyValueMissing` — never `ReadOnlyTx`. -/
theorem delete_res_cases {tx : TransactionInner} {fuel : Nat} {b b₁ : Bucket} {key : Bytes}
    {res : Except DbError Data} (h : Bucket.delete tx fuel b key = some (res, b₁)) :
    (∃ d, res = .ok d) ∨ res = .error .IncompatibleValue ∨ res = .error .KeyValueMissing := by
  unfold Bucket.delete at h
  rcases hs : Bucket.seek tx key fuel b with _ | pr
  · rw [hs] at h
    exact absurd h (by simp)
  · rw [hs] at h
    rcases pr with ⟨b2, r⟩
    dsimp only at h
    by_cases hf : r.found = true
    · rw [if_pos hf] at h
      rcases hc : r.current with _ | d
      · rw [hc] at h
        exact absurd h (by simp)
      · rw [hc] at h
        dsimp only at h
        by_cases hkv : d.is_kv = true
        · rw [if_pos hkv] at h
          rcases hn : Bucket.node tx fuel (b2.withDirty true) (.page r.leafPage) with _ | pr2
          · rw [hn] at h
            exact absurd h (by simp)
          · rw [hn] at h
            rcases pr2 with ⟨nid, b3⟩
            dsimp only at h
            rcases hnd : b3.nodes[nid]? with _ | n
            · rw [hnd] at h
              exact absurd h (by simp)
            · rw [hnd] at h
              dsimp only at h
              rcases hdd : n.data with l | br
              · rw [hdd] at h
                dsimp only at h
                rcases hl : l[r.index]? with _ | rem
                · rw [hl] at h
                  exact absurd h (by simp)
                · rw [hl] at h
                  simp only [Option.some.injEq, Prod.mk.injEq] at h
                  exact Or.inl ⟨rem, h.1.symm⟩
              · rw [hdd] at h
                exact absurd h (by simp)
        · rw [if_neg hkv] at h
          simp only [Option.some.injEq, Prod.mk.injEq] at h
          exact Or.inr (Or.inl h.1.symm)
    · rw [if_neg hf] at h
      simp only [Option.some.injEq, Prod.mk.injEq] at h
      exact Or.inr (Or.inr h.1.symm)

/-- `delete` never reads the transaction's writability. -/
theorem delete_writable_irrel (pg : Nat → Option NodeData) (w w' : Bool) (fuel : Nat)
    (b : Bucket) (key : Bytes) :
    Bucket.delete ⟨w, pg⟩ fuel b key = Bucket.delete ⟨w', pg⟩ fuel b key := by
  unfold Bucket.delete
  have hs : Bucket.seek ⟨w, pg⟩ key fuel b = Bucket.seek ⟨w', pg⟩ key fuel b := rfl
  rw [hs]
  rcases Bucket.seek ⟨w', pg⟩ key fuel b with _ | pr
  · rfl
  · rcases pr with ⟨b2, r⟩
    dsimp only
    by_cases hf : r.found = true
    · rw [if_pos hf, if_pos hf]
      rcases r.current with _ | d
      · rfl
      · dsimp only
        by_cases hkv : d.is_kv = true
        · rw [if_pos hkv, if_pos hkv]
          rw [node_writable_irrel pg w w']
        · rw [if_neg hkv, if_neg hkv]
    · rw [if_neg hf, if_neg hf]

/-- C3 (amended): `delete` performs no writability check: it never fails with
`ReadOnlyTx`, and its behavior is identical whether or not the owning
transaction is writable. -/
theorem spec_c3 :
    (∀ (tx : TransactionInner) (fuel : Nat) (b b₁ : Bucket) (key : Bytes)
      (res : Except DbError Data),
      Bucket.delete tx fuel b key = some (res, b₁) → res ≠ .error .ReadOnlyTx) ∧
    (∀ (pg : Nat → Option NodeData) (w w' : Bool) (fuel : Nat) (b : Bucket) (key : Bytes),
      Bucket.delete ⟨w, pg⟩ fuel b key = Bucket.delete ⟨w', pg⟩ fuel b key) := by
  constructor
  · intro tx fuel b b₁ key res h hcon
    rcases delete_res_cases h with ⟨d, hd⟩ | hd | hd <;> rw [hcon] at hd <;> simp at hd
  · exact fun pg w w' fuel b key => delete_writable_irrel pg w w' fuel b key

/-- A read-only transaction over a store holding the key `[1]`. -/
def txRO : TransactionInner :=
  ⟨false, fun p => if p == 0 then some (.leaves [.keyValue [1] [2]]) else none⟩

/-- A root bucket for `txRO`. -/
def bRO : Bucket := .mk ⟨⟨0, 0⟩, .page 0, false, [], [], []⟩ []

/-- C3 counterexample: on a non-writable transaction, `delete` of an existing
key/value entry succeeds instead of failing with `ReadOnlyTx`. -/
theorem spec_c3_counterexample :
    txRO.writable = false ∧
    (Bucket.delete txRO 2 bRO [1]).map Prod.fst = some (.ok (Data.keyValue [1] [2])) :=
  ⟨rfl, rfl⟩

/-- `bRO` after the read-only delete has (improperly) mutated it. -/
def bROpost : Bucket :=
  .mk ⟨⟨0, 0⟩, .page 0, true, [⟨0, 0, .leaves [], false⟩], [(0, 0)], []⟩ []

theorem spec_c3_witness :
    (Except.ok (Data.keyValue [1] [2]) : Except DbError Data) ≠ .error .ReadOnlyTx ∧
    Bucket.delete ⟨false, txRO.page⟩ 2 bRO [1] = Bucket.delete ⟨true, txRO.page⟩ 2 bRO [1] :=
  ⟨spec_c3.1 txRO 2 bRO bROpost [1] _ rfl, spec_c3.2 txRO.page false true 2 bRO [1]⟩

/-- C10: a `create_bucket` call on a writable transaction that fails with
`IncompatibleValue` or `BucketExists` has nevertheless already set the dirty
flag, while `next_int`, the node arena, the memo table and the child map are
unchanged — the error path is not atomic with respect to the dirty flag. -/
theorem spec_c10 {tx : TransactionInner} {fuel : Nat} {b b₁ : Bucket} {name : Bytes}
    {e : DbError}
    (hw : tx.writable = true)
    (h : Bucket.create_bucket tx fuel b name = some (.error e, b₁)) :
    b₁.dirty = true ∧
    b₁.next_int = b.next_int ∧
    b₁.nodes = b.nodes ∧
    b₁.page_node_ids = b.page_node_ids ∧
    b₁.buckets = b.buckets ∧
    (e = .IncompatibleValue ∨ e = .BucketExists) := by
  unfold Bucket.create_bucket at h
  rw [hw] at h
  rw [if_neg (by simp)] at h
  dsimp only at h
  rcases hs : Bucket.seek tx name fuel (b.withDirty true) with _ | pr
  · rw [hs] at h
    exact absurd h (by simp)
  · rw [hs] at h
    rcases pr with ⟨b2, r⟩
    dsimp only at h
    rcases seek_inv hs with ⟨hpure, hb2⟩
    have hfields : b2.dirty = true ∧ b2.next_int = b.next_int ∧ b2.nodes = b.nodes ∧
        b2.page_node_ids = b.page_node_ids ∧ b2.buckets = b.buckets := by
      rw [hb2]
      exact ⟨by rw [recordPath_dirty, Bucket.dirty_withDirty],
        by rw [Bucket.next_int, recordPath_meta, Bucket.meta_withDirty]; rfl,
        by rw [recordPath_nodes, Bucket.nodes_withDirty],
        by rw [recordPath_memo, Bucket.page_node_ids_withDirty],
        by rw [recordPath_buckets, Bucket.buckets_withDirty]⟩
    by_cases hf : r.found = true
    · rw [if_pos hf] at h
      rcases hc : r.current with _ | cur
      · rw [hc] at h
        exact absurd h (by simp)
      · rw [hc] at h
        dsimp only at h
        by_cases hkv : cur.is_kv = true
        · rw [if_pos hkv] at h
          simp only [Option.some.injEq, Prod.mk.injEq, Except.error.injEq] at h
          rcases h with ⟨he, hb⟩
          subst hb
          exact ⟨hfields.1, hfields.2.1, hfields.2.2.1, hfields.2.2.2.1, hfields.2.2.2.2,
            Or.inl he.symm⟩
        · rw [if_neg hkv] at h
          simp only [Option.some.injEq, Prod.mk.injEq, Except.error.injEq] at h
          rcases h with ⟨he, hb⟩
          subst hb
          exact ⟨hfields.1, hfields.2.1, hfields.2.2.1, hfields.2.2.2.1, hfields.2.2.2.2,
            Or.inr he.symm⟩
    · rw [if_neg hf] at h
      have hlb : lookupB (((b2.withMeta { b2.meta with next_int :=
          b2.meta.next_int + 1 }).new_child name).buckets) name =
          some (Bucket.mk ⟨⟨0, 0⟩, .node 0, true, [⟨0, 0, .leaves [], false⟩],
            [(0, 0)], []⟩ []) := by
        unfold Bucket.new_child
        simp [lookupB]
      rw [hlb] at h
      dsimp only at h
      rcases hn : Bucket.node tx fuel ((b2.withMeta { b2.meta with next_int :=
          b2.meta.next_int + 1 }).new_child name) (.page r.leafPage) with _ | pr2
      · rw [hn] at h
        exact absurd h (by simp)
      · rw [hn] at h
        rcases pr2 with ⟨nid, b3⟩
        dsimp only at h
        exact absurd h (by simp)

/-- Inversion of a completed `put_data`: either the key held the other entry
kind and the write was rejected with `IncompatibleValue` leaving the counter
and flag untouched, or it succeeded, marked the bucket dirty, and bumped
`next_int` exactly when the key was absent (no well-formedness needed). -/
theorem put_data_inv {tx : TransactionInner} {fuel : Nat} {b b₁ : Bucket} {data : Data}
    {res : Except DbError Unit}
    (h : Bucket.put_data tx fuel b data = some (res, b₁)) :
    ∃ b2 r, Bucket.seek tx data.key fuel b = some (b2, r) ∧ b2 = recordPath b r.path ∧
      ((∃ cur, r.found = true ∧ r.current = some cur ∧ cur.is_kv ≠ data.is_kv ∧
         res = .error .IncompatibleValue ∧ b₁ = b2) ∨
       (res = .ok () ∧ b₁.dirty = true ∧
         (r.found = true → b₁.next_int = b.next_int) ∧
         (r.found = false → b₁.next_int = b.next_int + 1))) := by
  unfold Bucket.put_data at h
  rcases hs : Bucket.seek tx data.key fuel b with _ | pr
  · rw [hs] at h
    exact absurd h (by simp)
  · rw [hs] at h
    rcases pr with ⟨b2, r⟩
    dsimp only at h
    rcases seek_inv hs with ⟨hpure, hb2⟩
    refine ⟨b2, r, rfl, hb2, ?_⟩
    by_cases hf : r.found = true
    · rw [if_pos hf] at h
      rcases hc : r.current with _ | cur
      · rw [hc] at h
        exact absurd h (by simp)
      · rw [hc] at h
        dsimp only at h
        by_cases hkv : (cur.is_kv != data.is_kv) = true
        · rw [if_pos hkv] at h
          simp only [Option.some.injEq, Prod.mk.injEq] at h
          exact Or.inl ⟨cur, hf, rfl, by simpa using hkv, h.1.symm, h.2.symm⟩
        · rw [if_neg hkv] at h
          rcases hn : Bucket.node tx fuel b2 (.page r.leafPage) with _ | pr2
          · rw [hn] at h
            exact absurd h (by simp)
          · rw [hn] at h
            rcases pr2 with ⟨nid, b3⟩
            dsimp only at h
            simp only [Option.some.injEq, Prod.mk.injEq] at h
            rcases h with ⟨hres, hb1⟩
            refine Or.inr ⟨hres.symm, ?_, ?_, ?_⟩
            · rw [← hb1, Bucket.dirty_withDirty]
            · intro _
              rw [← hb1, Bucket.next_int, Bucket.meta_withDirty, modifyNodeData_meta,
                (node_state_eq hn).1, hb2, recordPath_meta]
              rfl
            · intro hcon
              rw [hf] at hcon
              exact absurd hcon (by simp)
    · rw [if_neg hf] at h
      rcases hn : Bucket.node tx fuel (b2.withMeta { b2.meta with next_int :=
          b2.meta.next_int + 1 }) (.page r.leafPage) with _ | pr2
      · rw [hn] at h
        exact absurd h (by simp)
      · rw [hn] at h
        rcases pr2 with ⟨nid, b3⟩
        dsimp only at h
        simp only [Option.some.injEq, Prod.mk.injEq] at h
        rcases h with ⟨hres, hb1⟩
        refine Or.inr ⟨hres.symm, ?_, ?_, ?_⟩
        · rw [← hb1, Bucket.dirty_withDirty]
        · intro hcon
          rw [hcon] at hf
          exact absurd rfl hf
        · intro _
          rw [← hb1, Bucket.next_int, Bucket.meta_withDirty, modifyNodeData_meta,
            (node_state_eq hn).1, Bucket.meta_withMeta]
          show b2.meta.next_int + 1 = _
          rw [hb2, recordPath_meta]
          rfl

/-- C5: `put` fails exactly when the transaction is read-only (`ReadOnlyTx`,
before touching anything) or the existing entry at the key is a nested
bucket (`IncompatibleValue`); on every error `next_int` and the dirty flag
are unchanged, and on success the bucket is marked dirty. -/
theorem spec_c5 :
    (∀ (tx : TransactionInner) (fuel : Nat) (b : Bucket) (k v : Bytes),
      tx.writable = false →
      Bucket.put tx fuel b k v = some (.error .ReadOnlyTx, b)) ∧
    (∀ (tx : TransactionInner) (fuel : Nat) (b b₁ : Bucket) (k v : Bytes) (e : DbError),
      Bucket.put tx fuel b k v = some (.error e, b₁) →
      b₁.next_int = b.next_int ∧ b₁.dirty = b.dirty ∧
      ((e = .ReadOnlyTx ∧ tx.writable = false) ∨
       (e = .IncompatibleValue ∧ tx.writable = true ∧
         ∃ b2 r n m, Bucket.seek tx k fuel b = some (b2, r) ∧ r.found = true ∧
           r.current = some (Data.bucket n m)))) ∧
    (∀ (tx : TransactionInner) (fuel : Nat) (b b₁ : Bucket) (k v : Bytes),
      Bucket.put tx fuel b k v = some (.ok (), b₁) →
      b₁.dirty = true ∧ tx.writable = true) ∧
    (∀ (tx : TransactionInner) (fuel : Nat) (b b2 : Bucket) (k v : Bytes) (r : SeekRes)
      (n : Bytes) (m : BucketMeta), tx.writable = true →
      Bucket.seek tx k fuel b = some (b2, r) → r.found = true →
      r.current = some (Data.bucket n m) →
      Bucket.put tx fuel b k v = some (.error .IncompatibleValue, b2)) := by
  refine ⟨?_, ?_, ?_, ?_⟩
  · intro tx fuel b k v hw
    unfold Bucket.put
    rw [hw, if_pos (by simp)]
  · intro tx fuel b b₁ k v e h
    unfold Bucket.put at h
    by_cases hw : tx.writable = true
    · rw [hw, if_neg (by simp)] at h
      rcases put_data_inv h with ⟨b2, r, hs, hb2, hcase⟩
      rcases hcase with ⟨cur, hf, hc, hkv, hres, hb1⟩ | ⟨hres, _, _, _⟩
      · have he : e = DbError.IncompatibleValue := by
          injection hres with he2
        rcases (show ∃ n m, cur = Data.bucket n m by
          cases cur with
          | keyValue a bb => exact absurd rfl hkv
          | bucket n m => exact ⟨n, m, rfl⟩) with ⟨n, m, hcurb⟩
        subst hb1
        refine ⟨by rw [hb2, Bucket.next_int, recordPath_meta]; rfl,
          by rw [hb2, recordPath_dirty],
          Or.inr ⟨he, hw, b₁, r, n, m, hs, hf, by rw [hc, hcurb]⟩⟩
      · exact absurd hres (by simp)
    · have hwf : tx.writable = false := by
        cases hv : tx.writable
        · rfl
        · exact absurd hv hw
      rw [hwf, if_pos (by simp)] at h
      simp only [Option.some.injEq, Prod.mk.injEq, Except.error.injEq] at h
      rcases h with ⟨he, hb⟩
      subst hb
      exact ⟨rfl, rfl, Or.inl ⟨he.symm, hwf⟩⟩
  · intro tx fuel b b₁ k v h
    unfold Bucket.put at h
    by_cases hw : tx.writable = true
    · rw [hw, if_neg (by simp)] at h
      rcases put_data_inv h with ⟨b2, r, hs, hb2, hcase⟩
      rcases hcase with ⟨cur, hf, hc, hkv, hres, hb1⟩ | ⟨hres, hdirty, _, _⟩
      · exact absurd hres (by simp)
      · exact ⟨hdirty, hw⟩
    · have hwf : tx.writable = false := by
        cases hv : tx.writable
        · rfl
        · exact absurd hv hw
      rw [hwf, if_pos (by simp)] at h
      exact absurd h (by simp)
  · intro tx fuel b b2 k v r n m hw hs hf hc
    unfold Bucket.put
    rw [hw, if_neg (by simp)]
    unfold Bucket.put_data
    have hs2 : Bucket.seek tx (Data.keyValue k v).key fuel b = some (b2, r) := hs
    rw [hs2]
    dsimp only
    rw [if_pos hf, hc]
    dsimp only
    rw [if_pos (by rfl)]

/-- The leaf a well-formed seek reaches is strictly sorted. -/
theorem seek_leaf_sorted {V : Nat → Option NodeData} {key : Bytes} :
    ∀ {fuel p0 : Nat} {r : SeekRes} {L : List Data},
    wfView V fuel p0 = true → seekPure V key fuel p0 = some r →
    V r.leafPage = some (.leaves L) → strictSorted (L.map Data.key) = true := by
  intro fuel
  induction fuel with
  | zero => intro p0 r L hwf h; simp [seekPure] at h
  | succ g ih =>
    intro p0 r L hwf h hL
    rcases seekPure_succ_inv h with ⟨l, hv, hr⟩ | ⟨br, c, r', hv, hc, hrec, hr⟩
    · subst hr
      rw [hv] at hL
      have hlL : l = L := by simpa using hL
      subst hlL
      rw [wfView, hv] at hwf
      exact hwf
    · subst hr
      rw [wfView, hv] at hwf
      dsimp only at hwf
      simp only [Bool.and_eq_true, List.all_eq_true] at hwf
      rcases hwf with ⟨-, hall⟩
      rcases hall c (getElem?_mem hc) with ⟨hwfc, -⟩
      exact ih hwfc hrec hL

/-- Full characterization of a successful `delete` on a well-formed bucket. -/
theorem delete_ok {tx : TransactionInner} {b b1 : Bucket} {fuel : Nat} {k k' v' : Bytes}
    {r : SeekRes}
    (hwf : Bucket.wf tx fuel b = true)
    (hseek : Bucket.seek tx k fuel b = some (b1, r))
    (hfound : r.found = true)
    (hcur : r.current = some (.keyValue k' v')) :
    ∃ b' L, Bucket.delete tx fuel b k = some (.ok (.keyValue k' v'), b') ∧
      b'.dirty = true ∧ k' = k ∧
      Bucket.page_node tx b r.leafPage = some (.leaves L) ∧
      strictSorted (L.map Data.key) = true ∧ leafFound k L = true ∧
      b'.rootPageId = b.rootPageId ∧
      (∀ q, Bucket.page_node tx b' q =
        if q = r.leafPage then some (.leaves (L.eraseIdx (leafIdx k L)))
        else Bucket.page_node tx b q) := by
  rcases seek_inv hseek with ⟨hpure, hb1⟩
  rcases seekPure_spec hpure with ⟨hhead, hlast, hlen, L, hL, hf, hi, hcurL⟩
  rcases wf_parts hwf with ⟨hmemo, hrootOk, hwfv⟩
  have hfL : leafFound k L = true := by rw [← hf, hfound]
  have hkk : k' = k := by
    rcases leafFound_current hfL with ⟨d0, hd0, hd0k⟩
    rw [hcurL, hd0] at hcur
    have hdd : d0 = Data.keyValue k' v' := by
      have := hcur
      simp only [Option.some.injEq] at this
      exact this
    rw [hdd] at hd0k
    exact hd0k
  have hsorted : strictSorted (L.map Data.key) = true := seek_leaf_sorted hwfv hpure hL
  unfold Bucket.delete
  rw [hseek]
  dsimp only
  rw [if_pos hfound, hcur]
  dsimp only
  rw [if_pos (show Data.is_kv (.keyValue k' v') = true from rfl)]
  have hview2 : ∀ q, Bucket.page_node tx (b1.withDirty true) q = Bucket.page_node tx b q := by
    intro q
    rw [page_node_withDirty, hb1, page_node_recordPath]
  rcases seek_node_master hwf hpure (b1.withDirty true) hview2
    (by rw [Bucket.page_parents_withDirty, hb1])
    (by rw [Bucket.meta_withDirty, hb1, recordPath_meta])
    (by rw [memoOk_withDirty, hb1, memoOk_recordPath]; exact hmemo)
    with ⟨nid, b3, hnode, outc⟩
  have hrpid : b3.rootPageId = b.rootPageId :=
    outcome_rootPageId outc (by rw [Bucket.root_withDirty, hb1, recordPath_root])
      (by rw [Bucket.nodes_withDirty, hb1, recordPath_nodes]) hrootOk
  rcases outc with ⟨hview3, hmemo3, hlk3, hpres3, hpar3, hmeta3, hroot3, hdirty3,
    hbuckets3, hlen3, hnodes3, nd, hnd, hnddata⟩
  have hnddl : nd.data = NodeData.leaves L := by
    rw [hL] at hnddata
    simpa using hnddata.symm
  rw [hnode]
  dsimp only
  rw [hnd]
  dsimp only
  rw [hnddl]
  dsimp only
  have hidx : L[r.index]? = some (Data.keyValue k' v') := by
    rw [hi, ← hcurL]
    exact hcur
  rw [hidx]
  dsimp only
  refine ⟨_, L, rfl, ?_, hkk, hL, hsorted, hfL, ?_, ?_⟩
  · rw [modifyNodeData_dirty, hdirty3, Bucket.dirty_withDirty]
  · rw [rootPageId_modify, hrpid]
  · intro q
    have hm := @page_node_modify tx (Bucket.page_node tx b) b3 r.leafPage nid nd
      (fun nd0 => Node.delete_at nd0 r.index) hview3 hmemo3 hlk3 hnd q
    rw [hm]
    by_cases hq : q = r.leafPage
    · rw [if_pos hq, if_pos hq, hnddl]
      show some (NodeData.leaves (L.eraseIdx r.index)) = _
      rw [hi]
    · rw [if_neg hq, if_neg hq]

/-- C6: `delete(k)` fails with `KeyValueMissing` when the key is absent and
with `IncompatibleValue` when it names a nested bucket; otherwise it returns
the removed key/value entry, marks the bucket dirty, and a subsequent
`get(k)` returns nothing. -/
theorem spec_c6 {tx : TransactionInner} {b b1 : Bucket} {fuel : Nat} {k : Bytes} {r : SeekRes}
    (hwf : Bucket.wf tx fuel b = true)
    (hseek : Bucket.seek tx k fuel b = some (b1, r)) :
    (r.found = false → Bucket.delete tx fuel b k = some (.error .KeyValueMissing, b1)) ∧
    (∀ n m, r.found = true → r.current = some (.bucket n m) →
      Bucket.delete tx fuel b k = some (.error .IncompatibleValue, b1)) ∧
    (∀ k' v', r.found = true → r.current = some (.keyValue k' v') →
      ∃ b', Bucket.delete tx fuel b k = some (.ok (.keyValue k' v'), b') ∧
        b'.dirty = true ∧ k' = k ∧
        ∃ b2, Bucket.get tx fuel b' k = some (none, b2)) := by
  refine ⟨?_, ?_, ?_⟩
  · intro hnf
    unfold Bucket.delete
    rw [hseek]
    dsimp only
    rw [if_neg (by rw [hnf]; simp)]
  · intro n m hfound hc
    unfold Bucket.delete
    rw [hseek]
    dsimp only
    rw [if_pos hfound, hc]
    dsimp only
    rw [if_neg (show ¬(Data.is_kv (.bucket n m) = true) by simp [Data.is_kv])]
  · intro k' v' hfound hc
    rcases delete_ok hwf hseek hfound hc with
      ⟨b', L, hdel, hdirty, hkk, hL, hsorted, hfL, hrpid', hviews'⟩
    refine ⟨b', hdel, hdirty, hkk, ?_⟩
    rcases seek_inv hseek with ⟨hpure, hb1⟩
    have hsame : ∀ q, q ≠ r.leafPage →
        Bucket.page_node tx b' q = Bucket.page_node tx b q := by
      intro q hq
      rw [hviews' q, if_neg hq]
    have hleaf : Bucket.page_node tx b' r.leafPage =
        some (.leaves (L.eraseIdx (leafIdx k L))) := by
      rw [hviews' r.leafPage, if_pos rfl]
    have hupd := seekPure_update hpure hsame hleaf
    have hef : leafFound k (L.eraseIdx (leafIdx k L)) = false :=
      erase_not_found k L hsorted hfL
    have hget : Bucket.get tx fuel b' k = some (none, recordPath b' r.path) := by
      unfold Bucket.get Bucket.seek
      rw [hrpid', hupd]
      simp only [Option.map]
      rw [if_neg (by rw [hef]; simp)]
    exact ⟨_, hget⟩

theorem spec_c6_witness :
    ∃ b', Bucket.delete txRO 2 bRO [1] = some (.ok (.keyValue [1] [2]), b') ∧
      b'.dirty = true ∧ ([1] : Bytes) = [1] ∧
      ∃ b2, Bucket.get txRO 2 b' [1] = some (none, b2) :=
  (spec_c6 (show Bucket.wf txRO 2 bRO = true from rfl)
    (show Bucket.seek txRO [1] 2 bRO =
      some (bRO, ⟨true, 0, 0, some (.keyValue [1] [2]), [0]⟩) from rfl)).2.2
    [1] [2] rfl rfl

/-- The bucket value `Bucket::new_child` allocates: default meta, root at
arena node 0, dirty, a single empty leaf node memoized for page 0. -/
def freshChild : Bucket :=
  .mk { meta := ⟨0, 0⟩, root := .node 0, dirty := true,
        nodes := [⟨0, 0, .leaves [], false⟩],
        page_node_ids := [(0, 0)], page_parents := [] } []

theorem new_child_buckets (b : Bucket) (name : Bytes) :
    (b.new_child name).buckets = (name, freshChild) :: b.buckets := rfl

theorem new_child_meta (b : Bucket) (name : Bytes) :
    (b.new_child name).meta = b.meta := rfl

theorem new_child_root (b : Bucket) (name : Bytes) :
    (b.new_child name).root = b.root := rfl

theorem new_child_dirty (b : Bucket) (name : Bytes) :
    (b.new_child name).dirty = b.dirty := rfl

theorem new_child_nodes (b : Bucket) (name : Bytes) :
    (b.new_child name).nodes = b.nodes := rfl

theorem new_child_parents (b : Bucket) (name : Bytes) :
    (b.new_child name).page_parents = b.page_parents := rfl

theorem page_node_new_child (tx : TransactionInner) (b : Bucket) (name : Bytes) :
    Bucket.page_node tx (b.new_child name) = Bucket.page_node tx b := rfl

theorem rootPageId_new_child (b : Bucket) (name : Bytes) :
    (b.new_child name).rootPageId = b.rootPageId := rfl

theorem memoOk_new_child (b : Bucket) (name : Bytes) :
    (b.new_child name).memoOk = b.memoOk := rfl

theorem lookupB_cons_self (l : List (Bytes × Bucket)) (name : Bytes) (c : Bucket) :
    lookupB ((name, c) :: l) name = some c := by
  simp [lookupB]

/-- Full characterization of a successful `create_bucket` on a well-formed
bucket: the name was absent, so it returns `Ok`, stays dirty, bumps
`next_int` by one, registers the fresh child under the name, and inserts a
bucket entry into the reached leaf, leaving every other page untouched. -/
theorem create_bucket_ok {tx : TransactionInner} {b b1 : Bucket} {fuel : Nat} {name : Bytes}
    {r : SeekRes}
    (hw : tx.writable = true)
    (hwf : Bucket.wf tx fuel b = true)
    (hseek : Bucket.seek tx name fuel (b.withDirty true) = some (b1, r))
    (hnf : r.found = false) :
    ∃ b' L, Bucket.create_bucket tx fuel b name = some (.ok name, b') ∧
      b'.dirty = true ∧
      b'.next_int = b.next_int + 1 ∧
      lookupB b'.buckets name = some freshChild ∧
      Bucket.page_node tx b r.leafPage = some (.leaves L) ∧
      leafFound name L = false ∧
      b'.rootPageId = b.rootPageId ∧
      (∀ q, Bucket.page_node tx b' q =
        if q = r.leafPage then some (.leaves (upsertData (Data.bucket name ⟨0, 0⟩) L))
        else Bucket.page_node tx b q) := by
  have hwfd : Bucket.wf tx fuel (b.withDirty true) = true := hwf
  rcases seek_inv hseek with ⟨hpure, hb1⟩
  rcases seekPure_spec hpure with ⟨hhead, hlast, hlen, L, hL, hf, hi, hcurL⟩
  rcases wf_parts hwfd with ⟨hmemo, hrootOk, hwfv⟩
  have hLb : Bucket.page_node tx b r.leafPage = some (.leaves L) := hL
  have hfL : leafFound name L = false := by rw [← hf, hnf]
  unfold Bucket.create_bucket
  rw [hw]
  rw [if_neg (by simp)]
  dsimp only
  rw [hseek]
  dsimp only
  rw [if_neg (by rw [hnf]; simp)]
  rw [new_child_buckets, lookupB_cons_self]
  dsimp only
  have hview2 : ∀ q,
      Bucket.page_node tx
        ((b1.withMeta { b1.meta with next_int := b1.meta.next_int + 1 }).new_child name) q =
      Bucket.page_node tx (b.withDirty true) q := by
    intro q
    rw [page_node_new_child, page_node_withMeta, hb1, page_node_recordPath]
  rcases seek_node_master hwfd hpure
      ((b1.withMeta { b1.meta with next_int := b1.meta.next_int + 1 }).new_child name)
      hview2
      (by rw [new_child_parents, Bucket.page_parents_withMeta, hb1])
      (by rw [new_child_meta, Bucket.meta_withMeta]
          show b1.meta.root_page = _
          rw [hb1, recordPath_meta])
      (by rw [memoOk_new_child, memoOk_withMeta, hb1, memoOk_recordPath]; exact hmemo)
    with ⟨nid, b3, hnode, outc⟩
  have hrpid : b3.rootPageId = (b.withDirty true).rootPageId :=
    outcome_rootPageId outc
      (by rw [new_child_root, Bucket.root_withMeta, hb1, recordPath_root])
      (by rw [new_child_nodes, Bucket.nodes_withMeta, hb1, recordPath_nodes]) hrootOk
  rcases outc with ⟨hview3, hmemo3, hlk3, hpres3, hpar3, hmeta3, hroot3, hdirty3,
    hbuckets3, hlen3, hnodes3, nd, hnd, hnddata⟩
  have hnddl : nd.data = NodeData.leaves L := by
    rw [hL] at hnddata
    simpa using hnddata.symm
  rw [hnode]
  dsimp only
  refine ⟨_, L, rfl, ?_, ?_, ?_, hLb, hfL, ?_, ?_⟩
  · rw [modifyNodeData_dirty, hdirty3, new_child_dirty, Bucket.dirty_withMeta, hb1,
      recordPath_dirty, Bucket.dirty_withDirty]
  · rw [Bucket.next_int, modifyNodeData_meta, hmeta3, new_child_meta, Bucket.meta_withMeta]
    show b1.meta.next_int + 1 = _
    rw [hb1, recordPath_meta]
    rfl
  · rw [modifyNodeData_buckets, hbuckets3, new_child_buckets]
    exact lookupB_cons_self _ name freshChild
  · rw [rootPageId_modify, hrpid, rootPageId_withDirty]
  · intro q
    have hm := @page_node_modify tx (Bucket.page_node tx (b.withDirty true)) b3
      r.leafPage nid nd
      (fun nd0 => Node.insert_data nd0 (Data.bucket name freshChild.meta))
      hview3 hmemo3 hlk3 hnd q
    rw [hm]
    by_cases hq : q = r.leafPage
    · rw [if_pos hq, if_pos hq, hnddl]
      rfl
    · rw [if_neg hq, if_neg hq]
      rfl

/-- C7: `create_bucket(name)` fails with `ReadOnlyTx` on a non-writable
transaction, `IncompatibleValue` when a key/value entry occupies the name,
and `BucketExists` when a bucket already does; on success it bumps
`next_int` by one and registers a fresh empty child bucket under the name,
and an immediately repeated `create_bucket(name)` fails with
`BucketExists`. -/
theorem spec_c7 {tx : TransactionInner} {b b1 : Bucket} {fuel : Nat} {name : Bytes} {r : SeekRes}
    (hwf : Bucket.wf tx fuel b = true)
    (hseek : Bucket.seek tx name fuel (b.withDirty true) = some (b1, r)) :
    (tx.writable = false →
      Bucket.create_bucket tx fuel b name = some (.error .ReadOnlyTx, b)) ∧
    (∀ k' v', tx.writable = true → r.found = true → r.current = some (.keyValue k' v') →
      Bucket.create_bucket tx fuel b name = some (.error .IncompatibleValue, b1)) ∧
    (∀ n m, tx.writable = true → r.found = true → r.current = some (.bucket n m) →
      Bucket.create_bucket tx fuel b name = some (.error .BucketExists, b1)) ∧
    (tx.writable = true → r.found = false →
      ∃ b', Bucket.create_bucket tx fuel b name = some (.ok name, b') ∧
        b'.dirty = true ∧
        b'.next_int = b.next_int + 1 ∧
        lookupB b'.buckets name = some freshChild ∧
        ∃ b'', Bucket.create_bucket tx fuel b' name = some (.error .BucketExists, b'')) := by
  refine ⟨?_, ?_, ?_, ?_⟩
  · intro hw
    unfold Bucket.create_bucket
    rw [hw]
    rw [if_pos (show (!false) = true from rfl)]
  · intro k' v' hw hfound hc
    unfold Bucket.create_bucket
    rw [hw]
    rw [if_neg (by simp)]
    dsimp only
    rw [hseek]
    dsimp only
    rw [if_pos hfound, hc]
    dsimp only
    rw [if_pos (show Data.is_kv (.keyValue k' v') = true from rfl)]
  · intro n m hw hfound hc
    unfold Bucket.create_bucket
    rw [hw]
    rw [if_neg (by simp)]
    dsimp only
    rw [hseek]
    dsimp only
    rw [if_pos hfound, hc]
    dsimp only
    rw [if_neg (show ¬(Data.is_kv (.bucket n m) = true) from by simp [Data.is_kv])]
  · intro hw hnf
    rcases create_bucket_ok hw hwf hseek hnf with
      ⟨b', L, hcb, hdirty, hnext, hlook, hL, hfL, hrpid', hviews'⟩
    refine ⟨b', hcb, hdirty, hnext, hlook, ?_⟩
    rcases seek_inv hseek with ⟨hpure, hb1⟩
    rw [page_node_withDirty, rootPageId_withDirty] at hpure
    have hsame : ∀ q, q ≠ r.leafPage →
        Bucket.page_node tx b' q = Bucket.page_node tx b q := by
      intro q hq
      rw [hviews' q, if_neg hq]
    have hleaf : Bucket.page_node tx b' r.leafPage =
        some (.leaves (upsertData (Data.bucket name ⟨0, 0⟩) L)) := by
      rw [hviews' r.leafPage, if_pos rfl]
    have hupd := seekPure_update hpure hsame hleaf
    have hfnd : leafFound name (upsertData (Data.bucket name ⟨0, 0⟩) L) = true :=
      (upsert_found (Data.bucket name ⟨0, 0⟩) L).1
    have hcur2 : (upsertData (Data.bucket name ⟨0, 0⟩) L)[leafIdx name
        (upsertData (Data.bucket name ⟨0, 0⟩) L)]? =
        some (Data.bucket name ⟨0, 0⟩) :=
      (upsert_found (Data.bucket name ⟨0, 0⟩) L).2
    have hseek2 : Bucket.seek tx name fuel (b'.withDirty true) =
        some (recordPath (b'.withDirty true) r.path,
          ⟨leafFound name (upsertData (Data.bucket name ⟨0, 0⟩) L), r.leafPage,
           leafIdx name (upsertData (Data.bucket name ⟨0, 0⟩) L),
           (upsertData (Data.bucket name ⟨0, 0⟩) L)[leafIdx name
             (upsertData (Data.bucket name ⟨0, 0⟩) L)]?, r.path⟩) := by
      unfold Bucket.seek
      rw [page_node_withDirty, rootPageId_withDirty, hrpid', hupd]
      simp only [Option.map]
    refine ⟨recordPath (b'.withDirty true) r.path, ?_⟩
    unfold Bucket.create_bucket
    rw [hw]
    rw [if_neg (by simp)]
    dsimp only
    rw [hseek2]
    dsimp only
    rw [if_pos hfnd]
    rw [hcur2]
    dsimp only
    rw [if_neg (show ¬(Data.is_kv (.bucket name ⟨0, 0⟩) = true) from by simp [Data.is_kv])]

theorem spec_c7_witness :
    ∃ b', Bucket.create_bucket txOne 2 bOne [1] = some (.ok [1], b') ∧
      b'.dirty = true ∧
      b'.next_int = bOne.next_int + 1 ∧
      lookupB b'.buckets [1] = some freshChild ∧
      ∃ b'', Bucket.create_bucket txOne 2 b' [1] = some (.error .BucketExists, b'') :=
  (spec_c7 (show Bucket.wf txOne 2 bOne = true from rfl)
    (show Bucket.seek txOne [1] 2 (bOne.withDirty true) =
      some (bOne.withDirty true, ⟨false, 0, 0, none, [0]⟩) from rfl)).2.2.2 rfl rfl

def txKV : TransactionInner :=
  ⟨true, fun p => if p == 0 then some (.leaves [.keyValue [1] [2]]) else none⟩

def bKV : Bucket := .mk ⟨⟨0, 0⟩, .page 0, false, [], [], []⟩ []

theorem spec_c10_witness :
    (bKV.withDirty true).dirty = true ∧
    (bKV.withDirty true).next_int = bKV.next_int ∧
    (bKV.withDirty true).nodes = bKV.nodes ∧
    (bKV.withDirty true).page_node_ids = bKV.page_node_ids ∧
    (bKV.withDirty true).buckets = bKV.buckets ∧
    ((DbError.IncompatibleValue : DbError) = .IncompatibleValue ∨
     (DbError.IncompatibleValue : DbError) = .BucketExists) :=
  spec_c10 rfl
    (show Bucket.create_bucket txKV 2 bKV [1] =
      some (.error .IncompatibleValue, bKV.withDirty true) from rfl)

def txBB : TransactionInner :=
  ⟨true, fun p => if p == 0 then some (.leaves [.bucket [1] ⟨0, 0⟩]) else none⟩

def bBB : Bucket := .mk ⟨⟨0, 0⟩, .page 0, false, [], [], []⟩ []

theorem spec_c1_witness :
    ∃ b', Bucket.put txBB 2 bBB [0] [9] = some (.ok (), b') ∧
      ∃ b2, Bucket.get txBB 2 b' [0] = some (some (Data.keyValue [0] [9]), b2) :=
  spec_c1 rfl (show Bucket.wf txBB 2 bBB = true from rfl)
    (show Bucket.seek txBB [0] 2 bBB =
      some (bBB, ⟨false, 0, 0, some (.bucket [1] ⟨0, 0⟩), [0]⟩) from rfl)
    (fun hf n m h => Bool.noConfusion hf)

def bOnePut : Bucket :=
  .mk ⟨⟨0, 1⟩, .page 0, true, [⟨0, 0, .leaves [.keyValue [1] [2]], false⟩], [(0, 0)], []⟩ []

theorem spec_c5_witness :
    Bucket.put txRO 2 bRO [1] [2] = some (.error .ReadOnlyTx, bRO) ∧
    (bRO.next_int = bRO.next_int ∧ bRO.dirty = bRO.dirty ∧
      ((DbError.ReadOnlyTx = .ReadOnlyTx ∧ txRO.writable = false) ∨
       (DbError.ReadOnlyTx = .IncompatibleValue ∧ txRO.writable = true ∧
         ∃ b2 r n m, Bucket.seek txRO [1] 2 bRO = some (b2, r) ∧ r.found = true ∧
           r.current = some (Data.bucket n m)))) ∧
    (bOnePut.dirty = true ∧ txOne.writable = true) ∧
    Bucket.put txBB 2 bBB [1] [9] = some (.error .IncompatibleValue, bBB) :=
  ⟨spec_c5.1 txRO 2 bRO [1] [2] rfl,
   spec_c5.2.1 txRO 2 bRO bRO [1] [2] .ReadOnlyTx rfl,
   spec_c5.2.2.1 txOne 2 bOne bOnePut [1] [2] rfl,
   spec_c5.2.2.2 txBB 2 bBB bBB [1] [9]
     ⟨true, 0, 0, some (Data.bucket [1] ⟨0, 0⟩), [0]⟩ [1] ⟨0, 0⟩ rfl rfl rfl rfl⟩

theorem u64ToLe_length : ∀ (k n : Nat), (u64ToLe k n).length = k := by
  intro k
  induction k with
  | zero => intro n; rfl
  | succ j ih => intro n; simp [u64ToLe, ih]

theorem leToU64_u64ToLe : ∀ (k n : Nat), leToU64 (u64ToLe k n) = n % 256 ^ k := by
  intro k
  induction k with
  | zero => intro n; simp [u64ToLe, leToU64, Nat.mod_one]
  | succ j ih =>
    intro n
    rw [u64ToLe, leToU64, ih, pow_succ, mul_comm (256 ^ j) 256, Nat.mod_mul]

/-- C9: serializing a `BucketMeta` yields exactly 16 bytes, the first 8
encoding `root_page` and the last 8 `next_int`, and (for u64-ranged fields)
deserializing them returns the identical struct. -/
theorem spec_c9 (m : BucketMeta) (h1 : m.root_page < 2 ^ 64) (h2 : m.next_int < 2 ^ 64) :
    m.serialize.length = 16 ∧
    m.serialize.take 8 = u64ToLe 8 m.root_page ∧
    m.serialize.drop 8 = u64ToLe 8 m.next_int ∧
    BucketMeta.deserialize m.serialize = some m := by
  have hlen1 : (u64ToLe 8 m.root_page).length = 8 := u64ToLe_length 8 _
  have hlen2 : (u64ToLe 8 m.next_int).length = 8 := u64ToLe_length 8 _
  have htake : m.serialize.take 8 = u64ToLe 8 m.root_page :=
    List.take_left' hlen1
  have hdrop : m.serialize.drop 8 = u64ToLe 8 m.next_int :=
    List.drop_left' hlen1
  have hser : m.serialize.length = 16 := by
    show (u64ToLe 8 m.root_page ++ u64ToLe 8 m.next_int).length = 16
    rw [List.length_append, hlen1, hlen2]
  refine ⟨hser, htake, hdrop, ?_⟩
  unfold BucketMeta.deserialize
  rw [if_pos (by simp [hser])]
  rw [htake, hdrop, leToU64_u64ToLe, leToU64_u64ToLe]
  have hpow : (256 : Nat) ^ 8 = 2 ^ 64 := by norm_num
  have e1 : m.root_page % 256 ^ 8 = m.root_page := Nat.mod_eq_of_lt (hpow ▸ h1)
  have e2 : m.next_int % 256 ^ 8 = m.next_int := Nat.mod_eq_of_lt (hpow ▸ h2)
  rw [e1, e2]

theorem spec_c9_witness :
    (BucketMeta.serialize ⟨3, 5⟩).length = 16 ∧
    (BucketMeta.serialize ⟨3, 5⟩).take 8 = u64ToLe 8 3 ∧
    (BucketMeta.serialize ⟨3, 5⟩).drop 8 = u64ToLe 8 5 ∧
    BucketMeta.deserialize (BucketMeta.serialize ⟨3, 5⟩) = some ⟨3, 5⟩ :=
  spec_c9 ⟨3, 5⟩ (by norm_num) (by norm_num)

/-- C4 (amended): `put`, `delete`, `create_bucket` and `write` never reset a
set dirty flag: whenever the flag is `true` before the call it is `true` on
the returned bucket.  (`rebalance` is excluded: its root-collapse path onto
an unmaterialized child clears the flag — see the counterexample.) -/
theorem spec_c4 :
    (∀ (tx : TransactionInner) (fuel : Nat) (b b' : Bucket) (k v : Bytes)
      (res : Except DbError Unit), b.dirty = true →
      Bucket.put tx fuel b k v = some (res, b') → b'.dirty = true) ∧
    (∀ (tx : TransactionInner) (fuel : Nat) (b b' : Bucket) (key : Bytes)
      (res : Except DbError Data), b.dirty = true →
      Bucket.delete tx fuel b key = some (res, b') → b'.dirty = true) ∧
    (∀ (tx : TransactionInner) (fuel : Nat) (b b' : Bucket) (name : Bytes)
      (res : Except DbError Bytes), b.dirty = true →
      Bucket.create_bucket tx fuel b name = some (res, b') → b'.dirty = true) ∧
    (∀ (fuel : Nat) (b b' : Bucket) (outs : List (Nat × NodeData)), b.dirty = true →
      Bucket.write fuel b = some (outs, b') → b'.dirty = true) := by
  refine ⟨?_, ?_, ?_, ?_⟩
  · intro tx fuel b b' k v res hd h
    unfold Bucket.put at h
    by_cases hw : tx.writable = true
    · rw [hw, if_neg (by simp)] at h
      rcases put_data_inv h with ⟨b2, r, hs, hb2, hcase⟩
      rcases hcase with ⟨cur, hf, hc, hkv, hres, hb1⟩ | ⟨hres, hdirty, _, _⟩
      · rw [hb1, hb2, recordPath_dirty]
        exact hd
      · exact hdirty
    · have hwf : tx.writable = false := by
        cases hv : tx.writable
        · rfl
        · exact absurd hv hw
      rw [hwf, if_pos (by simp)] at h
      simp only [Option.some.injEq, Prod.mk.injEq] at h
      rw [← h.2]
      exact hd
  · intro tx fuel b b' key res hd h
    unfold Bucket.delete at h
    rcases hs : Bucket.seek tx key fuel b with _ | pr
    · rw [hs] at h
      exact absurd h (by simp)
    · rw [hs] at h
      rcases pr with ⟨b2, r⟩
      dsimp only at h
      rcases seek_inv hs with ⟨hpure, hb2⟩
      by_cases hf : r.found = true
      · rw [if_pos hf] at h
        rcases hc : r.current with _ | d
        · rw [hc] at h
          exact absurd h (by simp)
        · rw [hc] at h
          dsimp only at h
          by_cases hkv : d.is_kv = true
          · rw [if_pos hkv] at h
            rcases hn : Bucket.node tx fuel (b2.withDirty true) (.page r.leafPage) with _ | pr2
            · rw [hn] at h
              exact absurd h (by simp)
            · rw [hn] at h
              rcases pr2 with ⟨nid, b3⟩
              dsimp only at h
              rcases hnd : b3.nodes[nid]? with _ | n
              · rw [hnd] at h
                exact absurd h (by simp)
              · rw [hnd] at h
                dsimp only at h
                rcases hdd : n.data with l | br
                · rw [hdd] at h
                  dsimp only at h
                  rcases hl : l[r.index]? with _ | rem
                  · rw [hl] at h
                    exact absurd h (by simp)
                  · rw [hl] at h
                    simp only [Option.some.injEq, Prod.mk.injEq] at h
                    rw [← h.2, modifyNodeData_dirty, (node_state_eq hn).2.2.1,
                      Bucket.dirty_withDirty]
                · rw [hdd] at h
                  exact absurd h (by simp)
          · rw [if_neg hkv] at h
            simp only [Option.some.injEq, Prod.mk.injEq] at h
            rw [← h.2, hb2, recordPath_dirty]
            exact hd
      · rw [if_neg hf] at h
        simp only [Option.some.injEq, Prod.mk.injEq] at h
        rw [← h.2, hb2, recordPath_dirty]
        exact hd
  · intro tx fuel b b' name res hd h
    unfold Bucket.create_bucket at h
    by_cases hw : tx.writable = true
    · rw [hw, if_neg (by simp)] at h
      dsimp only at h
      rcases hs : Bucket.seek tx name fuel (b.withDirty true) with _ | pr
      · rw [hs] at h
        exact absurd h (by simp)
      · rw [hs] at h
        rcases pr with ⟨b2, r⟩
        dsimp only at h
        rcases seek_inv hs with ⟨hpure, hb2⟩
        by_cases hf : r.found = true
        · rw [if_pos hf] at h
          rcases hc : r.current with _ | cur
          · rw [hc] at h
            exact absurd h (by simp)
          · rw [hc] at h
            dsimp only at h
            by_cases hkv : cur.is_kv = true
            · rw [if_pos hkv] at h
              simp only [Option.some.injEq, Prod.mk.injEq] at h
              rw [← h.2, hb2, recordPath_dirty, Bucket.dirty_withDirty]
            · rw [if_neg hkv] at h
              simp only [Option.some.injEq, Prod.mk.injEq] at h
              rw [← h.2, hb2, recordPath_dirty, Bucket.dirty_withDirty]
        · rw [if_neg hf] at h
          rw [new_child_buckets, lookupB_cons_self] at h
          dsimp only at h
          rcases hn : Bucket.node tx fuel
              ((b2.withMeta { b2.meta with next_int := b2.meta.next_int + 1 }).new_child name)
              (.page r.leafPage) with _ | pr2
          · rw [hn] at h
            exact absurd h (by simp)
          · rw [hn] at h
            rcases pr2 with ⟨nid, b3⟩
            dsimp only at h
            simp only [Option.some.injEq, Prod.mk.injEq] at h
            rw [← h.2, modifyNodeData_dirty, (node_state_eq hn).2.2.1, new_child_dirty,
              Bucket.dirty_withMeta, hb2, recordPath_dirty, Bucket.dirty_withDirty]
    · have hwf : tx.writable = false := by
        cases hv : tx.writable
        · rfl
        · exact absurd hv hw
      rw [hwf, if_pos (show (!false) = true from rfl)] at h
      simp only [Option.some.injEq, Prod.mk.injEq] at h
      rw [← h.2]
      exact hd
  · intro fuel b b' outs hd h
    cases fuel with
    | zero => exact absurd h (by simp [Bucket.write])
    | succ f =>
      rw [Bucket.write] at h
      rcases hwc : writeChildrenWith (Bucket.write f) b.buckets with _ | pr
      · rw [hwc] at h
        exact absurd h (by simp)
      · rw [hwc] at h
        rcases pr with ⟨os, buckets2⟩
        dsimp only at h
        by_cases hdb : (b.withBuckets buckets2).dirty = true
        · rw [if_pos hdb] at h
          simp only [Option.some.injEq, Prod.mk.injEq] at h
          rw [← h.2, Bucket.dirty_withBuckets]
          exact hd
        · rw [if_neg hdb] at h
          simp only [Option.some.injEq, Prod.mk.injEq] at h
          rw [← h.2, Bucket.dirty_withBuckets]
          exact hd

def tx4 : TransactionInner := ⟨true, fun _ => none⟩

def b4 : Bucket :=
  .mk ⟨⟨5, 7⟩, .node 0, true, [⟨0, 5, .branches [⟨[1], 7⟩], false⟩], [(5, 0)], []⟩ []

/-- C4 counterexample: `rebalance` on a dirty bucket whose branch root
collapses onto a single unmaterialized child returns the bucket with the
dirty flag cleared — the flag does return to clean within the transaction. -/
theorem spec_c4_counterexample :
    b4.dirty = true ∧
    (Bucket.rebalance tx4 3 b4).map (fun pr => pr.2.dirty) = some false :=
  ⟨rfl, rfl⟩

def bPut4 : Bucket :=
  .mk ⟨⟨0, 1⟩, .page 0, true, [⟨0, 0, .leaves [.keyValue [1] [2]], false⟩], [(0, 0)], []⟩ []

def bDel4 : Bucket :=
  .mk ⟨⟨0, 0⟩, .page 0, true, [⟨0, 0, .leaves [], false⟩], [(0, 0)], []⟩ []

def bCre4 : Bucket :=
  .mk ⟨⟨0, 1⟩, .page 0, true, [⟨0, 0, .leaves [.bucket [1] ⟨0, 0⟩], false⟩], [(0, 0)], []⟩
    [([1], freshChild)]

theorem spec_c4_witness :
    bPut4.dirty = true ∧ bDel4.dirty = true ∧ bCre4.dirty = true ∧
    (bOne.withDirty true).dirty = true :=
  ⟨spec_c4.1 txOne 2 (bOne.withDirty true) bPut4 [1] [2] (.ok ()) rfl rfl,
   spec_c4.2.1 txRO 2 (bRO.withDirty true) bDel4 [1] (.ok (.keyValue [1] [2])) rfl rfl,
   spec_c4.2.2.1 txOne 2 (bOne.withDirty true) bCre4 [1] (.ok [1]) rfl rfl,
   spec_c4.2.2.2 1 (bOne.withDirty true) (bOne.withDirty true) [] rfl rfl⟩

theorem markDeleted_meta (b : Bucket) (nid : Nat) : (b.markDeleted nid).meta = b.meta := by
  unfold Bucket.markDeleted
  rcases h : b.nodes[nid]? with _ | n
  · rfl
  · rfl

theorem new_node_meta (b : Bucket) (d : NodeData) : (b.new_node d).2.meta = b.meta := rfl

theorem foldl_bucket_meta (f : Bucket → Branch → Bucket)
    (hf : ∀ b c, (f b c).meta = b.meta) :
    ∀ (l : List Branch) (b : Bucket), (l.foldl f b).meta = b.meta := by
  intro l
  induction l with
  | nil => intro b; rfl
  | cons x xs ih =>
    intro b
    rw [List.foldl_cons, ih, hf]

theorem foldl_pair_meta (f : List Branch × Bucket → Branch → List Branch × Bucket)
    (hf : ∀ st c, (f st c).2.meta = st.2.meta) :
    ∀ (l : List Branch) (st : List Branch × Bucket), (l.foldl f st).2.meta = st.2.meta := by
  intro l
  induction l with
  | nil => intro st; rfl
  | cons x xs ih =>
    intro st
    rw [List.foldl_cons, ih, hf]

theorem foldl_chunks_meta {α : Type} (f : Bucket × List Branch → α → Bucket × List Branch)
    (hf : ∀ st c, (f st c).1.meta = st.1.meta) :
    ∀ (l : List α) (st : Bucket × List Branch), (l.foldl f st).1.meta = st.1.meta := by
  intro l
  induction l with
  | nil => intro st; rfl
  | cons x xs ih =>
    intro st
    rw [List.foldl_cons, ih, hf]

/-- `Node::merge` never touches the bucket meta. -/
theorem mergeNode_meta {tx : TransactionInner} :
    ∀ (fuel : Nat) (b : Bucket) (nid : Nat),
    (Bucket.mergeNode tx fuel b nid).2.meta = b.meta := by
  intro fuel
  induction fuel with
  | zero => intro b nid; rfl
  | succ f ih =>
    intro b nid
    rw [Bucket.mergeNode]
    rcases hnd : b.nodes[nid]? with _ | n
    · rfl
    · dsimp only
      rcases hdd : n.data with l | br
      · rfl
      · dsimp only
        rw [modifyNodeData_meta, foldl_pair_meta, foldl_bucket_meta]
        · intro b0 c
          rcases hl : lookupA b0.page_node_ids c.page with _ | cid
          · rfl
          · exact ih b0 cid
        · intro st c
          rcases hl : lookupA st.2.page_node_ids c.page with _ | cid
          · rfl
          · dsimp only
            rcases hcn : st.2.nodes[cid]? with _ | cn
            · rfl
            · dsimp only
              by_cases hsz : (cn.data.size == 0) = true
              · rw [if_pos hsz]
                exact markDeleted_meta st.2 cid
              · rw [if_neg hsz]

/-- `Node::split` never touches the bucket meta. -/
theorem splitNode_meta (b : Bucket) (nid : Nat) : (b.splitNode nid).1.meta = b.meta := by
  unfold Bucket.splitNode
  rcases hnd : b.nodes[nid]? with _ | n
  · rfl
  · dsimp only
    by_cases hsz : n.data.size ≤ maxFill
    · rw [if_pos hsz]
    · rw [if_neg hsz]
      rcases hdd : n.data with l | brl
      · dsimp only
        rw [foldl_chunks_meta, modifyNodeData_meta]
        intro st c
        rfl
      · dsimp only
        rw [foldl_chunks_meta, modifyNodeData_meta]
        intro st c
        rfl

/-- The split loop of `Bucket::rebalance` never touches the bucket meta. -/
theorem splitLoop_meta : ∀ (fuel : Nat) (b : Bucket) (rid : Nat) {b' : Bucket} {rid' : Nat},
    Bucket.splitLoop fuel b rid = some (b', rid') → b'.meta = b.meta := by
  intro fuel
  induction fuel with
  | zero =>
    intro b rid b' rid' h
    simp [Bucket.splitLoop] at h
  | succ f ih =>
    intro b rid b' rid' h
    rw [Bucket.splitLoop] at h
    rcases hsp : b.splitNode rid with ⟨b1, obrs⟩
    rw [hsp] at h
    have hb1 : b1.meta = b.meta := by
      have := splitNode_meta b rid
      rw [hsp] at this
      exact this
    rcases obrs with _ | brs
    · dsimp only at h
      simp only [Option.some.injEq, Prod.mk.injEq] at h
      rw [← h.1]
      exact hb1
    · dsimp only at h
      rcases hrn : b1.nodes[rid]? with _ | rootn
      · rw [hrn] at h
        exact absurd h (by simp)
      · rw [hrn] at h
        dsimp only at h
        have h2 := ih _ _ h
        exact h2.trans hb1

/-- The meta re-insertion loop of `Bucket::rebalance` never decreases
`next_int`. -/
theorem putMetas_mono {tx : TransactionInner} {fuel : Nat} :
    ∀ (metas : List (Bytes × BucketMeta)) (b b' : Bucket),
    Bucket.putMetas tx fuel b metas = some b' → b.next_int ≤ b'.next_int := by
  intro metas
  induction metas with
  | nil =>
    intro b b' h
    simp only [Bucket.putMetas, Option.some.injEq] at h
    rw [h]
  | cons km rest ih =>
    intro b b' h
    rcases km with ⟨k, m⟩
    rw [Bucket.putMetas] at h
    rcases hpd : Bucket.put_data tx fuel b (.bucket k m) with _ | pr
    · rw [hpd] at h
      exact absurd h (by simp)
    · rw [hpd] at h
      rcases pr with ⟨res, b1⟩
      rcases res with e | u
      · dsimp only at h
        exact absurd h (by simp)
      · dsimp only at h
        have h1 : b.next_int ≤ b1.next_int := by
          rcases put_data_inv hpd with ⟨b2, r, hs, hb2, hcase⟩
          rcases hcase with ⟨cur, hf, hc, hkv, hres, hb1e⟩ | ⟨hres, hd, hfe, hfn⟩
          · exact absurd hres (by simp)
          · by_cases hf : r.found = true
            · rw [hfe hf]
            · have hnf : r.found = false := by
                cases hv : r.found
                · rfl
                · exact absurd hv hf
              rw [hfn hnf]
              omega
        exact le_trans h1 (ih b1 b' h)

/-- A completed `get` returns the bucket with meta unchanged. -/
theorem get_meta_eq {tx : TransactionInner} {fuel : Nat} {b b' : Bucket} {key : Bytes}
    {res : Option Data} (h : Bucket.get tx fuel b key = some (res, b')) :
    b'.meta = b.meta := by
  unfold Bucket.get at h
  rcases hs : Bucket.seek tx key fuel b with _ | pr
  · rw [hs] at h
    exact absurd h (by simp)
  · rw [hs] at h
    rcases pr with ⟨b2, r⟩
    rcases seek_inv hs with ⟨hpure, hb2⟩
    dsimp only at h
    by_cases hf : r.found = true
    · rw [if_pos hf] at h
      simp only [Option.some.injEq, Prod.mk.injEq] at h
      rw [← h.2, hb2, recordPath_meta]
    · rw [if_neg hf] at h
      simp only [Option.some.injEq, Prod.mk.injEq] at h
      rw [← h.2, hb2, recordPath_meta]

/-- A completed `delete` returns the bucket with meta unchanged. -/
theorem delete_meta_eq {tx : TransactionInner} {fuel : Nat} {b b' : Bucket} {key : Bytes}
    {res : Except DbError Data} (h : Bucket.delete tx fuel b key = some (res, b')) :
    b'.meta = b.meta := by
  unfold Bucket.delete at h
  rcases hs : Bucket.seek tx key fuel b with _ | pr
  · rw [hs] at h
    exact absurd h (by simp)
  · rw [hs] at h
    rcases pr with ⟨b2, r⟩
    dsimp only at h
    rcases seek_inv hs with ⟨hpure, hb2⟩
    by_cases hf : r.found = true
    · rw [if_pos hf] at h
      rcases hc : r.current with _ | d
      · rw [hc] at h
        exact absurd h (by simp)
      · rw [hc] at h
        dsimp only at h
        by_cases hkv : d.is_kv = true
        · rw [if_pos hkv] at h
          rcases hn : Bucket.node tx fuel (b2.withDirty true) (.page r.leafPage) with _ | pr2
          · rw [hn] at h
            exact absurd h (by simp)
          · rw [hn] at h
            rcases pr2 with ⟨nid, b3⟩
            dsimp only at h
            rcases hnd : b3.nodes[nid]? with _ | n
            · rw [hnd] at h
              exact absurd h (by simp)
            · rw [hnd] at h
              dsimp only at h
              rcases hdd : n.data with l | br
              · rw [hdd] at h
                dsimp only at h
                rcases hl : l[r.index]? with _ | rem
                · rw [hl] at h
                  exact absurd h (by simp)
                · rw [hl] at h
                  simp only [Option.some.injEq, Prod.mk.injEq] at h
                  rw [← h.2, modifyNodeData_meta, (node_state_eq hn).1,
                    Bucket.meta_withDirty, hb2, recordPath_meta]
              · rw [hdd] at h
                exact absurd h (by simp)
        · rw [if_neg hkv] at h
          simp only [Option.some.injEq, Prod.mk.injEq] at h
          rw [← h.2, hb2, recordPath_meta]
    · rw [if_neg hf] at h
      simp only [Option.some.injEq, Prod.mk.injEq] at h
      rw [← h.2, hb2, recordPath_meta]

/-- `create_bucket` bumps `next_int` by exactly one on success and leaves it
unchanged on every error. -/
theorem create_bucket_next {tx : TransactionInner} {fuel : Nat} {b b' : Bucket} {name : Bytes}
    {res : Except DbError Bytes}
    (h : Bucket.create_bucket tx fuel b name = some (res, b')) :
    ((∃ e, res = .error e) ∧ b'.next_int = b.next_int) ∨
    (res = .ok name ∧ b'.next_int = b.next_int + 1) := by
  unfold Bucket.create_bucket at h
  by_cases hw : tx.writable = true
  · rw [hw, if_neg (by simp)] at h
    dsimp only at h
    rcases hs : Bucket.seek tx name fuel (b.withDirty true) with _ | pr
    · rw [hs] at h
      exact absurd h (by simp)
    · rw [hs] at h
      rcases pr with ⟨b2, r⟩
      dsimp only at h
      rcases seek_inv hs with ⟨hpure, hb2⟩
      by_cases hf : r.found = true
      · rw [if_pos hf] at h
        rcases hc : r.current with _ | cur
        · rw [hc] at h
          exact absurd h (by simp)
        · rw [hc] at h
          dsimp only at h
          by_cases hkv : cur.is_kv = true
          · rw [if_pos hkv] at h
            simp only [Option.some.injEq, Prod.mk.injEq] at h
            refine Or.inl ⟨⟨.IncompatibleValue, h.1.symm⟩, ?_⟩
            rw [← h.2, hb2, Bucket.next_int, recordPath_meta, Bucket.meta_withDirty]
            rfl
          · rw [if_neg hkv] at h
            simp only [Option.some.injEq, Prod.mk.injEq] at h
            refine Or.inl ⟨⟨.BucketExists, h.1.symm⟩, ?_⟩
            rw [← h.2, hb2, Bucket.next_int, recordPath_meta, Bucket.meta_withDirty]
            rfl
      · rw [if_neg hf] at h
        rw [new_child_buckets, lookupB_cons_self] at h
        dsimp only at h
        rcases hn : Bucket.node tx fuel
            ((b2.withMeta { b2.meta with next_int := b2.meta.next_int + 1 }).new_child name)
            (.page r.leafPage) with _ | pr2
        · rw [hn] at h
          exact absurd h (by simp)
        · rw [hn] at h
          rcases pr2 with ⟨nid, b3⟩
          dsimp only at h
          simp only [Option.some.injEq, Prod.mk.injEq] at h
          refine Or.inr ⟨h.1.symm, ?_⟩
          rw [← h.2, Bucket.next_int, modifyNodeData_meta, (node_state_eq hn).1,
            new_child_meta, Bucket.meta_withMeta]
          show b2.meta.next_int + 1 = _
          rw [hb2, recordPath_meta, Bucket.meta_withDirty]
          rfl
  · have hwf : tx.writable = false := by
      cases hv : tx.writable
      · rfl
      · exact absurd hv hw
    rw [hwf, if_pos (show (!false) = true from rfl)] at h
    simp only [Option.some.injEq, Prod.mk.injEq] at h
    refine Or.inl ⟨⟨.ReadOnlyTx, h.1.symm⟩, ?_⟩
    rw [← h.2]

/-- A completed `get_bucket` returns the bucket with meta unchanged. -/
theorem get_bucket_meta_eq {tx : TransactionInner} {fuel : Nat} {b b' : Bucket}
    {name : Bytes} {res : Except DbError Unit}
    (h : Bucket.get_bucket tx fuel b name = some (res, b')) :
    b'.meta = b.meta := by
  unfold Bucket.get_bucket at h
  rcases hlb : lookupB b.buckets name with _ | cb
  · rw [hlb] at h
    rcases hs : Bucket.seek tx name fuel b with _ | pr
    · rw [hs] at h
      exact absurd h (by simp)
    · rw [hs] at h
      rcases pr with ⟨b2, r⟩
      dsimp only at h
      rcases seek_inv hs with ⟨hpure, hb2⟩
      by_cases hf : r.found = true
      · rw [if_pos hf] at h
        rcases hc : r.current with _ | cur
        · rw [hc] at h
          simp only [Option.some.injEq, Prod.mk.injEq] at h
          rw [← h.2, hb2, recordPath_meta]
        · rcases cur with ⟨k2, v2⟩ | ⟨n2, m2⟩
          · rw [hc] at h
            simp only [Option.some.injEq, Prod.mk.injEq] at h
            rw [← h.2, hb2, recordPath_meta]
          · rw [hc] at h
            simp only [Option.some.injEq, Prod.mk.injEq] at h
            rw [← h.2, Bucket.meta_withBuckets, hb2, recordPath_meta]
      · rw [if_neg hf] at h
        simp only [Option.some.injEq, Prod.mk.injEq] at h
        rw [← h.2, hb2, recordPath_meta]
  · rw [hlb] at h
    simp only [Option.some.injEq, Prod.mk.injEq] at h
    rw [← h.2]

/-- A completed `write` returns the bucket with meta unchanged. -/
theorem write_meta_eq {fuel : Nat} {b b' : Bucket} {outs : List (Nat × NodeData)}
    (h : Bucket.write fuel b = some (outs, b')) : b'.meta = b.meta := by
  cases fuel with
  | zero => exact absurd h (by simp [Bucket.write])
  | succ f =>
    rw [Bucket.write] at h
    rcases hwc : writeChildrenWith (Bucket.write f) b.buckets with _ | pr
    · rw [hwc] at h
      exact absurd h (by simp)
    · rw [hwc] at h
      rcases pr with ⟨os, buckets2⟩
      dsimp only at h
      by_cases hdb : (b.withBuckets buckets2).dirty = true
      · rw [if_pos hdb] at h
        simp only [Option.some.injEq, Prod.mk.injEq] at h
        rw [← h.2, Bucket.meta_withBuckets]
      · rw [if_neg hdb] at h
        simp only [Option.some.injEq, Prod.mk.injEq] at h
        rw [← h.2, Bucket.meta_withBuckets]

/-- `Bucket::rebalance` never decreases `next_int` (the meta re-insertions
may bump it; merging and splitting leave it unchanged). -/
theorem rebalance_mono {tx : TransactionInner} :
    ∀ (fuel : Nat) (b : Bucket) {m : BucketMeta} {b' : Bucket},
    Bucket.rebalance tx fuel b = some (m, b') → b.next_int ≤ b'.next_int := by
  intro fuel
  induction fuel with
  | zero =>
    intro b m b' h
    simp [Bucket.rebalance] at h
  | succ f ih =>
    intro b m b' h
    rw [Bucket.rebalance] at h
    split at h
    · exact absurd h (by simp)
    · rename_i buckets2 metas anyD heq1
      dsimp only at h
      split at h
      · exact absurd h (by simp)
      · rename_i b2 heq2
        have hm1 : b.next_int ≤ b2.next_int := by
          have hB1 : (if anyD = true then (b.withBuckets buckets2).withDirty true
              else b.withBuckets buckets2).next_int = b.next_int := by
            by_cases had : anyD = true
            · rw [if_pos had, Bucket.next_int, Bucket.meta_withDirty, Bucket.meta_withBuckets]
              rfl
            · rw [if_neg had, Bucket.next_int, Bucket.meta_withBuckets]
              rfl
          rw [← hB1]
          exact putMetas_mono metas _ b2 heq2
        split at h
        · -- this bucket is dirty: merge, maybe collapse, then split
          split at h
          · exact absurd h (by simp)
          · rename_i rid b3 heq3
            split at h
            · exact absurd h (by simp)
            · rename_i rootn heq4
              have hb3 : b3.meta = b2.meta := (node_state_eq heq3).1
              split at h
              · -- root collapse onto its single child
                split at h
                · rename_i brl hrd
                  split at h
                  · exact absurd h (by simp)
                  · rename_i c heq5
                    split at h
                    · simp only [Option.some.injEq, Prod.mk.injEq] at h
                      rw [← h.2]
                      show b.next_int ≤
                        ((Bucket.mergeNode tx f b3 rid).2.markDeleted rid).meta.next_int
                      rw [markDeleted_meta, mergeNode_meta, hb3]
                      exact hm1
                    · -- doSplit after the collapse
                      split at h
                      · exact absurd h (by simp)
                      · rename_i rid2 b7 heq6
                        split at h
                        · exact absurd h (by simp)
                        · rename_i b8 rid3 heq7
                          split at h
                          · exact absurd h (by simp)
                          · rename_i rn heq8
                            simp only [Option.some.injEq, Prod.mk.injEq] at h
                            rw [← h.2]
                            show b.next_int ≤ b8.meta.next_int
                            rw [splitLoop_meta f b7 rid2 heq7, (node_state_eq heq6).1,
                              Bucket.meta_withRoot, Bucket.meta_withMeta,
                              markDeleted_meta, mergeNode_meta, hb3]
                            exact hm1
                · exact absurd h (by simp)
              · -- no collapse: split from the merged root
                split at h
                · exact absurd h (by simp)
                · rename_i rid2 b7 heq6
                  split at h
                  · exact absurd h (by simp)
                  · rename_i b8 rid3 heq7
                    split at h
                    · exact absurd h (by simp)
                    · rename_i rn heq8
                      simp only [Option.some.injEq, Prod.mk.injEq] at h
                      rw [← h.2]
                      show b.next_int ≤ b8.meta.next_int
                      rw [splitLoop_meta f b7 rid2 heq7, (node_state_eq heq6).1,
                        mergeNode_meta, hb3]
                      exact hm1
        · simp only [Option.some.injEq, Prod.mk.injEq] at h
          rw [← h.2]
          exact hm1

/-- `put` never decreases `next_int`. -/
theorem put_mono {tx : TransactionInner} {fuel : Nat} {b b' : Bucket} {k v : Bytes}
    {res : Except DbError Unit} (h : Bucket.put tx fuel b k v = some (res, b')) :
    b.next_int ≤ b'.next_int := by
  unfold Bucket.put at h
  by_cases hw : tx.writable = true
  · rw [hw, if_neg (by simp)] at h
    rcases put_data_inv h with ⟨b2, r, hs, hb2, hcase⟩
    rcases hcase with ⟨cur, hf, hc, hkv, hres, hb1⟩ | ⟨hres, hd, hfe, hfn⟩
    · have he : b'.next_int = b.next_int := by
        rw [hb1, hb2, Bucket.next_int, recordPath_meta]
        rfl
      rw [he]
    · by_cases hf : r.found = true
      · rw [hfe hf]
      · have hnf : r.found = false := by
          cases hv : r.found
          · rfl
          · exact absurd hv hf
        rw [hfn hnf]
        omega
  · have hwf : tx.writable = false := by
      cases hv : tx.writable
      · rfl
      · exact absurd hv hw
    rw [hwf, if_pos (by simp)] at h
    simp only [Option.some.injEq, Prod.mk.injEq] at h
    rw [← h.2]

/-- One public bucket operation of a transaction. -/
inductive BucketOp where
  | putOp (k v : Bytes)
  | getOp (k : Bytes)
  | deleteOp (k : Bytes)
  | createOp (name : Bytes)
  | getBucketOp (name : Bytes)
  | rebalanceOp
  | writeOp

/-- Run one operation, keeping only the resulting bucket state. -/
def applyOp (tx : TransactionInner) (fuel : Nat) (b : Bucket) : BucketOp → Option Bucket
  | .putOp k v => (Bucket.put tx fuel b k v).map (fun pr => pr.2)
  | .getOp k => (Bucket.get tx fuel b k).map (fun pr => pr.2)
  | .deleteOp k => (Bucket.delete tx fuel b k).map (fun pr => pr.2)
  | .createOp n => (Bucket.create_bucket tx fuel b n).map (fun pr => pr.2)
  | .getBucketOp n => (Bucket.get_bucket tx fuel b n).map (fun pr => pr.2)
  | .rebalanceOp => (Bucket.rebalance tx fuel b).map (fun pr => pr.2)
  | .writeOp => (Bucket.write fuel b).map (fun pr => pr.2)

/-- Run a sequence of operations. -/
def applyOps (tx : TransactionInner) (fuel : Nat) : Bucket → List BucketOp → Option Bucket
  | b, [] => some b
  | b, op :: rest =>
    match applyOp tx fuel b op with
    | none => none
    | some b1 => applyOps tx fuel b1 rest

/-- Every single operation is monotone in `next_int`. -/
theorem applyOp_mono {tx : TransactionInner} {fuel : Nat} {b b' : Bucket} {op : BucketOp}
    (h : applyOp tx fuel b op = some b') : b.next_int ≤ b'.next_int := by
  cases op with
  | putOp k v =>
    unfold applyOp at h
    dsimp only at h
    rcases hx : Bucket.put tx fuel b k v with _ | pr
    · rw [hx] at h
      exact absurd h (by simp)
    · rw [hx] at h
      simp only [Option.map, Option.some.injEq] at h
      rw [← h]
      exact put_mono hx
  | getOp k =>
    unfold applyOp at h
    dsimp only at h
    rcases hx : Bucket.get tx fuel b k with _ | pr
    · rw [hx] at h
      exact absurd h (by simp)
    · rw [hx] at h
      simp only [Option.map, Option.some.injEq] at h
      rw [← h, Bucket.next_int, Bucket.next_int, get_meta_eq hx]
  | deleteOp k =>
    unfold applyOp at h
    dsimp only at h
    rcases hx : Bucket.delete tx fuel b k with _ | pr
    · rw [hx] at h
      exact absurd h (by simp)
    · rw [hx] at h
      simp only [Option.map, Option.some.injEq] at h
      rw [← h, Bucket.next_int, Bucket.next_int, delete_meta_eq hx]
  | createOp n =>
    unfold applyOp at h
    dsimp only at h
    rcases hx : Bucket.create_bucket tx fuel b n with _ | pr
    · rw [hx] at h
      exact absurd h (by simp)
    · rw [hx] at h
      simp only [Option.map, Option.some.injEq] at h
      rw [← h]
      rcases create_bucket_next hx with ⟨-, he⟩ | ⟨-, he⟩
      · rw [he]
      · rw [he]
        omega
  | getBucketOp n =>
    unfold applyOp at h
    dsimp only at h
    rcases hx : Bucket.get_bucket tx fuel b n with _ | pr
    · rw [hx] at h
      exact absurd h (by simp)
    · rw [hx] at h
      simp only [Option.map, Option.some.injEq] at h
      rw [← h, Bucket.next_int, Bucket.next_int, get_bucket_meta_eq hx]
  | rebalanceOp =>
    unfold applyOp at h
    dsimp only at h
    rcases hx : Bucket.rebalance tx fuel b with _ | pr
    · rw [hx] at h
      exact absurd h (by simp)
    · rw [hx] at h
      simp only [Option.map, Option.some.injEq] at h
      rw [← h]
      exact rebalance_mono fuel b hx
  | writeOp =>
    unfold applyOp at h
    dsimp only at h
    rcases hx : Bucket.write fuel b with _ | pr
    · rw [hx] at h
      exact absurd h (by simp)
    · rw [hx] at h
      simp only [Option.map, Option.some.injEq] at h
      rw [← h, Bucket.next_int, Bucket.next_int, write_meta_eq hx]

/-- Monotonicity of `next_int` over any completed operation sequence. -/
theorem applyOps_mono {tx : TransactionInner} {fuel : Nat} :
    ∀ (ops : List BucketOp) (b b' : Bucket),
    applyOps tx fuel b ops = some b' → b.next_int ≤ b'.next_int := by
  intro ops
  induction ops with
  | nil =>
    intro b b' h
    simp only [applyOps, Option.some.injEq] at h
    rw [h]
  | cons op rest ih =>
    intro b b' h
    rw [applyOps] at h
    rcases hx : applyOp tx fuel b op with _ | b1
    · rw [hx] at h
      exact absurd h (by simp)
    · rw [hx] at h
      dsimp only at h
      exact le_trans (applyOp_mono hx) (ih b1 b' h)

/-- C2: `next_int` never decreases across any completed sequence of bucket
operations; a successful `put` bumps it by exactly one when the key was
absent and leaves it unchanged when the key was present (an overwrite), and
a successful `create_bucket` bumps it by exactly one. -/
theorem spec_c2 {tx : TransactionInner} {fuel : Nat} :
    (∀ (ops : List BucketOp) (b b' : Bucket),
      applyOps tx fuel b ops = some b' → b.next_int ≤ b'.next_int) ∧
    (∀ (b b2 b' : Bucket) (k v : Bytes) (r : SeekRes),
      Bucket.seek tx k fuel b = some (b2, r) →
      Bucket.put tx fuel b k v = some (.ok (), b') →
      (r.found = false → b'.next_int = b.next_int + 1) ∧
      (r.found = true → b'.next_int = b.next_int)) ∧
    (∀ (b b' : Bucket) (name : Bytes),
      Bucket.create_bucket tx fuel b name = some (.ok name, b') →
      b'.next_int = b.next_int + 1) := by
  refine ⟨applyOps_mono, ?_, ?_⟩
  · intro b b2 b' k v r hs h
    unfold Bucket.put at h
    by_cases hw : tx.writable = true
    · rw [hw, if_neg (by simp)] at h
      rcases put_data_inv h with ⟨b2x, rx, hsx, hb2x, hcase⟩
      have hs2 : Bucket.seek tx (Data.keyValue k v).key fuel b = some (b2, r) := hs
      rw [hs2] at hsx
      simp only [Option.some.injEq, Prod.mk.injEq] at hsx
      rcases hsx with ⟨hbx, hrx⟩
      rcases hcase with ⟨cur, hf, hc, hkv, hres, hb1⟩ | ⟨hres, hd, hfe, hfn⟩
      · exact absurd hres (by simp)
      · rw [hrx]
        exact ⟨hfn, hfe⟩
    · have hwf : tx.writable = false := by
        cases hv : tx.writable
        · rfl
        · exact absurd hv hw
      rw [hwf, if_pos (by simp)] at h
      exact absurd h (by simp)
  · intro b b' name h
    rcases create_bucket_next h with ⟨⟨e, he⟩, -⟩ | ⟨-, he⟩
    · exact absurd he (by simp)
    · exact he

def bSeq : Bucket :=
  .mk ⟨⟨0, 2⟩, .page 0, true,
    [⟨0, 0, .leaves [.keyValue [1] [2], .bucket [3] ⟨0, 0⟩], false⟩], [(0, 0)], []⟩
    [([3], freshChild)]

theorem spec_c2_witness :
    bOne.next_int ≤ bSeq.next_int ∧
    bPut4.next_int = bOne.next_int + 1 ∧
    bCre4.next_int = bOne.next_int + 1 :=
  ⟨(@spec_c2 txOne 3).1 [.putOp [1] [2], .createOp [3], .getOp [1], .writeOp] bOne bSeq rfl,
   ((@spec_c2 txOne 2).2.1 bOne bOne bPut4 [1] [2] ⟨false, 0, 0, none, [0]⟩ rfl rfl).1 rfl,
   (@spec_c2 txOne 2).2.2 bOne bCre4 [1] rfl⟩
